import Mathlib

/-!
# Seamless image cloning (Poisson image editing): a shallow embedding

This file embeds `ofApp::seamlessClone` of `src/ofApp.cpp` together with the helper `idx`
and the solver parameters declared in `src/ofApp.h`, and proves properties of it.

Modelling conventions.

* A pixel buffer (`ofPixels`) is a width, a height and the row-major list of its pixels.
  Colour buffers hold an `ofColor` (four `unsigned char` channels, here `Fin 256`) per pixel,
  the grayscale mask holds one intensity per pixel (`setup` converts the mask with
  `setImageType(OF_IMAGE_GRAYSCALE)` before the call).  Reading past the end of a buffer is
  undefined in C++; here such a read yields the all-zero colour (intensity `0`), and what
  is stated about buffers of different sizes assumes that every read is in range.
* A C++ `double` is an IEEE 754 binary64 number (type `Double`): a finite value, which is a
  rational number, an infinity or `NaN`.  Every arithmetic operation computes the exact
  result and rounds it to the nearest double, ties to even (`roundNearestEven`), overflowing
  to an infinity.  The two zeros of IEEE arithmetic are identified: the program takes no
  sign bit and its only division has the divisor `nCount`, a count, so that no value it
  computes depends on the sign of a zero.
* A `float` (the parameter type of `ofClamp` and of the `ofColor` constructor) is an IEEE 754
  binary32 number, represented by the double of the same value (`Double.toFloat`).
* Converting `NaN` to `unsigned char` is undefined in C++; the byte it yields is the
  parameter `nanByte` of the model.
* The two nested loops `for y ... for x ...` are folds over `List.range`, loop-carried
  variables are passed explicitly as state.
-/

namespace SeamlessClone

/-! ## Doubles -/

/-- C++ `double` (IEEE 754 binary64): a finite value, an infinity or `NaN`. -/
inductive Double where
  | fin (q : ℚ)
  | inf (negative : Bool)
  | nan
deriving DecidableEq

/-- The number of binary digits of `n` after the leading one, computed with at most `fuel`
halvings. -/
def log2Fuel : Nat → Nat → Nat
  | 0, _ => 0
  | fuel + 1, n => if n < 2 then 0 else log2Fuel fuel (n / 2) + 1

/-- The integer part of the binary logarithm of a positive natural number. -/
def log2 (n : Nat) : Nat := log2Fuel n n

/-- The exponent `e` of the positive rational `n / d`: `2 ^ e ≤ n / d < 2 ^ (e + 1)`. -/
def floorLog2 (n d : Nat) : Int :=
  let e : Int := (log2 n : Int) - (log2 d : Int)
  if n * 2 ^ (-e).toNat < d * 2 ^ e.toNat then e - 1 else e

/-- Rounding of the positive rational `n / d` to `prec` significant binary digits, with the
smallest exponent `emin`: the pair `(k, t)` stands for the value `k * 2 ^ t`, where `2 ^ t`
is the spacing of the format at `n / d` and `k` is the integer nearest to `n / d / 2 ^ t`,
the even one in case of a tie. -/
def roundSignificand (prec : Nat) (emin : Int) (n d : Nat) : Nat × Int :=
  let t : Int := max (floorLog2 n d) emin - ((prec : Int) - 1)
  let num := n * 2 ^ (-t).toNat
  let den := d * 2 ^ t.toNat
  let k := num / den
  let r := num % den
  (if 2 * r < den then k else if den < 2 * r then k + 1 else if k % 2 = 0 then k else k + 1, t)

/-- Rounding to nearest, ties to even, in the binary floating point format with `prec`
significant digits and exponents from `emin` to `emax`; a result of magnitude
`2 ^ (emax + 1)` or more overflows to an infinity. -/
def roundNearestEven (prec : Nat) (emin emax : Int) (q : ℚ) : Double :=
  if q = 0 then Double.fin 0
  else
    let kt := roundSignificand prec emin q.num.natAbs q.den
    let v : ℚ := mkRat ((kt.1 * 2 ^ kt.2.toNat : Nat) : Int) (2 ^ (-kt.2).toNat)
    if mkRat ((2 ^ (emax + 1).toNat : Nat) : Int) 1 ≤ v then Double.inf (decide (q < 0))
    else Double.fin (if q < 0 then -v else v)

namespace Double

/-- The double nearest to a rational number: the rounding applied to the exact result of
every arithmetic operation and to the decimal literals of the source. -/
def ofRat (q : ℚ) : Double := roundNearestEven 53 (-1022) 1023 q

/-- Conversion of a `double` to `float` (binary32), as performed when a double is passed to
`ofClamp`. -/
def toFloat : Double → Double
  | fin q => roundNearestEven 24 (-126) 127 q
  | inf s => inf s
  | nan => nan

/-- Addition of doubles. -/
def add : Double → Double → Double
  | fin a, fin b => ofRat (a + b)
  | fin _, inf s => inf s
  | inf s, fin _ => inf s
  | inf s, inf t => if s = t then inf s else nan
  | _, _ => nan

/-- Subtraction of doubles. -/
def sub : Double → Double → Double
  | fin a, fin b => ofRat (a - b)
  | fin _, inf s => inf (!s)
  | inf s, fin _ => inf s
  | inf s, inf t => if s = t then nan else inf s
  | _, _ => nan

/-- Multiplication of doubles. -/
def mul : Double → Double → Double
  | fin a, fin b => ofRat (a * b)
  | fin a, inf s => if a = 0 then nan else inf (decide (a < 0) != s)
  | inf s, fin b => if b = 0 then nan else inf (s != decide (b < 0))
  | inf s, inf t => inf (s != t)
  | _, _ => nan

/-- Division of doubles.  A finite non-zero value divided by zero is an infinity,
`0.0 / 0` is `NaN`. -/
def div : Double → Double → Double
  | fin a, fin b =>
    if b = 0 then (if a = 0 then nan else inf (decide (a < 0))) else ofRat (a / b)
  | fin _, inf _ => fin 0
  | inf s, fin b => inf (s != decide (b < 0))
  | _, _ => nan

/-- The function `abs` of `<cmath>` on doubles. -/
def abs : Double → Double
  | fin a => fin (if a < 0 then -a else a)
  | inf _ => inf false
  | nan => nan

/-- The comparison `a < b` of doubles: false as soon as one side is `NaN`. -/
def lt : Double → Double → Bool
  | fin a, fin b => decide (a < b)
  | fin _, inf s => !s
  | inf s, fin _ => s
  | inf s, inf t => s && !t
  | _, _ => false

/-- The function `std::max(a, b)`, which is `(a < b) ? b : a`. -/
def max (a b : Double) : Double := if lt a b then b else a

/-- Conversion `(double)c` of an `unsigned char` or of an `int`, which is exact. -/
def ofNat (n : Nat) : Double := fin (n : ℚ)

end Double

instance : Add Double := ⟨Double.add⟩
instance : Sub Double := ⟨Double.sub⟩
instance : Mul Double := ⟨Double.mul⟩
instance : Div Double := ⟨Double.div⟩

/-- The function `ofClamp(float value, float min, float max)` of openFrameworks:
`value < min ? min : value > max ? max : value`. -/
def ofClamp (value lo hi : Double) : Double :=
  if Double.lt value lo then lo else if Double.lt hi value then hi else value

/-- Conversion of a (clamped) floating point value to `unsigned char`, as performed by the
constructor `ofColor(float, float, float, float)`, which initialises its `unsigned char`
members from the floats: the fractional part is discarded.  It is only ever applied to a
value clamped into `[0, 255]`.  The byte obtained from `NaN` is `nanByte`. -/
def toByte (nanByte : Nat) : Double → Nat
  | Double.fin q => (⌊q⌋).toNat
  | Double.inf _ => nanByte
  | Double.nan => nanByte

/-! ## Pixels -/

/-- An `ofColor`: the four `unsigned char` channels of a pixel. -/
structure ofColor where
  r : Fin 256
  g : Fin 256
  b : Fin 256
  a : Fin 256
deriving DecidableEq

/-- An `ofPixels` buffer: `width`, `height` and the pixels in row-major order. -/
structure ofPixels (α : Type) where
  width : Nat
  height : Nat
  data : List α
deriving DecidableEq

/-- The helper `idx` of the source: 2D coordinates to 1D index. -/
def idx (x y width : Nat) : Nat := y * width + x

/-- The all-zero colour, read where a buffer has no pixel. -/
def ofColor.zero : ofColor := ⟨0, 0, 0, 0⟩

/-- The method `getColor(x, y)`: the pixel at row `y`, column `x` of the buffer. -/
def ofPixels.getColor (p : ofPixels ofColor) (x y : Nat) : ofColor :=
  p.data.getD (idx x y p.width) ofColor.zero

/-- The method `setColor(x, y, c)`: overwrite the pixel at row `y`, column `x`. -/
def ofPixels.setColor (p : ofPixels ofColor) (x y : Nat) (c : ofColor) : ofPixels ofColor :=
  { p with data := p.data.set (idx x y p.width) c }

/-- The raw access `maskPixels[i]` to the `i`-th intensity of a grayscale buffer. -/
def ofPixels.at (p : ofPixels Nat) (i : Nat) : Nat := p.data.getD i 0

/-- The intensity of the mask pixel at row `y`, column `x`. -/
def ofPixels.intensity (p : ofPixels Nat) (x y : Nat) : Nat := p.data.getD (idx x y p.width) 0

/-! ## Solver parameters -/

/-- The solver parameters of class `ofApp` (`src/ofApp.h`).  The fields `tolerance` and
`relaxationFactor` hold the literals written in the source, which the compiler converts to
the nearest double (`Double.ofRat`). -/
structure ofApp where
  maxIterations : Int
  tolerance : ℚ
  relaxationFactor : ℚ
  guessDestination : Bool
  mixedGradients : Bool

/-- The parameter values written in `src/ofApp.h`. -/
def ofApp.default : ofApp := ⟨500, 1 / 1000, 1, true, false⟩

/-! ## Loops -/

/-- The loop nest `for (y = 0; y < height; y++) for (x = 0; x < width; x++) body`, with the
loop-carried state `st`. -/
def forYX {σ : Type} (height width : Nat) (body : σ → Nat → Nat → σ) (st : σ) : σ :=
  (List.range height).foldl (fun s y => (List.range width).foldl (fun s x => body s x y) s) st

/-! ## The region Ω -/

/-- One step of the loop that fills `inside`. -/
def insideStep (mask : ofPixels Nat) (width : Nat) (inside : List Bool) (x y : Nat) :
    List Bool :=
  let i := idx x y width
  if mask.at i > 127 then inside.set i true else inside

/-- The vector `inside` of the source: membership in the cloning region Ω. -/
def inside (mask : ofPixels Nat) (width height : Nat) : List Bool :=
  forYX height width (insideStep mask width) (List.replicate (width * height) false)

/-- The counter `countInside` of the source. -/
def countInside (mask : ofPixels Nat) (width height : Nat) : Nat :=
  forYX height width (fun c x y => if mask.at (idx x y width) > 127 then c + 1 else c) 0

/-! ## The estimate field -/

/-- The four vectors `fR`, `fG`, `fB`, `fA` of the source. -/
structure Estimate where
  fR : List Double
  fG : List Double
  fB : List Double
  fA : List Double
deriving DecidableEq

/-- The estimate field as allocated: `width * height` zeros per channel. -/
def Estimate.zeros (n : Nat) : Estimate :=
  ⟨List.replicate n (Double.fin 0), List.replicate n (Double.fin 0),
   List.replicate n (Double.fin 0), List.replicate n (Double.fin 0)⟩

/-- One step of the initialisation loop. -/
def initStep (cfg : ofApp) (src dst : ofPixels ofColor) (ins : List Bool) (width : Nat)
    (f : Estimate) (x y : Nat) : Estimate :=
  let i := idx x y width
  if ins.getD i false then
    let dCol := if cfg.guessDestination then dst.getColor x y else src.getColor x y
    { fR := f.fR.set i (Double.ofNat dCol.r)
      fG := f.fG.set i (Double.ofNat dCol.g)
      fB := f.fB.set i (Double.ofNat dCol.b)
      fA := f.fA.set i (Double.ofNat dCol.a) }
  else f

/-- The initial estimate: the seed colour inside Ω, zero elsewhere. -/
def initEstimate (cfg : ofApp) (src dst : ofPixels ofColor) (ins : List Bool)
    (width height : Nat) : Estimate :=
  forYX height width (initStep cfg src dst ins width) (Estimate.zeros (width * height))

/-! ## One relaxation sweep -/

/-- The offsets `dx` of the 4-connected neighbourhood. -/
def dx : List Int := [-1, 1, 0, 0]

/-- The offsets `dy` of the 4-connected neighbourhood. -/
def dy : List Int := [0, 0, -1, 1]

/-- The accumulators of the neighbour loop. -/
structure Sums where
  sumR : Double
  sumG : Double
  sumB : Double
  sumA : Double
  nCount : Nat
deriving DecidableEq

/-- The guidance value of a colour channel: the destination gradient when mixed gradients
are on and it is strictly larger in absolute value, the source gradient otherwise. -/
def guidance (mixedGradients : Bool) (srcGuidance dstGuidance : Double) : Double :=
  if mixedGradients && Double.lt (Double.abs srcGuidance) (Double.abs dstGuidance)
  then dstGuidance else srcGuidance

/-- The body of the neighbour loop of pixel `(x, y)` once the bounds test has passed, for
the in-bounds neighbour `q = (nx, ny)`: the guidance values and the accumulation. -/
def addNeighbor (cfg : ofApp) (src dst : ofPixels ofColor) (ins : List Bool) (width : Nat)
    (f : Estimate) (x y : Nat) (s : Sums) (q : Nat × Nat) : Sums :=
  let j := idx q.1 q.2 width
  let srcColP := src.getColor x y
  let dstColP := dst.getColor x y
  let srcColNeighbor := src.getColor q.1 q.2
  let dstColNeighbor := dst.getColor q.1 q.2
  let guidanceR := guidance cfg.mixedGradients
    (Double.ofNat srcColP.r - Double.ofNat srcColNeighbor.r)
    (Double.ofNat dstColP.r - Double.ofNat dstColNeighbor.r)
  let guidanceG := guidance cfg.mixedGradients
    (Double.ofNat srcColP.g - Double.ofNat srcColNeighbor.g)
    (Double.ofNat dstColP.g - Double.ofNat dstColNeighbor.g)
  let guidanceB := guidance cfg.mixedGradients
    (Double.ofNat srcColP.b - Double.ofNat srcColNeighbor.b)
    (Double.ofNat dstColP.b - Double.ofNat dstColNeighbor.b)
  let guidanceA := Double.ofNat srcColP.a - Double.ofNat srcColNeighbor.a
  if ins.getD j false then
    { sumR := s.sumR + f.fR.getD j Double.nan + guidanceR
      sumG := s.sumG + f.fG.getD j Double.nan + guidanceG
      sumB := s.sumB + f.fB.getD j Double.nan + guidanceB
      sumA := s.sumA + f.fA.getD j Double.nan + guidanceA
      nCount := s.nCount + 1 }
  else
    { sumR := s.sumR + Double.ofNat dstColNeighbor.r + guidanceR
      sumG := s.sumG + Double.ofNat dstColNeighbor.g + guidanceG
      sumB := s.sumB + Double.ofNat dstColNeighbor.b + guidanceB
      sumA := s.sumA + Double.ofNat dstColNeighbor.a + guidanceA
      nCount := s.nCount + 1 }

/-- The body of the loop over the four neighbours `n = 0, 1, 2, 3` of pixel `(x, y)`:
out-of-bounds neighbour positions are skipped. -/
def neighborStep (cfg : ofApp) (src dst : ofPixels ofColor) (ins : List Bool)
    (width height : Nat) (f : Estimate) (x y : Nat) (s : Sums) (n : Nat) : Sums :=
  let nx : Int := (x : Int) + dx.getD n 0
  let ny : Int := (y : Int) + dy.getD n 0
  if nx < 0 ∨ nx ≥ (width : Int) ∨ ny < 0 ∨ ny ≥ (height : Int) then s
  else addNeighbor cfg src dst ins width f x y s (nx.toNat, ny.toNat)

/-- The neighbour loop of pixel `(x, y)`: the four sums and `nCount`. -/
def neighborSums (cfg : ofApp) (src dst : ofPixels ofColor) (ins : List Bool)
    (width height : Nat) (f : Estimate) (x y : Nat) : Sums :=
  (List.range 4).foldl (neighborStep cfg src dst ins width height f x y)
    ⟨Double.fin 0, Double.fin 0, Double.fin 0, Double.fin 0, 0⟩

/-- The state carried through a sweep: `maxDiff` and the estimate field. -/
structure SweepState where
  maxDiff : Double
  f : Estimate
deriving DecidableEq

/-- The relaxed update `(1.0 - relaxationFactor) * f + relaxationFactor * new`. -/
def relax (relaxationFactor : ℚ) (fOld new : Double) : Double :=
  (Double.fin 1 - Double.ofRat relaxationFactor) * fOld + Double.ofRat relaxationFactor * new

/-- The body of the sweep for pixel `(x, y)`. -/
def pixelStep (cfg : ofApp) (src dst : ofPixels ofColor) (ins : List Bool)
    (width height : Nat) (st : SweepState) (x y : Nat) : SweepState :=
  let i := idx x y width
  if !ins.getD i false then st
  else
    let s := neighborSums cfg src dst ins width height st.f x y
    let newR := s.sumR / Double.ofNat s.nCount
    let newG := s.sumG / Double.ofNat s.nCount
    let newB := s.sumB / Double.ofNat s.nCount
    let newA := s.sumA / Double.ofNat s.nCount
    let fRi := st.f.fR.getD i Double.nan
    let fGi := st.f.fG.getD i Double.nan
    let fBi := st.f.fB.getD i Double.nan
    let fAi := st.f.fA.getD i Double.nan
    let maxDiff := Double.max st.maxDiff (Double.abs (newR - fRi))
    let maxDiff := Double.max maxDiff (Double.abs (newG - fGi))
    let maxDiff := Double.max maxDiff (Double.abs (newB - fBi))
    let maxDiff := Double.max maxDiff (Double.abs (newA - fAi))
    { maxDiff := maxDiff
      f :=
        { fR := st.f.fR.set i (relax cfg.relaxationFactor fRi newR)
          fG := st.f.fG.set i (relax cfg.relaxationFactor fGi newG)
          fB := st.f.fB.set i (relax cfg.relaxationFactor fBi newB)
          fA := st.f.fA.set i (relax cfg.relaxationFactor fAi newA) } }

/-- One iteration of the solver loop: a full row-major sweep started with `maxDiff = 0.0`. -/
def sweep (cfg : ofApp) (src dst : ofPixels ofColor) (ins : List Bool)
    (width height : Nat) (f : Estimate) : SweepState :=
  forYX height width (pixelStep cfg src dst ins width height) ⟨Double.fin 0, f⟩

/-! ## The solver loop and the write-back -/

/-- The estimate field after `k` full sweeps from `f`, convergence test left aside. -/
def sweepsFrom (cfg : ofApp) (src dst : ofPixels ofColor) (ins : List Bool)
    (width height : Nat) (f : Estimate) : Nat → Estimate
  | 0 => f
  | k + 1 => (sweep cfg src dst ins width height (sweepsFrom cfg src dst ins width height f k)).f

/-- The loop `for (iteration = 0; iteration < maxIterations; iteration++)` with its `break`:
`budget` is the number of iterations still allowed.  Returns the number of sweeps performed
and the final estimate. -/
def iterate (cfg : ofApp) (src dst : ofPixels ofColor) (ins : List Bool)
    (width height : Nat) : Nat → Estimate → Nat × Estimate
  | 0, f => (0, f)
  | budget + 1, f =>
    let st := sweep cfg src dst ins width height f
    if Double.lt st.maxDiff (Double.ofRat cfg.tolerance) then (1, st.f)
    else
      let r := iterate cfg src dst ins width height budget st.f
      (r.1 + 1, r.2)

/-- One channel of the colour written back: `ofClamp(f, 0, 255)` takes `float` arguments,
so the double `f` is first converted to `float`; the clamped `float` then initialises an
`unsigned char` member of the `ofColor`. -/
def resultByte (nanByte : Nat) (v : Double) : Nat :=
  toByte nanByte (ofClamp (Double.toFloat v) (Double.fin 0) (Double.fin 255))

/-- The colour `ofColor(ofClamp(fR[i], 0, 255), ofClamp(fG[i], 0, 255), ofClamp(fB[i], 0, 255),
ofClamp(fA[i], 0, 255))` written back for the pixel of linear index `i`. -/
def resultColor (nanByte : Nat) (f : Estimate) (i : Nat) : ofColor :=
  ⟨Fin.ofNat (resultByte nanByte (f.fR.getD i Double.nan)),
   Fin.ofNat (resultByte nanByte (f.fG.getD i Double.nan)),
   Fin.ofNat (resultByte nanByte (f.fB.getD i Double.nan)),
   Fin.ofNat (resultByte nanByte (f.fA.getD i Double.nan))⟩

/-- One step of the write-back loop. -/
def writeStep (nanByte : Nat) (ins : List Bool) (width : Nat) (f : Estimate)
    (res : ofPixels ofColor) (x y : Nat) : ofPixels ofColor :=
  let i := idx x y width
  if ins.getD i false then res.setColor x y (resultColor nanByte f i) else res

/-- The write-back loop, started from the copy `resultPixels` of the destination. -/
def writeBack (nanByte : Nat) (ins : List Bool) (width height : Nat) (f : Estimate)
    (resultPixels : ofPixels ofColor) : ofPixels ofColor :=
  forYX height width (writeStep nanByte ins width f) resultPixels

/-- The solver part of `seamlessClone`: the number of sweeps performed and the final
estimate field. -/
def solve (cfg : ofApp) (src : ofPixels ofColor) (mask : ofPixels Nat)
    (dst : ofPixels ofColor) : Nat × Estimate :=
  let width := dst.width
  let height := dst.height
  let ins := inside mask width height
  iterate cfg src dst ins width height cfg.maxIterations.toNat
    (initEstimate cfg src dst ins width height)

/-- The function `ofApp::seamlessClone(src, mask, dst)`. -/
def seamlessClone (cfg : ofApp) (nanByte : Nat) (src : ofPixels ofColor) (mask : ofPixels Nat)
    (dst : ofPixels ofColor) : ofPixels ofColor :=
  let width := dst.width
  let height := dst.height
  writeBack nanByte (inside mask width height) width height (solve cfg src mask dst).2 dst

/-! ## Vocabulary of the specification -/

/-- The four channels of a pixel. -/
inductive Channel where
  | R
  | G
  | B
  | A
deriving DecidableEq

/-- The value of channel `c` of a colour. -/
def ofColor.chan (col : ofColor) : Channel → Nat
  | Channel.R => col.r
  | Channel.G => col.g
  | Channel.B => col.b
  | Channel.A => col.a

/-- The vector of channel `c` of the estimate field. -/
def Estimate.chan (f : Estimate) : Channel → List Double
  | Channel.R => f.fR
  | Channel.G => f.fG
  | Channel.B => f.fB
  | Channel.A => f.fA

/-- The accumulator of channel `c`. -/
def Sums.chan (s : Sums) : Channel → Double
  | Channel.R => s.sumR
  | Channel.G => s.sumG
  | Channel.B => s.sumB
  | Channel.A => s.sumA

/-- The rational value of a finite double (and `0` for an infinity and for `NaN`). -/
def Double.toRat : Double → ℚ
  | Double.fin q => q
  | Double.inf _ => 0
  | Double.nan => 0

/-- A double that is zero, positive or `+∞` (in particular not `NaN`). -/
def Double.nonneg : Double → Prop
  | Double.fin q => 0 ≤ q
  | Double.inf s => s = false
  | Double.nan => False

/-- The value `f[p]` of channel `c` of the estimate field at pixel `(x, y)`. -/
def Estimate.value (f : Estimate) (width : Nat) (c : Channel) (x y : Nat) : ℚ :=
  ((f.chan c).getD (idx x y width) Double.nan).toRat

/-- A finite double: a rational number that is its own nearest double. -/
def Double.isFinite : Double → Prop
  | Double.fin q => Double.ofRat q = Double.fin q
  | Double.inf _ => False
  | Double.nan => False

instance : DecidablePred Double.isFinite := fun d =>
  match d with
  | Double.fin q => inferInstanceAs (Decidable (Double.ofRat q = Double.fin q))
  | Double.inf _ => isFalse (fun h => h)
  | Double.nan => isFalse (fun h => h)

/-- A finite double or an infinity: what an arithmetic operation returns when it does not
return `NaN`. -/
def Double.rounded : Double → Prop
  | Double.fin q => Double.ofRat q = Double.fin q
  | Double.inf _ => True
  | Double.nan => False

/-- An estimate field for a `width * height` raster all of whose entries are finite
doubles. -/
def Estimate.finite (f : Estimate) (n : Nat) : Prop :=
  ∀ c : Channel, (f.chan c).length = n ∧ ∀ i, i < n → ((f.chan c).getD i Double.nan).isFinite

/-- Whether the vector of one channel has `n` entries, all of them finite doubles. -/
def finiteChannel (l : List Double) (n : Nat) : Prop :=
  l.length = n ∧ ∀ i, i < n → (l.getD i Double.nan).isFinite

instance (l : List Double) (n : Nat) : Decidable (finiteChannel l n) :=
  inferInstanceAs (Decidable (_ ∧ _))

instance (f : Estimate) (n : Nat) : Decidable (f.finite n) :=
  decidable_of_iff
    (finiteChannel f.fR n ∧ finiteChannel f.fG n ∧ finiteChannel f.fB n ∧ finiteChannel f.fA n)
    ⟨fun h c => by
      cases c
      · exact h.1
      · exact h.2.1
      · exact h.2.2.1
      · exact h.2.2.2,
     fun h => ⟨h Channel.R, h Channel.G, h Channel.B, h Channel.A⟩⟩

/-- The set `N_p` of the in-bounds 4-connected neighbours of pixel `p = (x, y)`: left, right,
up, down, those of them that lie in the raster. -/
def neighbors (width height x y : Nat) : List (Nat × Nat) :=
  (if 0 < x then [(x - 1, y)] else []) ++ (if x + 1 < width then [(x + 1, y)] else []) ++
  (if 0 < y then [(x, y - 1)] else []) ++ (if y + 1 < height then [(x, y + 1)] else [])

/-- The guidance value of the pair `(p, q)` in channel `c`, in the words of the
specification: the destination-side gradient when mixed gradients are enabled, the channel
is a colour channel and the destination-side gradient is strictly larger in magnitude; the
source-side gradient otherwise. -/
def guidanceValue (cfg : ofApp) (src dst : ofPixels ofColor) (c : Channel) (p q : Nat × Nat) :
    ℚ :=
  let s : ℚ := ((src.getColor p.1 p.2).chan c : ℚ) - ((src.getColor q.1 q.2).chan c : ℚ)
  let d : ℚ := ((dst.getColor p.1 p.2).chan c : ℚ) - ((dst.getColor q.1 q.2).chan c : ℚ)
  if c ≠ Channel.A ∧ cfg.mixedGradients = true ∧ |s| < |d| then d else s

/-- The discrete Poisson equation (equation (7) with (11) of the header comment of
`seamlessClone`) at pixel `p = (x, y)` in channel `c`:
`|N_p| f_p - Σ_{q ∈ N_p ∩ Ω} f_q = Σ_{q ∈ N_p \ Ω} dst_q + Σ_{q ∈ N_p} v_pq`. -/
def poisson (cfg : ofApp) (src dst : ofPixels ofColor) (ins : List Bool) (width height : Nat)
    (f : Estimate) (c : Channel) (x y : Nat) : Prop :=
  ((neighbors width height x y).length : ℚ) * f.value width c x y
    - (((neighbors width height x y).filter
          (fun q => ins.getD (idx q.1 q.2 width) false)).map
          (fun q => f.value width c q.1 q.2)).sum
  = (((neighbors width height x y).filter
          (fun q => !ins.getD (idx q.1 q.2 width) false)).map
          (fun q => ((dst.getColor q.1 q.2).chan c : ℚ))).sum
    + ((neighbors width height x y).map (guidanceValue cfg src dst c (x, y))).sum

instance (cfg : ofApp) (src dst : ofPixels ofColor) (ins : List Bool) (width height : Nat)
    (f : Estimate) (c : Channel) (x y : Nat) :
    Decidable (poisson cfg src dst ins width height f c x y) :=
  inferInstanceAs (Decidable (_ = _))

/-- The term that the in-bounds neighbour `q` of pixel `p` adds to the accumulator of
channel `c`: the current estimate at `q` when `q` is in Ω and the destination colour at `q`
otherwise, plus the guidance value of the pair. -/
def neighborTerm (cfg : ofApp) (src dst : ofPixels ofColor) (ins : List Bool) (width : Nat)
    (f : Estimate) (c : Channel) (p q : Nat × Nat) : ℚ :=
  (if ins.getD (idx q.1 q.2 width) false then f.value width c q.1 q.2
    else ((dst.getColor q.1 q.2).chan c : ℚ))
  + guidanceValue cfg src dst c p q

/-- The exact average behind the new estimate `sum / nCount` of channel `c` at pixel
`(x, y)`: the sum of the neighbour terms divided by their number, computed without
rounding.  The sweep body computes `newValue`, which rounds after every operation. -/
def newEstimate (cfg : ofApp) (src dst : ofPixels ofColor) (ins : List Bool)
    (width height : Nat) (f : Estimate) (c : Channel) (x y : Nat) : ℚ :=
  ((neighbors width height x y).map (neighborTerm cfg src dst ins width f c (x, y))).sum
    / ((neighbors width height x y).length : ℚ)

/-- The value `new` that the sweep body computes for channel `c` of pixel `(x, y)` on the
estimate field `f`: the accumulated sum divided by `nCount`, in double arithmetic. -/
def newValue (cfg : ofApp) (src dst : ofPixels ofColor) (ins : List Bool)
    (width height : Nat) (f : Estimate) (c : Channel) (x y : Nat) : Double :=
  (neighborSums cfg src dst ins width height f x y).chan c
    / Double.ofNat (neighborSums cfg src dst ins width height f x y).nCount

/-- The byte obtained, in the words of the specification, by clamping a value into
`[0, 255]` and rounding it to the nearest integer. -/
def clampRound (q : ℚ) : Nat := (round (max 0 (min q 255))).toNat

/-- The byte obtained by clamping a value into `[0, 255]` and discarding its fractional
part. -/
def clampTruncate (q : ℚ) : Nat := (⌊max 0 (min q 255)⌋).toNat

/-- The max delta `maxDiff` reported by sweep number `k + 1` of a solve started from `f`. -/
def maxDelta (cfg : ofApp) (src dst : ofPixels ofColor) (ins : List Bool)
    (width height : Nat) (f : Estimate) (k : Nat) : Double :=
  (sweep cfg src dst ins width height (sweepsFrom cfg src dst ins width height f k)).maxDiff

/-- The body of a Jacobi sweep for pixel `(x, y)`, in the words of the specification: the
pixel is updated from the frozen values `frozen` of the previous sweep instead of the
values already updated in the current sweep. -/
def jacobiStep (cfg : ofApp) (src dst : ofPixels ofColor) (ins : List Bool)
    (width height : Nat) (frozen : Estimate) (st : SweepState) (x y : Nat) : SweepState :=
  let i := idx x y width
  if !ins.getD i false then st
  else
    let s := neighborSums cfg src dst ins width height frozen x y
    let newR := s.sumR / Double.ofNat s.nCount
    let newG := s.sumG / Double.ofNat s.nCount
    let newB := s.sumB / Double.ofNat s.nCount
    let newA := s.sumA / Double.ofNat s.nCount
    let fRi := frozen.fR.getD i Double.nan
    let fGi := frozen.fG.getD i Double.nan
    let fBi := frozen.fB.getD i Double.nan
    let fAi := frozen.fA.getD i Double.nan
    let maxDiff := Double.max st.maxDiff (Double.abs (newR - fRi))
    let maxDiff := Double.max maxDiff (Double.abs (newG - fGi))
    let maxDiff := Double.max maxDiff (Double.abs (newB - fBi))
    let maxDiff := Double.max maxDiff (Double.abs (newA - fAi))
    { maxDiff := maxDiff
      f :=
        { fR := st.f.fR.set i (relax cfg.relaxationFactor fRi newR)
          fG := st.f.fG.set i (relax cfg.relaxationFactor fGi newG)
          fB := st.f.fB.set i (relax cfg.relaxationFactor fBi newB)
          fA := st.f.fA.set i (relax cfg.relaxationFactor fAi newA) } }

/-- A Jacobi sweep: every pixel of Ω is updated from the values the field had when the sweep
started. -/
def jacobiSweep (cfg : ofApp) (src dst : ofPixels ofColor) (ins : List Bool)
    (width height : Nat) (f : Estimate) : SweepState :=
  forYX height width (jacobiStep cfg src dst ins width height f) ⟨Double.fin 0, f⟩

/-- The state of a sweep started from `f` after its first `k` pixels (in row-major order). -/
def sweepPrefix (cfg : ofApp) (src dst : ofPixels ofColor) (ins : List Bool)
    (width height : Nat) (f : Estimate) (k : Nat) : SweepState :=
  (List.range k).foldl
    (fun s i => pixelStep cfg src dst ins width height s (i % width) (i / width))
    ⟨Double.fin 0, f⟩

/-- The rational value of channel `c` of the estimate field at linear index `j`. -/
def Estimate.entry (f : Estimate) (c : Channel) (j : Nat) : ℚ :=
  ((f.chan c).getD j Double.nan).toRat

/-- An estimate field whose first `n` entries are, in every channel, of magnitude at most
`T`. -/
def Estimate.bounded (f : Estimate) (n : Nat) (T : ℚ) : Prop :=
  ∀ c : Channel, ∀ i, i < n → |f.entry c i| ≤ T

instance (f : Estimate) (n : Nat) (T : ℚ) : Decidable (f.bounded n T) :=
  decidable_of_iff
    ((∀ i, i < n → |f.entry Channel.R i| ≤ T) ∧ (∀ i, i < n → |f.entry Channel.G i| ≤ T) ∧
     (∀ i, i < n → |f.entry Channel.B i| ≤ T) ∧ (∀ i, i < n → |f.entry Channel.A i| ≤ T))
    ⟨fun h c => by
      cases c
      · exact h.1
      · exact h.2.1
      · exact h.2.2.1
      · exact h.2.2.2,
     fun h => ⟨h Channel.R, h Channel.G, h Channel.B, h Channel.A⟩⟩

/-- The max delta reported by the last sweep that `seamlessClone` performs (the first
sweep when it performs none). -/
def lastDelta (cfg : ofApp) (src : ofPixels ofColor) (mask : ofPixels Nat)
    (dst : ofPixels ofColor) : Double :=
  maxDelta cfg src dst (inside mask dst.width dst.height) dst.width dst.height
    (initEstimate cfg src dst (inside mask dst.width dst.height) dst.width dst.height)
    ((solve cfg src mask dst).1 - 1)

/-! ## Loop lemmas -/

theorem foldl_congr_mem {σ β : Type} (f g : σ → β → σ) (l : List β)
    (hfg : ∀ s, ∀ b ∈ l, f s b = g s b) (st : σ) : l.foldl f st = l.foldl g st := by
  induction l generalizing st with
  | nil => rfl
  | cons b t ih =>
    simp only [List.foldl_cons]
    rw [hfg st b (List.mem_cons_self b t)]
    exact ih (fun s c hc => hfg s c (List.mem_cons_of_mem b hc)) _

/-- The loop nest visits the pixels in the order of their linear index. -/
theorem forYX_eq_foldl_range {σ : Type} (height width : Nat) (body : σ → Nat → Nat → σ)
    (st : σ) :
    forYX height width body st
      = (List.range (width * height)).foldl (fun s i => body s (i % width) (i / width)) st := by
  induction height with
  | zero => simp [forYX]
  | succ h ih =>
    have hsplit : width * (h + 1) = width * h + width := by ring
    unfold forYX at ih ⊢
    rw [List.range_succ, List.foldl_append, ih, hsplit, List.range_add, List.foldl_append,
      List.foldl_map]
    simp only [List.foldl_cons, List.foldl_nil]
    apply foldl_congr_mem
    intro s x hx
    have hxw : x < width := List.mem_range.mp hx
    have h1 : (width * h + x) % width = x := by
      rw [Nat.mul_add_mod]; exact Nat.mod_eq_of_lt hxw
    have h2 : (width * h + x) / width = h := by
      rw [Nat.mul_add_div (by omega), Nat.div_eq_of_lt hxw, Nat.add_zero]
    rw [h1, h2]

/-- Invariant rule for a loop over `0, 1, ..., n - 1`. -/
theorem foldl_range_induction {σ : Type} (P : Nat → σ → Prop) (f : σ → Nat → σ) (n : Nat)
    (st : σ) (h0 : P 0 st) (hstep : ∀ i s, i < n → P i s → P (i + 1) (f s i)) :
    P n ((List.range n).foldl f st) := by
  induction n with
  | zero => simpa using h0
  | succ k ih =>
    rw [List.range_succ, List.foldl_append]
    simp only [List.foldl_cons, List.foldl_nil]
    exact hstep k _ (Nat.lt_succ_self k)
      (ih (fun i s hi hP => hstep i s (Nat.lt_succ_of_lt hi) hP))

/-- Invariant rule for the loop nest, by linear pixel index. -/
theorem forYX_induction {σ : Type} (P : Nat → σ → Prop) (height width : Nat)
    (body : σ → Nat → Nat → σ) (st : σ) (h0 : P 0 st)
    (hstep : ∀ i s, i < width * height → P i s → P (i + 1) (body s (i % width) (i / width))) :
    P (width * height) (forYX height width body st) := by
  rw [forYX_eq_foldl_range]
  exact foldl_range_induction P _ _ st h0 hstep

theorem idx_mod_div (i width : Nat) : idx (i % width) (i / width) width = i := by
  unfold idx
  rw [Nat.mul_comm]
  exact Nat.div_add_mod i width

theorem idx_lt {x y width height : Nat} (hx : x < width) (hy : y < height) :
    idx x y width < width * height := by
  unfold idx
  calc y * width + x < y * width + width := by omega
    _ = width * (y + 1) := by ring
    _ ≤ width * height := Nat.mul_le_mul_left _ hy

theorem idx_mod {x y width : Nat} (hx : x < width) : idx x y width % width = x := by
  unfold idx
  rw [Nat.mul_comm, Nat.mul_add_mod]
  exact Nat.mod_eq_of_lt hx

theorem idx_div {x y width : Nat} (hx : x < width) : idx x y width / width = y := by
  unfold idx
  rw [Nat.mul_comm, Nat.mul_add_div (by omega), Nat.div_eq_of_lt hx, Nat.add_zero]

theorem getD_set {α : Type} (l : List α) (i j : Nat) (a d : α) :
    (l.set i a).getD j d = if i = j ∧ i < l.length then a else l.getD j d := by
  simp only [List.getD_eq_getElem?_getD, List.getElem?_set]
  by_cases hij : i = j
  · subst hij
    by_cases hl : i < l.length
    · simp [hl]
    · simp [hl, List.getElem?_eq_none (Nat.le_of_not_lt hl)]
  · simp [hij]

theorem getD_replicate {α : Type} (n i : Nat) (a : α) : (List.replicate n a).getD i a = a := by
  simp only [List.getD_eq_getElem?_getD, List.getElem?_replicate]
  split <;> rfl

/-! ## The region Ω -/

theorem inside_spec (mask : ofPixels Nat) (width height : Nat) :
    (inside mask width height).length = width * height ∧
    ∀ i, (inside mask width height).getD i false
      = (decide (i < width * height) && decide (mask.at i > 127)) := by
  have key := forYX_induction
    (fun k (ins : List Bool) => ins.length = width * height ∧
      ∀ i, ins.getD i false = (decide (i < k) && decide (i < width * height)
        && decide (mask.at i > 127)))
    height width (insideStep mask width) (List.replicate (width * height) false)
    (by
      refine ⟨List.length_replicate _ _, fun i => ?_⟩
      simp [getD_replicate])
    (by
      intro k ins hk hP
      obtain ⟨hlen, hget⟩ := hP
      unfold insideStep
      simp only [idx_mod_div]
      by_cases hm : mask.at k > 127
      · simp only [hm, if_true]
        refine ⟨by simp [hlen], fun i => ?_⟩
        rw [getD_set, hget i]
        by_cases hik : k = i
        · subst hik
          simp [hlen, hk, hm]
        · have : (i < k + 1) = (i < k) := by
            apply propext; constructor <;> intro h <;> omega
          simp [hik, this]
      · simp only [hm, if_false]
        refine ⟨hlen, fun i => ?_⟩
        rw [hget i]
        by_cases hik : i = k
        · subst hik
          simp [hm]
        · have : (i < k + 1) = (i < k) := by
            apply propext; constructor <;> intro h <;> omega
          simp [this])
  have key1 : (inside mask width height).length = width * height := key.1
  have key2 : ∀ i, (inside mask width height).getD i false = (decide (i < width * height)
      && decide (i < width * height) && decide (mask.at i > 127)) := key.2
  refine ⟨key1, fun i => ?_⟩
  rw [key2 i]
  by_cases hi : i < width * height <;> simp [hi]

theorem inside_length (mask : ofPixels Nat) (width height : Nat) :
    (inside mask width height).length = width * height :=
  (inside_spec mask width height).1

theorem inside_getD (mask : ofPixels Nat) (width height i : Nat) :
    (inside mask width height).getD i false
      = (decide (i < width * height) && decide (mask.at i > 127)) :=
  (inside_spec mask width height).2 i

/-- Claim C3: for a mask of the raster's width, the membership map is true at an in-bounds
pixel `(x, y)` exactly when the mask intensity there is strictly greater than 127; a mask
pixel of intensity 127 is outside Ω and one of intensity 128 is inside. -/
theorem inside_iff_intensity_gt_127 (mask : ofPixels Nat) (width height x y : Nat)
    (hw : mask.width = width) (hx : x < width) (hy : y < height) :
    ((inside mask width height).getD (idx x y width) false = true ↔ mask.intensity x y > 127)
    ∧ (mask.intensity x y = 127 → (inside mask width height).getD (idx x y width) false = false)
    ∧ (mask.intensity x y = 128 → (inside mask width height).getD (idx x y width) false = true) := by
  have hlt := idx_lt hx hy
  have hval : (inside mask width height).getD (idx x y width) false
      = decide (mask.intensity x y > 127) := by
    rw [inside_getD]
    simp [hlt, ofPixels.at, ofPixels.intensity, hw]
  rw [hval]
  refine ⟨by simp, fun h => by simp [h], fun h => by simp [h]⟩

theorem inside_iff_intensity_gt_127_witness :
    (((inside ⟨2, 1, [127, 128]⟩ 2 1).getD (idx 1 0 2) false = true
      ↔ ofPixels.intensity ⟨2, 1, [127, 128]⟩ 1 0 > 127)
    ∧ (ofPixels.intensity ⟨2, 1, [127, 128]⟩ 1 0 = 127 →
        (inside ⟨2, 1, [127, 128]⟩ 2 1).getD (idx 1 0 2) false = false)
    ∧ (ofPixels.intensity ⟨2, 1, [127, 128]⟩ 1 0 = 128 →
        (inside ⟨2, 1, [127, 128]⟩ 2 1).getD (idx 1 0 2) false = true))
    ∧ (inside ⟨2, 1, [127, 128]⟩ 2 1) = [false, true] :=
  ⟨inside_iff_intensity_gt_127 ⟨2, 1, [127, 128]⟩ 2 1 1 0 rfl (by decide) (by decide),
   by decide⟩

/-! ## The write-back -/

theorem writeBack_spec (nanByte : Nat) (ins : List Bool) (width height : Nat) (f : Estimate)
    (res : ofPixels ofColor) (hw : res.width = width) :
    (writeBack nanByte ins width height f res).width = res.width ∧
    (writeBack nanByte ins width height f res).height = res.height ∧
    (writeBack nanByte ins width height f res).data.length = res.data.length ∧
    ∀ i, (writeBack nanByte ins width height f res).data.getD i ofColor.zero
      = if i < width * height ∧ ins.getD i false = true ∧ i < res.data.length
        then resultColor nanByte f i else res.data.getD i ofColor.zero := by
  have key := forYX_induction
    (fun k (r : ofPixels ofColor) => r.width = res.width ∧ r.height = res.height ∧
      r.data.length = res.data.length ∧
      ∀ i, r.data.getD i ofColor.zero
        = if i < k ∧ ins.getD i false = true ∧ i < res.data.length
          then resultColor nanByte f i else res.data.getD i ofColor.zero)
    height width (writeStep nanByte ins width f) res
    (by simp)
    (by
      intro k r hk hP
      obtain ⟨hrw, hrh, hlen, hget⟩ := hP
      unfold writeStep
      simp only [idx_mod_div]
      by_cases hin : ins.getD k false = true
      · simp only [hin, if_true]
        have hidx : idx (k % width) (k / width) r.width = k := by
          rw [hrw, hw]; exact idx_mod_div k width
        refine ⟨hrw, hrh, by simp [ofPixels.setColor, hlen], fun i => ?_⟩
        simp only [ofPixels.setColor, hidx]
        rw [getD_set, hget i, hlen]
        by_cases hik : k = i
        · subst hik
          by_cases hl : k < res.data.length
          · simp [-List.getD_eq_getElem?_getD, hl, hin]
          · simp [-List.getD_eq_getElem?_getD, hl]
        · have : (i < k + 1) = (i < k) := by
            apply propext; constructor <;> intro h <;> omega
          simp [-List.getD_eq_getElem?_getD, hik, this]
      · have hin2 : ins.getD k false = false := by
          cases hb : ins.getD k false
          · rfl
          · exact absurd hb hin
        simp only [hin2, Bool.false_eq_true, if_false]
        refine ⟨hrw, hrh, hlen, fun i => ?_⟩
        rw [hget i]
        by_cases hik : i = k
        · subst hik
          simp [-List.getD_eq_getElem?_getD, hin2]
        · have : (i < k + 1) = (i < k) := by
            apply propext; constructor <;> intro h <;> omega
          simp [-List.getD_eq_getElem?_getD, this])
  exact key

theorem seamlessClone_data_getD (cfg : ofApp) (nanByte : Nat) (src : ofPixels ofColor)
    (mask : ofPixels Nat) (dst : ofPixels ofColor) (i : Nat) :
    (seamlessClone cfg nanByte src mask dst).data.getD i ofColor.zero
      = if (inside mask dst.width dst.height).getD i false = true ∧ i < dst.data.length
        then resultColor nanByte (solve cfg src mask dst).2 i
        else dst.data.getD i ofColor.zero := by
  unfold seamlessClone
  simp only
  rw [(writeBack_spec nanByte _ dst.width dst.height _ dst rfl).2.2.2 i]
  by_cases hin : (inside mask dst.width dst.height).getD i false = true
  · have hlt : i < dst.width * dst.height := by
      rw [inside_getD] at hin
      simp only [Bool.and_eq_true, decide_eq_true_eq] at hin
      exact hin.1
    simp [-List.getD_eq_getElem?_getD, hin, hlt]
  · simp [-List.getD_eq_getElem?_getD, hin]

theorem seamlessClone_width (cfg : ofApp) (nanByte : Nat) (src : ofPixels ofColor)
    (mask : ofPixels Nat) (dst : ofPixels ofColor) :
    (seamlessClone cfg nanByte src mask dst).width = dst.width :=
  (writeBack_spec nanByte _ dst.width dst.height _ dst rfl).1

theorem seamlessClone_height (cfg : ofApp) (nanByte : Nat) (src : ofPixels ofColor)
    (mask : ofPixels Nat) (dst : ofPixels ofColor) :
    (seamlessClone cfg nanByte src mask dst).height = dst.height :=
  (writeBack_spec nanByte _ dst.width dst.height _ dst rfl).2.1

theorem seamlessClone_length (cfg : ofApp) (nanByte : Nat) (src : ofPixels ofColor)
    (mask : ofPixels Nat) (dst : ofPixels ofColor) :
    (seamlessClone cfg nanByte src mask dst).data.length = dst.data.length :=
  (writeBack_spec nanByte _ dst.width dst.height _ dst rfl).2.2.1

theorem ofPixels_ext {α : Type} (p q : ofPixels α) (hw : p.width = q.width)
    (hh : p.height = q.height) (hd : p.data = q.data) : p = q := by
  cases p; cases q; simp_all

theorem list_eq_of_getD {α : Type} (l₁ l₂ : List α) (d : α) (hlen : l₁.length = l₂.length)
    (h : ∀ i, l₁.getD i d = l₂.getD i d) : l₁ = l₂ := by
  apply List.ext_getElem hlen
  intro i h1 h2
  have := h i
  rwa [List.getD_eq_getElem _ d h1, List.getD_eq_getElem _ d h2] at this

/-! ## Frame: pixels outside Ω -/

/-- Claim C1: every pixel position outside Ω holds, in the result, the colour (all four
channels) of the destination at that position, for all buffers and all parameters. -/
theorem seamlessClone_outside_eq_dst (cfg : ofApp) (nanByte : Nat) (src : ofPixels ofColor)
    (mask : ofPixels Nat) (dst : ofPixels ofColor) (x y : Nat)
    (hout : (inside mask dst.width dst.height).getD (idx x y dst.width) false = false) :
    (seamlessClone cfg nanByte src mask dst).getColor x y = dst.getColor x y := by
  unfold ofPixels.getColor
  rw [seamlessClone_width, seamlessClone_data_getD, hout]
  simp

theorem seamlessClone_outside_eq_dst_witness :
    (inside ⟨2, 1, [255, 0]⟩ 2 1).getD (idx 1 0 2) false = false ∧
    (seamlessClone ofApp.default 0 ⟨2, 1, [⟨9, 8, 7, 6⟩, ⟨5, 4, 3, 2⟩]⟩ ⟨2, 1, [255, 0]⟩
        ⟨2, 1, [⟨10, 20, 30, 40⟩, ⟨50, 60, 70, 80⟩]⟩).getColor 1 0
      = ofPixels.getColor ⟨2, 1, [⟨10, 20, 30, 40⟩, ⟨50, 60, 70, 80⟩]⟩ 1 0 :=
  ⟨by decide,
   seamlessClone_outside_eq_dst ofApp.default 0 ⟨2, 1, [⟨9, 8, 7, 6⟩, ⟨5, 4, 3, 2⟩]⟩
     ⟨2, 1, [255, 0]⟩ ⟨2, 1, [⟨10, 20, 30, 40⟩, ⟨50, 60, 70, 80⟩]⟩ 1 0 (by decide)⟩

/-! ## The empty region -/

theorem at_le_of_forall_le (mask : ofPixels Nat) (hmask : ∀ v ∈ mask.data, v ≤ 127) (i : Nat) :
    mask.at i ≤ 127 := by
  unfold ofPixels.at
  by_cases hi : i < mask.data.length
  · rw [List.getD_eq_getElem _ _ hi]
    exact hmask _ (List.getElem_mem hi)
  · rw [List.getD_eq_default _ _ (Nat.le_of_not_lt hi)]
    omega

/-- Claim C2: when the mask intensity is at or below 127 at every position, the result is
the destination buffer itself, for every source and all parameters. -/
theorem seamlessClone_empty_region (cfg : ofApp) (nanByte : Nat) (src : ofPixels ofColor)
    (mask : ofPixels Nat) (dst : ofPixels ofColor) (hmask : ∀ v ∈ mask.data, v ≤ 127) :
    seamlessClone cfg nanByte src mask dst = dst := by
  apply ofPixels_ext _ _ (seamlessClone_width ..) (seamlessClone_height ..)
  apply list_eq_of_getD _ _ ofColor.zero (seamlessClone_length ..)
  intro i
  rw [seamlessClone_data_getD]
  have hfalse : (inside mask dst.width dst.height).getD i false = false := by
    rw [inside_getD]
    have := at_le_of_forall_le mask hmask i
    have h127 : ¬ mask.at i > 127 := by omega
    simp [h127]
  rw [hfalse]
  simp

theorem seamlessClone_empty_region_witness :
    (∀ v ∈ (⟨2, 1, [127, 0]⟩ : ofPixels Nat).data, v ≤ 127) ∧
    seamlessClone ofApp.default 0 ⟨2, 1, [⟨9, 8, 7, 6⟩, ⟨5, 4, 3, 2⟩]⟩ ⟨2, 1, [127, 0]⟩
        ⟨2, 1, [⟨10, 20, 30, 40⟩, ⟨50, 60, 70, 80⟩]⟩
      = ⟨2, 1, [⟨10, 20, 30, 40⟩, ⟨50, 60, 70, 80⟩]⟩ :=
  ⟨by decide,
   seamlessClone_empty_region ofApp.default 0 ⟨2, 1, [⟨9, 8, 7, 6⟩, ⟨5, 4, 3, 2⟩]⟩
     ⟨2, 1, [127, 0]⟩ ⟨2, 1, [⟨10, 20, 30, 40⟩, ⟨50, 60, 70, 80⟩]⟩ (by decide)⟩

/-! ## Mismatched dimensions -/

theorem neighborSums_eq_foldl (cfg : ofApp) (src dst : ofPixels ofColor) (ins : List Bool)
    (width height : Nat) (f : Estimate) (x y : Nat) (hx : x < width) (hy : y < height) :
    neighborSums cfg src dst ins width height f x y
      = (neighbors width height x y).foldl (addNeighbor cfg src dst ins width f x y)
          ⟨Double.fin 0, Double.fin 0, Double.fin 0, Double.fin 0, 0⟩ := by
  have hrange : List.range 4 = [0, 1, 2, 3] := by decide
  have h0 : ∀ s, neighborStep cfg src dst ins width height f x y s 0
      = if 0 < x then addNeighbor cfg src dst ins width f x y s (x - 1, y) else s := by
    intro s
    unfold neighborStep
    simp only [dx, dy, List.getD_cons_zero]
    by_cases h : 0 < x
    · have hc : ¬ ((x : Int) + -1 < 0 ∨ (x : Int) + -1 ≥ width ∨ (y : Int) + 0 < 0
          ∨ (y : Int) + 0 ≥ height) := by omega
      have e1 : ((x : Int) + -1).toNat = x - 1 := by omega
      have e2 : ((y : Int) + 0).toNat = y := by omega
      rw [if_neg hc, if_pos h, e1, e2]
    · have hc : ((x : Int) + -1 < 0 ∨ (x : Int) + -1 ≥ width ∨ (y : Int) + 0 < 0
          ∨ (y : Int) + 0 ≥ height) := by omega
      rw [if_pos hc, if_neg h]
  have h1 : ∀ s, neighborStep cfg src dst ins width height f x y s 1
      = if x + 1 < width then addNeighbor cfg src dst ins width f x y s (x + 1, y) else s := by
    intro s
    unfold neighborStep
    simp only [dx, dy, List.getD_cons_succ, List.getD_cons_zero]
    by_cases h : x + 1 < width
    · have hc : ¬ ((x : Int) + 1 < 0 ∨ (x : Int) + 1 ≥ width ∨ (y : Int) + 0 < 0
          ∨ (y : Int) + 0 ≥ height) := by omega
      have e1 : ((x : Int) + 1).toNat = x + 1 := by omega
      have e2 : ((y : Int) + 0).toNat = y := by omega
      rw [if_neg hc, if_pos h, e1, e2]
    · have hc : ((x : Int) + 1 < 0 ∨ (x : Int) + 1 ≥ width ∨ (y : Int) + 0 < 0
          ∨ (y : Int) + 0 ≥ height) := by omega
      rw [if_pos hc, if_neg h]
  have h2 : ∀ s, neighborStep cfg src dst ins width height f x y s 2
      = if 0 < y then addNeighbor cfg src dst ins width f x y s (x, y - 1) else s := by
    intro s
    unfold neighborStep
    simp only [dx, dy, List.getD_cons_succ, List.getD_cons_zero]
    by_cases h : 0 < y
    · have hc : ¬ ((x : Int) + 0 < 0 ∨ (x : Int) + 0 ≥ width ∨ (y : Int) + -1 < 0
          ∨ (y : Int) + -1 ≥ height) := by omega
      have e1 : ((x : Int) + 0).toNat = x := by omega
      have e2 : ((y : Int) + -1).toNat = y - 1 := by omega
      rw [if_neg hc, if_pos h, e1, e2]
    · have hc : ((x : Int) + 0 < 0 ∨ (x : Int) + 0 ≥ width ∨ (y : Int) + -1 < 0
          ∨ (y : Int) + -1 ≥ height) := by omega
      rw [if_pos hc, if_neg h]
  have h3 : ∀ s, neighborStep cfg src dst ins width height f x y s 3
      = if y + 1 < height then addNeighbor cfg src dst ins width f x y s (x, y + 1) else s := by
    intro s
    unfold neighborStep
    simp only [dx, dy, List.getD_cons_succ, List.getD_cons_zero]
    by_cases h : y + 1 < height
    · have hc : ¬ ((x : Int) + 0 < 0 ∨ (x : Int) + 0 ≥ width ∨ (y : Int) + 1 < 0
          ∨ (y : Int) + 1 ≥ height) := by omega
      have e1 : ((x : Int) + 0).toNat = x := by omega
      have e2 : ((y : Int) + 1).toNat = y + 1 := by omega
      rw [if_neg hc, if_pos h, e1, e2]
    · have hc : ((x : Int) + 0 < 0 ∨ (x : Int) + 0 ≥ width ∨ (y : Int) + 1 < 0
          ∨ (y : Int) + 1 ≥ height) := by omega
      rw [if_pos hc, if_neg h]
  unfold neighborSums neighbors
  rw [hrange]
  simp only [List.foldl_cons, List.foldl_nil, List.foldl_append, h0, h1, h2, h3]
  by_cases c0 : 0 < x <;> by_cases c1 : x + 1 < width <;> by_cases c2 : 0 < y <;>
    by_cases c3 : y + 1 < height <;> simp [c0, c1, c2, c3]

theorem addNeighbor_nCount (cfg : ofApp) (src dst : ofPixels ofColor) (ins : List Bool)
    (width : Nat) (f : Estimate) (x y : Nat) (s : Sums) (q : Nat × Nat) :
    (addNeighbor cfg src dst ins width f x y s q).nCount = s.nCount + 1 := by
  unfold addNeighbor
  simp only
  split <;> rfl

theorem foldl_addNeighbor_nCount (cfg : ofApp) (src dst : ofPixels ofColor) (ins : List Bool)
    (width : Nat) (f : Estimate) (x y : Nat) (l : List (Nat × Nat)) (s : Sums) :
    (l.foldl (addNeighbor cfg src dst ins width f x y) s).nCount = s.nCount + l.length := by
  induction l generalizing s with
  | nil => rfl
  | cons q t ih =>
    simp only [List.foldl_cons, List.length_cons]
    rw [ih, addNeighbor_nCount]
    omega

/-- The counter `nCount` of the neighbour loop is the number of in-bounds neighbours. -/
theorem neighborSums_nCount (cfg : ofApp) (src dst : ofPixels ofColor) (ins : List Bool)
    (width height : Nat) (f : Estimate) (x y : Nat) (hx : x < width) (hy : y < height) :
    (neighborSums cfg src dst ins width height f x y).nCount
      = (neighbors width height x y).length := by
  rw [neighborSums_eq_foldl _ _ _ _ _ _ _ _ _ hx hy, foldl_addNeighbor_nCount]
  simp

theorem neighbors_length_le (width height x y : Nat) :
    (neighbors width height x y).length ≤ 4 := by
  unfold neighbors
  by_cases c0 : 0 < x <;> by_cases c1 : x + 1 < width <;> by_cases c2 : 0 < y <;>
    by_cases c3 : y + 1 < height <;> simp [c0, c1, c2, c3]

theorem neighbors_length_pos (width height x y : Nat) (hx : x < width) (hy : y < height)
    (h2 : 2 ≤ width * height) : 1 ≤ (neighbors width height x y).length := by
  unfold neighbors
  by_cases c0 : 0 < x
  · simp only [c0, if_true, List.length_append, List.length_cons, List.length_nil]
    omega
  by_cases c1 : x + 1 < width
  · simp only [c1, if_true, List.length_append, List.length_cons, List.length_nil]
    omega
  by_cases c2 : 0 < y
  · simp only [c2, if_true, List.length_append, List.length_cons, List.length_nil]
    omega
  by_cases c3 : y + 1 < height
  · simp only [c3, if_true, List.length_append, List.length_cons, List.length_nil]
    omega
  exfalso
  have hw : width = 1 := by omega
  have hh : height = 1 := by omega
  subst hw; subst hh
  omega

/-- Claim C8, as stated, fails: the single pixel of a 1×1 raster has no in-bounds neighbour,
so `nCount` is 0 there and the averaging divides by zero. -/
theorem nCount_one_by_one_eq_zero :
    (neighborSums ofApp.default ⟨1, 1, [⟨1, 2, 3, 4⟩]⟩ ⟨1, 1, [⟨1, 2, 3, 4⟩]⟩
        (inside ⟨1, 1, [255]⟩ 1 1) 1 1
        (initEstimate ofApp.default ⟨1, 1, [⟨1, 2, 3, 4⟩]⟩ ⟨1, 1, [⟨1, 2, 3, 4⟩]⟩
          (inside ⟨1, 1, [255]⟩ 1 1) 1 1) 0 0).nCount = 0
    ∧ (inside ⟨1, 1, [255]⟩ 1 1).getD (idx 0 0 1) false = true := by
  decide!

/-- Claim C8, amended: in every raster with more than one pixel, the number `nCount` of
in-bounds 4-connected neighbours accumulated for an in-bounds pixel is between 1 and 4, so
the averaging divides by a non-zero count (also when Ω covers the entire raster). -/
theorem nCount_between_one_and_four (cfg : ofApp) (src dst : ofPixels ofColor)
    (ins : List Bool) (width height : Nat) (f : Estimate) (x y : Nat)
    (hx : x < width) (hy : y < height) (h2 : 2 ≤ width * height) :
    1 ≤ (neighborSums cfg src dst ins width height f x y).nCount ∧
    (neighborSums cfg src dst ins width height f x y).nCount ≤ 4 ∧
    Double.ofNat (neighborSums cfg src dst ins width height f x y).nCount ≠ Double.fin 0 := by
  rw [neighborSums_nCount _ _ _ _ _ _ _ _ _ hx hy]
  have h1 := neighbors_length_pos width height x y hx hy h2
  refine ⟨h1, neighbors_length_le width height x y, ?_⟩
  unfold Double.ofNat
  intro h
  injection h with h
  have : ((neighbors width height x y).length : ℚ) ≠ 0 := by
    exact_mod_cast (by omega : (neighbors width height x y).length ≠ 0)
  exact this h

theorem nCount_between_one_and_four_witness :
    1 ≤ (neighborSums ofApp.default ⟨2, 1, [⟨1, 2, 3, 4⟩, ⟨5, 6, 7, 8⟩]⟩
        ⟨2, 1, [⟨1, 2, 3, 4⟩, ⟨5, 6, 7, 8⟩]⟩ [true, true] 2 1
        (Estimate.zeros 2) 0 0).nCount ∧
    (neighborSums ofApp.default ⟨2, 1, [⟨1, 2, 3, 4⟩, ⟨5, 6, 7, 8⟩]⟩
        ⟨2, 1, [⟨1, 2, 3, 4⟩, ⟨5, 6, 7, 8⟩]⟩ [true, true] 2 1
        (Estimate.zeros 2) 0 0).nCount ≤ 4 ∧
    Double.ofNat (neighborSums ofApp.default ⟨2, 1, [⟨1, 2, 3, 4⟩, ⟨5, 6, 7, 8⟩]⟩
        ⟨2, 1, [⟨1, 2, 3, 4⟩, ⟨5, 6, 7, 8⟩]⟩ [true, true] 2 1
        (Estimate.zeros 2) 0 0).nCount ≠ Double.fin 0 :=
  nCount_between_one_and_four ofApp.default ⟨2, 1, [⟨1, 2, 3, 4⟩, ⟨5, 6, 7, 8⟩]⟩
    ⟨2, 1, [⟨1, 2, 3, 4⟩, ⟨5, 6, 7, 8⟩]⟩ [true, true] 2 1 (Estimate.zeros 2) 0 0
    (by decide) (by decide) (by decide)

/-! ## Doubles -/

/-! ### Rounding to nearest -/

theorem log2Fuel_spec : ∀ (fuel n : Nat), n ≤ fuel → 0 < n →
    2 ^ log2Fuel fuel n ≤ n ∧ n < 2 ^ (log2Fuel fuel n + 1)
  | 0, n, h, h0 => by omega
  | fuel + 1, n, h, h0 => by
    unfold log2Fuel
    by_cases h2 : n < 2
    · simp only [h2, if_true]
      omega
    · simp only [h2, if_false]
      have ih := log2Fuel_spec fuel (n / 2) (by omega) (by omega)
      rw [Nat.pow_succ, Nat.pow_succ]
      rw [Nat.pow_succ] at ih
      omega

theorem log2_spec (n : Nat) (hn : 0 < n) : 2 ^ log2 n ≤ n ∧ n < 2 ^ (log2 n + 1) :=
  log2Fuel_spec n n (le_refl n) hn

theorem zpow_two_eq (t : Int) : (2 : ℚ) ^ t = (2 : ℚ) ^ t.toNat / (2 : ℚ) ^ (-t).toNat := by
  rcases le_total 0 t with h | h
  · obtain ⟨n, rfl⟩ := Int.eq_ofNat_of_zero_le h
    have : (-(n : Int)).toNat = 0 := by omega
    simp [this]
  · obtain ⟨n, hn⟩ := Int.eq_ofNat_of_zero_le (neg_nonneg.mpr h)
    have ht : t = -(n : Int) := by omega
    subst ht
    have h1 : (-(n : Int)).toNat = 0 := by omega
    have h2 : (- -(n : Int)).toNat = n := by omega
    rw [h1, h2]
    simp [zpow_neg]

/-- The quotient of `n / d` by `2 ^ t`, as a quotient of two natural numbers. -/
theorem div_zpow_two_eq (n d : Nat) (t : Int) :
    ((n : ℚ) / d) / (2 : ℚ) ^ t
      = ((n * 2 ^ (-t).toNat : Nat) : ℚ) / ((d * 2 ^ t.toNat : Nat) : ℚ) := by
  rw [zpow_two_eq]
  push_cast
  have h1 : ((2 : ℚ) ^ t.toNat) ≠ 0 := pow_ne_zero _ (by norm_num)
  have h2 : ((2 : ℚ) ^ (-t).toNat) ≠ 0 := pow_ne_zero _ (by norm_num)
  by_cases hd : (d : ℚ) = 0
  · simp [hd]
  · field_simp

theorem floorLog2_spec (n d : Nat) (hn : 0 < n) (hd : 0 < d) :
    (2 : ℚ) ^ floorLog2 n d ≤ (n : ℚ) / d ∧ (n : ℚ) / d < (2 : ℚ) ^ (floorLog2 n d + 1) := by
  obtain ⟨hn1, hn2⟩ := log2_spec n hn
  obtain ⟨hd1, hd2⟩ := log2_spec d hd
  have hdq : (0 : ℚ) < d := by exact_mod_cast hd
  have hnq : (0 : ℚ) < n := by exact_mod_cast hn
  have hn1q : (2 : ℚ) ^ (log2 n : Int) ≤ n := by
    rw [zpow_natCast]; exact_mod_cast hn1
  have hn2q : (n : ℚ) < (2 : ℚ) ^ ((log2 n : Int) + 1) := by
    rw [← Nat.cast_succ, zpow_natCast]; exact_mod_cast hn2
  have hd1q : (2 : ℚ) ^ (log2 d : Int) ≤ d := by
    rw [zpow_natCast]; exact_mod_cast hd1
  have hd2q : (d : ℚ) < (2 : ℚ) ^ ((log2 d : Int) + 1) := by
    rw [← Nat.cast_succ, zpow_natCast]; exact_mod_cast hd2
  have two_pos : ∀ z : Int, (0 : ℚ) < (2 : ℚ) ^ z := fun z => zpow_pos (by norm_num) z
  -- bounds with the exponent e0
  have hlow : (2 : ℚ) ^ ((log2 n : Int) - (log2 d : Int) - 1) ≤ (n : ℚ) / d := by
    rw [le_div_iff₀ hdq]
    calc (2 : ℚ) ^ ((log2 n : Int) - (log2 d : Int) - 1) * d
        ≤ (2 : ℚ) ^ ((log2 n : Int) - (log2 d : Int) - 1) * (2 : ℚ) ^ ((log2 d : Int) + 1) :=
          mul_le_mul_of_nonneg_left (le_of_lt hd2q) (le_of_lt (two_pos _))
      _ = (2 : ℚ) ^ (log2 n : Int) := by
          rw [← zpow_add₀ (by norm_num : (2 : ℚ) ≠ 0)]; congr 1; ring
      _ ≤ n := hn1q
  have hhigh : (n : ℚ) / d < (2 : ℚ) ^ ((log2 n : Int) - (log2 d : Int) + 1) := by
    rw [div_lt_iff₀ hdq]
    calc (n : ℚ) < (2 : ℚ) ^ ((log2 n : Int) + 1) := hn2q
      _ = (2 : ℚ) ^ ((log2 n : Int) - (log2 d : Int) + 1) * (2 : ℚ) ^ (log2 d : Int) := by
          rw [← zpow_add₀ (by norm_num : (2 : ℚ) ≠ 0)]; congr 1; ring
      _ ≤ (2 : ℚ) ^ ((log2 n : Int) - (log2 d : Int) + 1) * d :=
          mul_le_mul_of_nonneg_left hd1q (le_of_lt (two_pos _))
  unfold floorLog2
  simp only
  have htest : (n * 2 ^ (-((log2 n : Int) - (log2 d : Int))).toNat
        < d * 2 ^ ((log2 n : Int) - (log2 d : Int)).toNat)
      ↔ (n : ℚ) / d < (2 : ℚ) ^ ((log2 n : Int) - (log2 d : Int)) := by
    rw [zpow_two_eq, div_lt_div_iff₀ hdq (pow_pos (by norm_num) _)]
    constructor
    · intro h
      have : ((n * 2 ^ (-((log2 n : Int) - (log2 d : Int))).toNat : Nat) : ℚ)
          < ((d * 2 ^ ((log2 n : Int) - (log2 d : Int)).toNat : Nat) : ℚ) := by exact_mod_cast h
      push_cast at this
      linarith
    · intro h
      have : ((n * 2 ^ (-((log2 n : Int) - (log2 d : Int))).toNat : Nat) : ℚ)
          < ((d * 2 ^ ((log2 n : Int) - (log2 d : Int)).toNat : Nat) : ℚ) := by
        push_cast
        linarith
      exact_mod_cast this
  by_cases hc : n * 2 ^ (-((log2 n : Int) - (log2 d : Int))).toNat
        < d * 2 ^ ((log2 n : Int) - (log2 d : Int)).toNat
  · rw [if_pos hc]
    refine ⟨hlow, ?_⟩
    have := htest.mp hc
    have e : (log2 n : Int) - (log2 d : Int) - 1 + 1 = (log2 n : Int) - (log2 d : Int) := by ring
    rw [e]
    exact this
  · rw [if_neg hc]
    refine ⟨?_, hhigh⟩
    exact not_lt.mp (fun h => hc (htest.mpr h))

/-- The significand chosen by `roundSignificand` is within `1 / 2` of the scaled value, and
is the scaled value itself when that is an integer. -/
theorem roundSignificand_spec (prec : Nat) (emin : Int) (n d : Nat) (hd : 0 < d) :
    (roundSignificand prec emin n d).2 = max (floorLog2 n d) emin - ((prec : Int) - 1) ∧
    |((roundSignificand prec emin n d).1 : ℚ)
        - ((n : ℚ) / d) / (2 : ℚ) ^ (roundSignificand prec emin n d).2| ≤ 1 / 2 ∧
    ∀ m : Nat, ((n : ℚ) / d) / (2 : ℚ) ^ (roundSignificand prec emin n d).2 = m →
      (roundSignificand prec emin n d).1 = m := by
  refine ⟨rfl, ?_, ?_⟩
  · rw [div_zpow_two_eq]
    unfold roundSignificand
    simp only
    generalize hnum : n * 2 ^ (-(max (floorLog2 n d) emin - ((prec : Int) - 1))).toNat = num
    generalize hden : d * 2 ^ (max (floorLog2 n d) emin - ((prec : Int) - 1)).toNat = den
    have hden0 : 0 < den := by
      rw [← hden]; exact Nat.mul_pos hd (Nat.pow_pos (by norm_num))
    have hdenq : (0 : ℚ) < den := by exact_mod_cast hden0
    have hdm : den * (num / den) + num % den = num := Nat.div_add_mod num den
    have hdmq : (den : ℚ) * ((num / den : Nat) : ℚ) + ((num % den : Nat) : ℚ) = num := by
      exact_mod_cast hdm
    have hr : num % den < den := Nat.mod_lt _ hden0
    have hrq : ((num % den : Nat) : ℚ) < den := by exact_mod_cast hr
    have hr0 : (0 : ℚ) ≤ ((num % den : Nat) : ℚ) := Nat.cast_nonneg _
    have key : ∀ k : ℚ, |k * den - num| ≤ den / 2 → |k - (num : ℚ) / den| ≤ 1 / 2 := by
      intro k h
      have e : k - (num : ℚ) / den = (k * den - num) / den := by field_simp
      rw [e, abs_div, abs_of_pos hdenq, div_le_iff₀ hdenq]
      linarith
    by_cases h1 : 2 * (num % den) < den
    · rw [if_pos h1]
      apply key
      have h1q : 2 * ((num % den : Nat) : ℚ) < den := by exact_mod_cast h1
      rw [abs_le]
      constructor <;> nlinarith
    · rw [if_neg h1]
      by_cases h2 : den < 2 * (num % den)
      · rw [if_pos h2]
        apply key
        have h2q : (den : ℚ) < 2 * ((num % den : Nat) : ℚ) := by exact_mod_cast h2
        push_cast
        rw [abs_le]
        constructor <;> nlinarith
      · rw [if_neg h2]
        have h3 : 2 * (num % den) = den := by omega
        have h3q : 2 * ((num % den : Nat) : ℚ) = den := by exact_mod_cast h3
        by_cases h4 : num / den % 2 = 0
        · rw [if_pos h4]
          apply key
          rw [abs_le]
          constructor <;> nlinarith
        · rw [if_neg h4]
          apply key
          push_cast
          rw [abs_le]
          constructor <;> nlinarith
  · intro m hm
    rw [div_zpow_two_eq] at hm
    revert hm
    unfold roundSignificand
    simp only
    generalize hnum : n * 2 ^ (-(max (floorLog2 n d) emin - ((prec : Int) - 1))).toNat = num
    generalize hden : d * 2 ^ (max (floorLog2 n d) emin - ((prec : Int) - 1)).toNat = den
    intro hm
    have hden0 : 0 < den := by
      rw [← hden]; exact Nat.mul_pos hd (Nat.pow_pos (by norm_num))
    have hdenq : (0 : ℚ) < den := by exact_mod_cast hden0
    have hnm : num = m * den := by
      rw [div_eq_iff (ne_of_gt hdenq)] at hm
      exact_mod_cast hm
    have hmod : num % den = 0 := by rw [hnm]; exact Nat.mul_mod_left m den
    have hdiv : num / den = m := by rw [hnm]; exact Nat.mul_div_cancel m hden0
    rw [hmod, hdiv]
    simp [hden0]

theorem mkRat_two_pow (k : Nat) (t : Int) :
    mkRat ((k * 2 ^ t.toNat : Nat) : Int) (2 ^ (-t).toNat) = (k : ℚ) * (2 : ℚ) ^ t := by
  rw [Rat.mkRat_eq_div, zpow_two_eq]
  push_cast
  ring

theorem mkRat_two_pow_one (e : Nat) : mkRat ((2 ^ e : Nat) : Int) 1 = (2 : ℚ) ^ e := by
  rw [Rat.mkRat_eq_div]
  push_cast
  ring

theorem natAbs_div_den (q : ℚ) : ((q.num.natAbs : ℚ) / q.den) = |q| := by
  have h : (q.num.natAbs : ℚ) = |(q.num : ℚ)| := by
    rw [Nat.cast_natAbs, Int.cast_abs]
  rw [h]
  have hden : (0 : ℚ) < q.den := by exact_mod_cast q.den_pos
  rw [← abs_of_pos hden, ← abs_div, Rat.num_div_den]

/-- What `roundNearestEven` returns for a non-zero rational: with the spacing `2 ^ t` of the
format at `q` and the integer `k` nearest to `|q| / 2 ^ t`, the value `k * 2 ^ t` with the
sign of `q`, or an infinity when that value is `2 ^ (emax + 1)` or more. -/
theorem roundNearestEven_spec (prec : Nat) (emin emax : Int) (q : ℚ) (hq : q ≠ 0) :
    ∃ (k : Nat) (e t : Int),
      (2 : ℚ) ^ e ≤ |q| ∧ |q| < (2 : ℚ) ^ (e + 1) ∧
      t = max e emin - ((prec : Int) - 1) ∧
      |(k : ℚ) - |q| / (2 : ℚ) ^ t| ≤ 1 / 2 ∧
      (∀ m : Nat, |q| / (2 : ℚ) ^ t = m → k = m) ∧
      roundNearestEven prec emin emax q
        = if (2 : ℚ) ^ (emax + 1).toNat ≤ (k : ℚ) * (2 : ℚ) ^ t then Double.inf (decide (q < 0))
          else Double.fin (if q < 0 then -((k : ℚ) * (2 : ℚ) ^ t) else (k : ℚ) * (2 : ℚ) ^ t) := by
  have hn : 0 < q.num.natAbs := Int.natAbs_pos.mpr (Rat.num_ne_zero.mpr hq)
  have hd : 0 < q.den := q.den_pos
  obtain ⟨he1, he2⟩ := floorLog2_spec q.num.natAbs q.den hn hd
  obtain ⟨ht, herr, hex⟩ := roundSignificand_spec prec emin q.num.natAbs q.den hd
  rw [natAbs_div_den] at he1 he2 herr hex
  refine ⟨(roundSignificand prec emin q.num.natAbs q.den).1, floorLog2 q.num.natAbs q.den,
    (roundSignificand prec emin q.num.natAbs q.den).2, he1, he2, ht, herr, hex, ?_⟩
  unfold roundNearestEven
  rw [if_neg hq]
  simp only [mkRat_two_pow, mkRat_two_pow_one]

theorem roundNearestEven_zero (prec : Nat) (emin emax : Int) :
    roundNearestEven prec emin emax 0 = Double.fin 0 := by
  unfold roundNearestEven
  rw [if_pos rfl]

/-- Rounding keeps the sign: the double nearest to `q` is an infinity of the sign of `q` or
a finite value `r` with `0 ≤ r` when `0 ≤ q` and `r ≤ 0` when `q ≤ 0`. -/
theorem roundNearestEven_sign (prec : Nat) (emin emax : Int) (q : ℚ) :
    (roundNearestEven prec emin emax q = Double.inf (decide (q < 0)) ∧ q ≠ 0) ∨
    ∃ r, roundNearestEven prec emin emax q = Double.fin r ∧ (0 ≤ q → 0 ≤ r) ∧ (q ≤ 0 → r ≤ 0) := by
  by_cases hq : q = 0
  · right
    subst hq
    exact ⟨0, roundNearestEven_zero prec emin emax, fun _ => le_refl 0, fun _ => le_refl 0⟩
  · obtain ⟨k, e, t, _, _, _, _, _, hr⟩ := roundNearestEven_spec prec emin emax q hq
    have hv : (0 : ℚ) ≤ (k : ℚ) * (2 : ℚ) ^ t :=
      mul_nonneg (Nat.cast_nonneg k) (le_of_lt (zpow_pos (by norm_num) t))
    rw [hr]
    by_cases hov : (2 : ℚ) ^ (emax + 1).toNat ≤ (k : ℚ) * (2 : ℚ) ^ t
    · left
      rw [if_pos hov]
      exact ⟨rfl, hq⟩
    · right
      rw [if_neg hov]
      refine ⟨_, rfl, ?_, ?_⟩
      · intro h0
        have : ¬ q < 0 := not_lt.mpr h0
        rw [if_neg this]
        exact hv
      · intro h0
        have : q < 0 := lt_of_le_of_ne h0 hq
        rw [if_pos this]
        linarith

/-- Every finite value produced by rounding is an integer multiple of the smallest spacing
`2 ^ (emin - (prec - 1))` of the format. -/
theorem roundNearestEven_grid (prec : Nat) (emin emax : Int) (q r : ℚ)
    (h : roundNearestEven prec emin emax q = Double.fin r) :
    ∃ z : Int, r = (z : ℚ) * (2 : ℚ) ^ (emin - ((prec : Int) - 1)) := by
  by_cases hq : q = 0
  · subst hq
    rw [roundNearestEven_zero] at h
    injection h with h
    exact ⟨0, by rw [← h]; simp⟩
  · obtain ⟨k, e, t, _, _, ht, _, _, hr⟩ := roundNearestEven_spec prec emin emax q hq
    rw [hr] at h
    have hsplit : (2 : ℚ) ^ t
        = ((2 ^ (t - (emin - ((prec : Int) - 1))).toNat : Nat) : ℚ)
          * (2 : ℚ) ^ (emin - ((prec : Int) - 1)) := by
      have hge : 0 ≤ t - (emin - ((prec : Int) - 1)) := by
        rw [ht]
        have := le_max_right e emin
        omega
      push_cast
      rw [← zpow_natCast, Int.toNat_of_nonneg hge, ← zpow_add₀ (by norm_num : (2 : ℚ) ≠ 0)]
      congr 1
      ring
    split at h
    · exact absurd h (by simp)
    · injection h with h
      by_cases hneg : q < 0
      · rw [if_pos hneg] at h
        refine ⟨-((k * 2 ^ (t - (emin - ((prec : Int) - 1))).toNat : Nat) : Int), ?_⟩
        rw [← h, hsplit]
        push_cast
        ring
      · rw [if_neg hneg] at h
        refine ⟨((k * 2 ^ (t - (emin - ((prec : Int) - 1))).toNat : Nat) : Int), ?_⟩
        rw [← h, hsplit]
        push_cast
        ring

/-- A rational of magnitude at least the smallest spacing of the format does not round to
zero. -/
theorem roundNearestEven_ne_zero (prec : Nat) (emin emax : Int) (q : ℚ)
    (hq : (2 : ℚ) ^ (emin - ((prec : Int) - 1)) ≤ |q|) (hprec : 1 ≤ prec) :
    roundNearestEven prec emin emax q ≠ Double.fin 0 := by
  have hq0 : q ≠ 0 := by
    intro h
    rw [h, abs_zero] at hq
    exact absurd hq (not_le.mpr (zpow_pos (by norm_num) _))
  obtain ⟨k, e, t, he1, _, ht, herr, _, hr⟩ := roundNearestEven_spec prec emin emax q hq0
  have h2t : (0 : ℚ) < (2 : ℚ) ^ t := zpow_pos (by norm_num) t
  have hx : (1 : ℚ) ≤ |q| / (2 : ℚ) ^ t := by
    rw [le_div_iff₀ h2t, one_mul]
    rcases le_total e emin with hle | hle
    · have : t = emin - ((prec : Int) - 1) := by rw [ht, max_eq_right hle]
      rw [this]
      exact hq
    · have : t ≤ e := by
        rw [ht, max_eq_left hle]
        have : (1 : Int) ≤ prec := by exact_mod_cast hprec
        omega
      exact le_trans (zpow_le_zpow_right₀ (by norm_num) this) he1
  have hk : 1 ≤ k := by
    have h1 : (1 : ℚ) / 2 ≤ (k : ℚ) := by
      have := (abs_le.mp herr).1
      linarith
    have : (0 : ℚ) < (k : ℚ) := by linarith
    exact_mod_cast this
  have hv : (0 : ℚ) < (k : ℚ) * (2 : ℚ) ^ t :=
    mul_pos (by exact_mod_cast hk) h2t
  rw [hr]
  split
  · simp
  · intro h
    injection h with h
    split at h <;> linarith

/-- A rational `± m * 2 ^ s` with a significand `m` of at most `prec` binary digits and an
exponent `s` not below the smallest one, of magnitude below the overflow threshold, is a
value of the format: rounding returns it. -/
theorem roundNearestEven_of_representable (prec : Nat) (emin emax : Int) (q : ℚ) (m : Nat)
    (s : Int) (hm : m < 2 ^ prec) (hs : emin - ((prec : Int) - 1) ≤ s)
    (hq : |q| = (m : ℚ) * (2 : ℚ) ^ s) (hov : |q| < (2 : ℚ) ^ (emax + 1).toNat) :
    roundNearestEven prec emin emax q = Double.fin q := by
  by_cases hq0 : q = 0
  · subst hq0
    exact roundNearestEven_zero prec emin emax
  · obtain ⟨k, e, t, he1, _, ht, _, hex, hr⟩ := roundNearestEven_spec prec emin emax q hq0
    have h2t : (0 : ℚ) < (2 : ℚ) ^ t := zpow_pos (by norm_num) t
    have hts : t ≤ s := by
      rw [ht]
      rcases le_total e emin with hle | hle
      · rw [max_eq_right hle]; exact hs
      · rw [max_eq_left hle]
        have hlt : (2 : ℚ) ^ e < (2 : ℚ) ^ ((prec : Int) + s) := by
          calc (2 : ℚ) ^ e ≤ |q| := he1
            _ = (m : ℚ) * (2 : ℚ) ^ s := hq
            _ < (2 : ℚ) ^ prec * (2 : ℚ) ^ s := by
                apply mul_lt_mul_of_pos_right _ (zpow_pos (by norm_num) s)
                exact_mod_cast hm
            _ = (2 : ℚ) ^ ((prec : Int) + s) := by
                rw [zpow_add₀ (by norm_num : (2 : ℚ) ≠ 0), zpow_natCast]
        have := (zpow_lt_zpow_iff_right₀ (by norm_num : (1 : ℚ) < 2)).mp hlt
        omega
    have hx : |q| / (2 : ℚ) ^ t = ((m * 2 ^ (s - t).toNat : Nat) : ℚ) := by
      rw [hq, div_eq_iff (ne_of_gt h2t)]
      push_cast
      rw [← zpow_natCast, Int.toNat_of_nonneg (by omega : 0 ≤ s - t), mul_assoc,
        ← zpow_add₀ (by norm_num : (2 : ℚ) ≠ 0)]
      congr 2
      ring
    have hk := hex _ hx
    have hv : (k : ℚ) * (2 : ℚ) ^ t = |q| := by
      rw [hk, ← hx]
      field_simp
    rw [hr, hv, if_neg (not_le.mpr hov)]
    congr 1
    by_cases hneg : q < 0
    · rw [if_pos hneg, abs_of_neg hneg, neg_neg]
    · rw [if_neg hneg, abs_of_nonneg (not_lt.mp hneg)]

/-- Rounding is idempotent: a finite value produced by rounding is a value of the format. -/
theorem roundNearestEven_idem (prec : Nat) (emin emax : Int) (q r : ℚ) (hprec : 1 ≤ prec)
    (h : roundNearestEven prec emin emax q = Double.fin r) :
    roundNearestEven prec emin emax r = Double.fin r := by
  by_cases hq0 : q = 0
  · subst hq0
    rw [roundNearestEven_zero] at h
    injection h with h
    rw [← h]
    exact roundNearestEven_zero prec emin emax
  · obtain ⟨k, e, t, he1, he2, ht, herr, _, hr⟩ := roundNearestEven_spec prec emin emax q hq0
    have h2t : (0 : ℚ) < (2 : ℚ) ^ t := zpow_pos (by norm_num) t
    rw [hr] at h
    by_cases hov : (2 : ℚ) ^ (emax + 1).toNat ≤ (k : ℚ) * (2 : ℚ) ^ t
    · rw [if_pos hov] at h
      exact absurd h (by simp)
    · rw [if_neg hov] at h
      injection h with h
      have habs : |r| = (k : ℚ) * (2 : ℚ) ^ t := by
        have hv : (0 : ℚ) ≤ (k : ℚ) * (2 : ℚ) ^ t :=
          mul_nonneg (Nat.cast_nonneg k) (le_of_lt h2t)
        rw [← h]
        split
        · rw [abs_neg, abs_of_nonneg hv]
        · rw [abs_of_nonneg hv]
      have hxlt : |q| / (2 : ℚ) ^ t < (2 : ℚ) ^ prec := by
        rw [div_lt_iff₀ h2t]
        calc |q| < (2 : ℚ) ^ (e + 1) := he2
          _ ≤ (2 : ℚ) ^ ((prec : Int) + t) := by
              apply zpow_le_zpow_right₀ (by norm_num)
              rw [ht]
              have := le_max_left e emin
              omega
          _ = (2 : ℚ) ^ prec * (2 : ℚ) ^ t := by
              rw [zpow_add₀ (by norm_num : (2 : ℚ) ≠ 0), zpow_natCast]
      have hkle : k ≤ 2 ^ prec := by
        have h1 : (k : ℚ) < (2 : ℚ) ^ prec + 1 := by
          have := (abs_le.mp herr).2
          linarith
        have h2 : (k : ℚ) < ((2 ^ prec + 1 : Nat) : ℚ) := by
          push_cast
          exact h1
        have h3 : k < 2 ^ prec + 1 := by exact_mod_cast h2
        omega
      have htmin : emin - ((prec : Int) - 1) ≤ t := by
        rw [ht]
        have := le_max_right e emin
        omega
      rcases Nat.lt_or_ge k (2 ^ prec) with hklt | hkge
      · exact roundNearestEven_of_representable prec emin emax r k t hklt htmin habs
          (by rw [habs]; exact not_le.mp hov)
      · have hk : k = 2 ^ prec := le_antisymm hkle hkge
        have hpp : 2 ^ prec = 2 ^ (prec - 1) * 2 := by
          rw [← Nat.pow_succ]
          congr 1
          omega
        apply roundNearestEven_of_representable prec emin emax r (2 ^ (prec - 1)) (t + 1)
          (Nat.pow_lt_pow_right (by norm_num) (by omega)) (by omega)
        · rw [habs, hk, hpp]
          push_cast
          rw [zpow_add₀ (by norm_num : (2 : ℚ) ≠ 0), zpow_one]
          ring
        · rw [habs]
          exact not_le.mp hov

/-- The significand chosen by rounding has at most `prec` binary digits, or is `2 ^ prec`. -/
theorem roundNearestEven_significand_le (prec : Nat) (emin : Int) (q : ℚ) (k : Nat) (e t : Int)
    (he2 : |q| < (2 : ℚ) ^ (e + 1)) (ht : t = max e emin - ((prec : Int) - 1))
    (herr : |(k : ℚ) - |q| / (2 : ℚ) ^ t| ≤ 1 / 2) : k ≤ 2 ^ prec := by
  have h2t : (0 : ℚ) < (2 : ℚ) ^ t := zpow_pos (by norm_num) t
  have hxlt : |q| / (2 : ℚ) ^ t < (2 : ℚ) ^ prec := by
    rw [div_lt_iff₀ h2t]
    calc |q| < (2 : ℚ) ^ (e + 1) := he2
      _ ≤ (2 : ℚ) ^ ((prec : Int) + t) := by
          apply zpow_le_zpow_right₀ (by norm_num)
          rw [ht]
          have := le_max_left e emin
          omega
      _ = (2 : ℚ) ^ prec * (2 : ℚ) ^ t := by
          rw [zpow_add₀ (by norm_num : (2 : ℚ) ≠ 0), zpow_natCast]
  have h1 : (k : ℚ) < (2 : ℚ) ^ prec + 1 := by
    have := (abs_le.mp herr).2
    linarith
  have h2 : (k : ℚ) < ((2 ^ prec + 1 : Nat) : ℚ) := by
    push_cast
    exact h1
  have h3 : k < 2 ^ prec + 1 := by exact_mod_cast h2
  omega

/-- The rounding error: a finite rounded value differs from the exact one by at most the
relative error `2 ^ (-prec)`, or by half the smallest spacing of the format. -/
theorem roundNearestEven_error (prec : Nat) (emin emax : Int) (q r : ℚ)
    (h : roundNearestEven prec emin emax q = Double.fin r) :
    |r - q| ≤ |q| * (2 : ℚ) ^ (-(prec : Int)) + (2 : ℚ) ^ (emin - (prec : Int)) := by
  have hpos1 : (0 : ℚ) ≤ |q| * (2 : ℚ) ^ (-(prec : Int)) :=
    mul_nonneg (abs_nonneg q) (le_of_lt (zpow_pos (by norm_num) _))
  have hpos2 : (0 : ℚ) < (2 : ℚ) ^ (emin - (prec : Int)) := zpow_pos (by norm_num) _
  by_cases hq0 : q = 0
  · subst hq0
    rw [roundNearestEven_zero] at h
    injection h with h
    rw [← h]
    simp only [sub_zero, abs_zero, zero_mul, zero_add]
    exact le_of_lt hpos2
  · obtain ⟨k, e, t, he1, _, ht, herr, _, hr⟩ := roundNearestEven_spec prec emin emax q hq0
    have h2t : (0 : ℚ) < (2 : ℚ) ^ t := zpow_pos (by norm_num) t
    rw [hr] at h
    by_cases hov : (2 : ℚ) ^ (emax + 1).toNat ≤ (k : ℚ) * (2 : ℚ) ^ t
    · rw [if_pos hov] at h
      exact absurd h (by simp)
    · rw [if_neg hov] at h
      injection h with h
      have hdiff : |r - q| = (2 : ℚ) ^ t * |(k : ℚ) - |q| / (2 : ℚ) ^ t| := by
        rw [← abs_of_pos h2t, ← abs_mul, abs_of_pos h2t]
        have e1 : (2 : ℚ) ^ t * ((k : ℚ) - |q| / (2 : ℚ) ^ t) = (k : ℚ) * (2 : ℚ) ^ t - |q| := by
          field_simp
        rw [e1, ← h]
        by_cases hneg : q < 0
        · rw [if_pos hneg, abs_of_neg hneg]
          rw [← abs_neg]
          congr 1
          ring
        · rw [if_neg hneg, abs_of_nonneg (not_lt.mp hneg)]
      have hhalf : |r - q| ≤ (2 : ℚ) ^ t * (1 / 2) := by
        rw [hdiff]
        exact mul_le_mul_of_nonneg_left herr (le_of_lt h2t)
      have hhalf' : (2 : ℚ) ^ t * (1 / 2) = (2 : ℚ) ^ (t - 1) := by
        rw [zpow_sub₀ (by norm_num : (2 : ℚ) ≠ 0), zpow_one]
        ring
      rw [hhalf'] at hhalf
      rcases le_total e emin with hle | hle
      · have : t - 1 = emin - (prec : Int) := by
          rw [ht, max_eq_right hle]; ring
        rw [this] at hhalf
        linarith
      · have : t - 1 = e + -(prec : Int) := by
          rw [ht, max_eq_left hle]; ring
        rw [this, zpow_add₀ (by norm_num : (2 : ℚ) ≠ 0)] at hhalf
        have : (2 : ℚ) ^ e * (2 : ℚ) ^ (-(prec : Int)) ≤ |q| * (2 : ℚ) ^ (-(prec : Int)) :=
          mul_le_mul_of_nonneg_right he1 (le_of_lt (zpow_pos (by norm_num) _))
        linarith

/-- A rational of magnitude below `2 ^ emax` rounds to a finite value. -/
theorem roundNearestEven_finite (prec : Nat) (emin emax : Int) (q : ℚ)
    (hemax : 0 ≤ emax) (hemin : emin < emax) (hq : |q| < (2 : ℚ) ^ emax) :
    ∃ r, roundNearestEven prec emin emax q = Double.fin r := by
  by_cases hq0 : q = 0
  · subst hq0
    exact ⟨0, roundNearestEven_zero prec emin emax⟩
  · obtain ⟨k, e, t, he1, he2, ht, herr, _, hr⟩ := roundNearestEven_spec prec emin emax q hq0
    have h2t : (0 : ℚ) < (2 : ℚ) ^ t := zpow_pos (by norm_num) t
    have hk := roundNearestEven_significand_le prec emin q k e t he2 ht herr
    have he : e < emax :=
      (zpow_lt_zpow_iff_right₀ (by norm_num : (1 : ℚ) < 2)).mp (lt_of_le_of_lt he1 hq)
    have hv : (k : ℚ) * (2 : ℚ) ^ t < (2 : ℚ) ^ (emax + 1).toNat := by
      calc (k : ℚ) * (2 : ℚ) ^ t ≤ (2 : ℚ) ^ prec * (2 : ℚ) ^ t := by
            apply mul_le_mul_of_nonneg_right _ (le_of_lt h2t)
            exact_mod_cast hk
        _ = (2 : ℚ) ^ ((prec : Int) + t) := by
            rw [zpow_add₀ (by norm_num : (2 : ℚ) ≠ 0), zpow_natCast]
        _ ≤ (2 : ℚ) ^ emax := by
            apply zpow_le_zpow_right₀ (by norm_num)
            rw [ht]
            have : max e emin < emax := max_lt he hemin
            omega
        _ < (2 : ℚ) ^ (emax + 1) := zpow_lt_zpow_right₀ (by norm_num) (by omega)
        _ = (2 : ℚ) ^ (emax + 1).toNat := by
            rw [← zpow_natCast, Int.toNat_of_nonneg (by omega)]
    rw [hr, if_neg (not_le.mpr hv)]
    exact ⟨_, rfl⟩

/-! ### The operations on doubles -/

theorem Double.fin_add (a b : ℚ) : Double.fin a + Double.fin b = Double.ofRat (a + b) := rfl

theorem Double.fin_sub (a b : ℚ) : Double.fin a - Double.fin b = Double.ofRat (a - b) := rfl

theorem Double.fin_mul (a b : ℚ) : Double.fin a * Double.fin b = Double.ofRat (a * b) := rfl

theorem Double.fin_div (a b : ℚ) (hb : b ≠ 0) :
    Double.fin a / Double.fin b = Double.ofRat (a / b) := by
  show Double.div (Double.fin a) (Double.fin b) = _
  simp [Double.div, hb]

theorem Double.abs_fin (a : ℚ) : Double.abs (Double.fin a) = Double.fin |a| := by
  show Double.fin (if a < 0 then -a else a) = _
  by_cases h : a < 0
  · rw [if_pos h, abs_of_neg h]
  · rw [if_neg h, abs_of_nonneg (le_of_not_lt h)]

@[simp] theorem Double.lt_fin (a b : ℚ) : Double.lt (Double.fin a) (Double.fin b) = decide (a < b) := rfl

@[simp] theorem Double.ofNat_eq (n : Nat) : Double.ofNat n = Double.fin (n : ℚ) := rfl

theorem Double.lt_irrefl (d : Double) : Double.lt d d = false := by
  cases d with
  | fin q => simp
  | inf s => cases s <;> rfl
  | nan => rfl

theorem Double.ofRat_zero : Double.ofRat 0 = Double.fin 0 :=
  roundNearestEven_zero 53 (-1022) 1023

/-- A rational `± m * 2 ^ s` with `m < 2 ^ 53` and `-1074 ≤ s`, of magnitude below
`2 ^ 1024`, is a double. -/
theorem Double.ofRat_of_representable (q : ℚ) (m : Nat) (s : Int) (hm : m < 2 ^ 53)
    (hs : -1074 ≤ s) (hq : |q| = (m : ℚ) * (2 : ℚ) ^ s) (hov : |q| < (2 : ℚ) ^ 1024) :
    Double.ofRat q = Double.fin q :=
  roundNearestEven_of_representable 53 (-1022) 1023 q m s hm (by norm_num; exact hs) hq
    (by
      have : ((1023 : Int) + 1).toNat = 1024 := by decide
      rw [this]
      exact hov)

/-- Every integer of magnitude below `2 ^ 53` is a double. -/
theorem Double.ofRat_intCast (z : Int) (hz : z.natAbs < 2 ^ 53) :
    Double.ofRat (z : ℚ) = Double.fin (z : ℚ) := by
  apply Double.ofRat_of_representable (z : ℚ) z.natAbs 0 hz (by norm_num)
  · rw [zpow_zero, mul_one, Nat.cast_natAbs, Int.cast_abs]
  · have h1 : |(z : ℚ)| = (z.natAbs : ℚ) := by rw [Nat.cast_natAbs, Int.cast_abs]
    rw [h1]
    have h2 : ((z.natAbs : Nat) : ℚ) < (2 : ℚ) ^ (53 : Nat) := by exact_mod_cast hz
    have h3 : (2 : ℚ) ^ (53 : Nat) ≤ (2 : ℚ) ^ (1024 : Nat) :=
      pow_le_pow_right₀ (by norm_num : (1 : ℚ) ≤ 2) (by norm_num : 53 ≤ 1024)
    exact lt_of_lt_of_le h2 h3

theorem Double.ofRat_natCast (n : Nat) (hn : n < 2 ^ 53) :
    Double.ofRat (n : ℚ) = Double.fin (n : ℚ) := by
  have := Double.ofRat_intCast (n : Int) (by simpa using hn)
  simpa using this

theorem Double.ofRat_one : Double.ofRat 1 = Double.fin 1 := by
  have := Double.ofRat_natCast 1 (by norm_num)
  simpa using this

/-- Rounding is idempotent: a finite double is its own nearest double. -/
theorem Double.ofRat_idem (q r : ℚ) (h : Double.ofRat q = Double.fin r) :
    Double.ofRat r = Double.fin r :=
  roundNearestEven_idem 53 (-1022) 1023 q r (by norm_num) h

/-- Every finite double is an integer multiple of `2 ^ (-1074)`. -/
theorem Double.ofRat_grid (q r : ℚ) (h : Double.ofRat q = Double.fin r) :
    ∃ z : Int, r = (z : ℚ) * (2 : ℚ) ^ (-1074 : Int) := by
  have := roundNearestEven_grid 53 (-1022) 1023 q r h
  have e : (-1022 : Int) - (((53 : Nat) : Int) - 1) = -1074 := by norm_num
  rw [e] at this
  exact this

/-- The difference of two distinct finite doubles does not round to zero (gradual
underflow): `a - b == 0.0` exactly when `a == b`. -/
theorem Double.sub_eq_zero_iff (a b : ℚ) (ha : Double.ofRat a = Double.fin a)
    (hb : Double.ofRat b = Double.fin b) :
    Double.fin a - Double.fin b = Double.fin 0 ↔ a = b := by
  rw [Double.fin_sub]
  constructor
  · intro h
    by_contra hne
    obtain ⟨za, hza⟩ := Double.ofRat_grid a a ha
    obtain ⟨zb, hzb⟩ := Double.ofRat_grid b b hb
    have hz : za ≠ zb := by
      intro hz
      apply hne
      rw [hza, hzb, hz]
    have hpos : (0 : ℚ) < (2 : ℚ) ^ (-1074 : Int) := zpow_pos (by norm_num) _
    have habs : (2 : ℚ) ^ (-1074 : Int) ≤ |a - b| := by
      have e : a - b = ((za - zb : Int) : ℚ) * (2 : ℚ) ^ (-1074 : Int) := by
        rw [hza, hzb]
        push_cast
        ring
      rw [e, abs_mul, abs_of_pos hpos]
      have h1 : (1 : ℚ) ≤ |((za - zb : Int) : ℚ)| := by
        rw [← Int.cast_abs]
        have : (1 : Int) ≤ |za - zb| := Int.one_le_abs (sub_ne_zero.mpr hz)
        exact_mod_cast this
      calc (2 : ℚ) ^ (-1074 : Int) = 1 * (2 : ℚ) ^ (-1074 : Int) := (one_mul _).symm
        _ ≤ |((za - zb : Int) : ℚ)| * (2 : ℚ) ^ (-1074 : Int) :=
            mul_le_mul_of_nonneg_right h1 (le_of_lt hpos)
    have e : (-1022 : Int) - (((53 : Nat) : Int) - 1) = -1074 := by norm_num
    exact roundNearestEven_ne_zero 53 (-1022) 1023 (a - b) (by rw [e]; exact habs)
      (by norm_num) h
  · intro h
    rw [h, sub_self]
    exact Double.ofRat_zero

/-- The function `std::max` keeps a non-negative left argument non-negative, whatever the
right argument is (a `NaN` on the right is dropped). -/
theorem Double.max_nonneg (m d : Double) (hm : m.nonneg) : (Double.max m d).nonneg := by
  unfold Double.max
  cases m with
  | nan => exact absurd hm (by simp [Double.nonneg])
  | inf s =>
    have hs : s = false := hm
    subst hs
    cases d with
    | fin b => simpa [Double.lt] using hm
    | inf t => simpa [Double.lt] using hm
    | nan => simpa [Double.lt] using hm
  | fin a =>
    have ha : 0 ≤ a := hm
    cases d with
    | fin b =>
      by_cases hlt : a < b
      · simp only [Double.lt_fin, hlt, decide_True, if_true]
        exact le_of_lt (lt_of_le_of_lt ha hlt)
      · simp only [Double.lt_fin, hlt, decide_False, Bool.false_eq_true, if_false]
        exact ha
    | inf t =>
      cases t
      · simp [Double.lt, Double.nonneg]
      · simpa [Double.lt, Double.nonneg] using ha
    | nan => simpa [Double.lt, Double.nonneg] using ha

/-- A non-negative double is never below the double of a rational that is zero or
negative. -/
theorem Double.lt_ofRat_nonpos (m : Double) (hm : m.nonneg) (q : ℚ) (hq : q ≤ 0) :
    Double.lt m (Double.ofRat q) = false := by
  rcases roundNearestEven_sign 53 (-1022) 1023 q with ⟨hinf, hq0⟩ | ⟨r, hr, _, hneg⟩
  · have hlt : q < 0 := lt_of_le_of_ne hq hq0
    have : Double.ofRat q = Double.inf true := by
      unfold Double.ofRat
      rw [hinf]
      simp [hlt]
    rw [this]
    cases m with
    | fin a => rfl
    | inf s =>
      have hs : s = false := hm
      subst hs
      rfl
    | nan => rfl
  · have : Double.ofRat q = Double.fin r := hr
    rw [this]
    cases m with
    | fin a =>
      have ha : 0 ≤ a := hm
      simp only [Double.lt_fin, decide_eq_false_iff_not, not_lt]
      exact le_trans (hneg hq) ha
    | inf s =>
      have hs : s = false := hm
      subst hs
      rfl
    | nan => rfl

theorem toByte_ofClamp_fin (nanByte : Nat) (q : ℚ) :
    toByte nanByte (ofClamp (Double.fin q) (Double.fin 0) (Double.fin 255)) = clampTruncate q := by
  unfold ofClamp clampTruncate
  by_cases h0 : q < 0
  · have : max 0 (min q 255) = 0 := by
      rw [max_eq_left]; exact le_trans (min_le_left _ _) (le_of_lt h0)
    simp [h0, toByte, this]
  · by_cases h1 : (255 : ℚ) < q
    · have : max 0 (min q 255) = 255 := by
        rw [min_eq_right (le_of_lt h1)]; norm_num
      simp [h0, h1, toByte, this]
    · have : max 0 (min q 255) = q := by
        rw [min_eq_left (le_of_not_lt h1), max_eq_right (le_of_not_lt h0)]
      simp [h0, h1, toByte, this]

/-! ## Termination and the number of sweeps -/

theorem pixelStep_maxDiff_nonneg (cfg : ofApp) (src dst : ofPixels ofColor) (ins : List Bool)
    (width height : Nat) (st : SweepState) (x y : Nat) (hm : st.maxDiff.nonneg) :
    (pixelStep cfg src dst ins width height st x y).maxDiff.nonneg := by
  unfold pixelStep
  simp only
  split
  · exact hm
  · exact Double.max_nonneg _ _ (Double.max_nonneg _ _ (Double.max_nonneg _ _
      (Double.max_nonneg _ _ hm)))

/-- The value `maxDiff` reported by a sweep is zero, positive or `+∞`, never `NaN`. -/
theorem sweep_maxDiff_nonneg (cfg : ofApp) (src dst : ofPixels ofColor) (ins : List Bool)
    (width height : Nat) (f : Estimate) :
    (sweep cfg src dst ins width height f).maxDiff.nonneg := by
  have key := forYX_induction
    (fun _ (st : SweepState) => st.maxDiff.nonneg)
    height width (pixelStep cfg src dst ins width height) ⟨Double.fin 0, f⟩
    (le_refl (0 : ℚ))
    (by
      intro i st _ hP
      exact pixelStep_maxDiff_nonneg cfg src dst ins width height st (i % width) (i / width) hP)
  exact key

theorem iterate_count_le (cfg : ofApp) (src dst : ofPixels ofColor) (ins : List Bool)
    (width height : Nat) (budget : Nat) (f : Estimate) :
    (iterate cfg src dst ins width height budget f).1 ≤ budget := by
  induction budget generalizing f with
  | zero => simp [iterate]
  | succ n ih =>
    unfold iterate
    simp only
    split
    · simp
    · have := ih (sweep cfg src dst ins width height f).f
      simp only
      omega

theorem iterate_count_eq_of_tolerance_nonpos (cfg : ofApp) (src dst : ofPixels ofColor)
    (ins : List Bool) (width height : Nat) (budget : Nat) (f : Estimate)
    (htol : cfg.tolerance ≤ 0) :
    (iterate cfg src dst ins width height budget f).1 = budget := by
  induction budget generalizing f with
  | zero => simp [iterate]
  | succ n ih =>
    unfold iterate
    simp only
    have hlt : Double.lt (sweep cfg src dst ins width height f).maxDiff
        (Double.ofRat cfg.tolerance) = false :=
      Double.lt_ofRat_nonpos _ (sweep_maxDiff_nonneg cfg src dst ins width height f) _ htol
    rw [hlt]
    simp only [Bool.false_eq_true, if_false]
    rw [ih]

theorem sweepsFrom_succ_eq (cfg : ofApp) (src dst : ofPixels ofColor) (ins : List Bool)
    (width height : Nat) (f : Estimate) (k : Nat) :
    sweepsFrom cfg src dst ins width height f (k + 1)
      = sweepsFrom cfg src dst ins width height (sweep cfg src dst ins width height f).f k := by
  induction k with
  | zero => rfl
  | succ n ih =>
    show (sweep cfg src dst ins width height
      (sweepsFrom cfg src dst ins width height f (n + 1))).f = _
    rw [ih]
    rfl

/-- When none of the first `budget` sweeps reports a `maxDiff` below the tolerance, the
solver loop performs exactly `budget` sweeps and returns the field they produce. -/
theorem iterate_of_never_converged (cfg : ofApp) (src dst : ofPixels ofColor)
    (ins : List Bool) (width height : Nat) (budget : Nat) (f : Estimate)
    (hnc : ∀ k < budget, Double.lt
      (sweep cfg src dst ins width height (sweepsFrom cfg src dst ins width height f k)).maxDiff
      (Double.ofRat cfg.tolerance) = false) :
    iterate cfg src dst ins width height budget f
      = (budget, sweepsFrom cfg src dst ins width height f budget) := by
  induction budget generalizing f with
  | zero => rfl
  | succ n ih =>
    unfold iterate
    simp only
    have h0 := hnc 0 (Nat.succ_pos n)
    simp only [sweepsFrom] at h0
    rw [h0]
    simp only [Bool.false_eq_true, if_false]
    rw [ih (sweep cfg src dst ins width height f).f
      (fun k hk => by
        have := hnc (k + 1) (Nat.succ_lt_succ hk)
        rwa [sweepsFrom_succ_eq] at this)]
    rw [sweepsFrom_succ_eq]

/-- Claim C7: for every input and every `maxIterations >= 0`, the solve performs at most
`maxIterations` sweeps and returns a buffer with the destination's width, height and pixel
count; when no sweep of the budget reports a max delta below the tolerance (as is always
the case for a tolerance at or below zero), exactly `maxIterations` sweeps are performed and
the field they produce is written back: a normal return. -/
theorem seamlessClone_terminates_within_budget (cfg : ofApp) (nanByte : Nat)
    (src : ofPixels ofColor) (mask : ofPixels Nat) (dst : ofPixels ofColor)
    (hmax : 0 ≤ cfg.maxIterations) :
    ((solve cfg src mask dst).1 : Int) ≤ cfg.maxIterations ∧
    ((∀ k < cfg.maxIterations.toNat, Double.lt
        (sweep cfg src dst (inside mask dst.width dst.height) dst.width dst.height
          (sweepsFrom cfg src dst (inside mask dst.width dst.height) dst.width dst.height
            (initEstimate cfg src dst (inside mask dst.width dst.height) dst.width dst.height)
            k)).maxDiff
        (Double.ofRat cfg.tolerance) = false) →
      ((solve cfg src mask dst).1 : Int) = cfg.maxIterations ∧
      (solve cfg src mask dst).2
        = sweepsFrom cfg src dst (inside mask dst.width dst.height) dst.width dst.height
            (initEstimate cfg src dst (inside mask dst.width dst.height) dst.width dst.height)
            cfg.maxIterations.toNat) ∧
    (cfg.tolerance ≤ 0 → ((solve cfg src mask dst).1 : Int) = cfg.maxIterations) ∧
    (seamlessClone cfg nanByte src mask dst).width = dst.width ∧
    (seamlessClone cfg nanByte src mask dst).height = dst.height ∧
    (seamlessClone cfg nanByte src mask dst).data.length = dst.data.length := by
  have hnat : ((cfg.maxIterations.toNat : Nat) : Int) = cfg.maxIterations := Int.toNat_of_nonneg hmax
  refine ⟨?_, ?_, ?_, seamlessClone_width .., seamlessClone_height .., seamlessClone_length ..⟩
  · have := iterate_count_le cfg src dst (inside mask dst.width dst.height) dst.width dst.height
      cfg.maxIterations.toNat
      (initEstimate cfg src dst (inside mask dst.width dst.height) dst.width dst.height)
    unfold solve
    simp only
    omega
  · intro hnc
    have := iterate_of_never_converged cfg src dst (inside mask dst.width dst.height)
      dst.width dst.height cfg.maxIterations.toNat
      (initEstimate cfg src dst (inside mask dst.width dst.height) dst.width dst.height) hnc
    unfold solve
    simp only
    rw [this]
    exact ⟨hnat, rfl⟩
  · intro htol
    have := iterate_count_eq_of_tolerance_nonpos cfg src dst (inside mask dst.width dst.height)
      dst.width dst.height cfg.maxIterations.toNat
      (initEstimate cfg src dst (inside mask dst.width dst.height) dst.width dst.height) htol
    unfold solve
    simp only
    omega

/-- A budget of three sweeps that is exhausted: source gradient 85 against a neighbour of
the destination, tolerance 0. -/
theorem seamlessClone_terminates_within_budget_witness :
    0 ≤ (⟨3, 0, 1, false, false⟩ : ofApp).maxIterations ∧
    ((solve ⟨3, 0, 1, false, false⟩ ⟨2, 1, [⟨90, 80, 70, 60⟩, ⟨5, 4, 3, 2⟩]⟩ ⟨2, 1, [255, 0]⟩
        ⟨2, 1, [⟨10, 20, 30, 40⟩, ⟨50, 60, 70, 80⟩]⟩).1 : Int) = 3 ∧
    (seamlessClone ⟨3, 0, 1, false, false⟩ 0 ⟨2, 1, [⟨90, 80, 70, 60⟩, ⟨5, 4, 3, 2⟩]⟩
        ⟨2, 1, [255, 0]⟩ ⟨2, 1, [⟨10, 20, 30, 40⟩, ⟨50, 60, 70, 80⟩]⟩).width = 2 ∧
    (seamlessClone ⟨3, 0, 1, false, false⟩ 0 ⟨2, 1, [⟨90, 80, 70, 60⟩, ⟨5, 4, 3, 2⟩]⟩
        ⟨2, 1, [255, 0]⟩ ⟨2, 1, [⟨10, 20, 30, 40⟩, ⟨50, 60, 70, 80⟩]⟩).height = 1 ∧
    (seamlessClone ⟨3, 0, 1, false, false⟩ 0 ⟨2, 1, [⟨90, 80, 70, 60⟩, ⟨5, 4, 3, 2⟩]⟩
        ⟨2, 1, [255, 0]⟩ ⟨2, 1, [⟨10, 20, 30, 40⟩, ⟨50, 60, 70, 80⟩]⟩).data.length = 2 :=
  have h := seamlessClone_terminates_within_budget ⟨3, 0, 1, false, false⟩ 0
    ⟨2, 1, [⟨90, 80, 70, 60⟩, ⟨5, 4, 3, 2⟩]⟩ ⟨2, 1, [255, 0]⟩
    ⟨2, 1, [⟨10, 20, 30, 40⟩, ⟨50, 60, 70, 80⟩]⟩ (by decide)
  ⟨by decide, h.2.2.1 (by decide), h.2.2.2.1, h.2.2.2.2.1, h.2.2.2.2.2⟩

/-! ## The write-back inside Ω -/

theorem resultColor_chan (nanByte : Nat) (f : Estimate) (i : Nat) (c : Channel) :
    (resultColor nanByte f i).chan c = resultByte nanByte ((f.chan c).getD i Double.nan) % 256 := by
  cases c <;> rfl

theorem seamlessClone_getColor_inside (cfg : ofApp) (nanByte : Nat) (src : ofPixels ofColor)
    (mask : ofPixels Nat) (dst : ofPixels ofColor) (x y : Nat)
    (hlen : dst.data.length = dst.width * dst.height) (hx : x < dst.width) (hy : y < dst.height)
    (hin : (inside mask dst.width dst.height).getD (idx x y dst.width) false = true) :
    (seamlessClone cfg nanByte src mask dst).getColor x y
      = resultColor nanByte (solve cfg src mask dst).2 (idx x y dst.width) := by
  unfold ofPixels.getColor
  rw [seamlessClone_width, seamlessClone_data_getD, hin, hlen]
  simp [idx_lt hx hy]

theorem clampTruncate_le (q : ℚ) : clampTruncate q ≤ 255 := by
  unfold clampTruncate
  have h1 : max 0 (min q 255) ≤ 255 := max_le (by norm_num) (min_le_right _ _)
  have h2 : ⌊max 0 (min q 255)⌋ ≤ 255 := by
    have := Int.floor_le (max 0 (min q 255))
    have h3 : ((⌊max 0 (min q 255)⌋ : Int) : ℚ) ≤ ((255 : Int) : ℚ) := by
      push_cast
      linarith
    exact_mod_cast h3
  omega

/-- The byte written for a finite estimate whose conversion to `float` is the finite
value `r`: `r` clamped into `[0, 255]`, fractional part discarded. -/
theorem resultByte_of_toFloat_fin (nanByte : Nat) (q r : ℚ)
    (h : Double.toFloat (Double.fin q) = Double.fin r) :
    resultByte nanByte (Double.fin q) = clampTruncate r := by
  unfold resultByte
  rw [h, toByte_ofClamp_fin]

/-- Claim C6, as stated, fails: on a 3×2 raster whose region is the single pixel `(1, 0)`,
the final estimate of the red channel there is the double nearest to 2/3, which clamped and
rounded to the nearest integer is 1, while the result holds 0. -/
theorem seamlessClone_truncates_not_rounds :
    (inside ⟨3, 2, [0, 255, 0, 0, 0, 0]⟩ 3 2).getD (idx 1 0 3) false = true ∧
    (solve ofApp.default
        ⟨3, 2, [⟨9, 9, 9, 255⟩, ⟨9, 9, 9, 255⟩, ⟨9, 9, 9, 255⟩,
                ⟨9, 9, 9, 255⟩, ⟨9, 9, 9, 255⟩, ⟨9, 9, 9, 255⟩]⟩
        ⟨3, 2, [0, 255, 0, 0, 0, 0]⟩
        ⟨3, 2, [⟨1, 0, 0, 255⟩, ⟨0, 0, 0, 255⟩, ⟨1, 0, 0, 255⟩,
                ⟨0, 0, 0, 255⟩, ⟨0, 0, 0, 255⟩, ⟨0, 0, 0, 255⟩]⟩).2.fR.getD (idx 1 0 3) Double.nan
      = Double.fin (6004799503160661 / 9007199254740992) ∧
    ((seamlessClone ofApp.default 0
        ⟨3, 2, [⟨9, 9, 9, 255⟩, ⟨9, 9, 9, 255⟩, ⟨9, 9, 9, 255⟩,
                ⟨9, 9, 9, 255⟩, ⟨9, 9, 9, 255⟩, ⟨9, 9, 9, 255⟩]⟩
        ⟨3, 2, [0, 255, 0, 0, 0, 0]⟩
        ⟨3, 2, [⟨1, 0, 0, 255⟩, ⟨0, 0, 0, 255⟩, ⟨1, 0, 0, 255⟩,
                ⟨0, 0, 0, 255⟩, ⟨0, 0, 0, 255⟩, ⟨0, 0, 0, 255⟩]⟩).getColor 1 0).r = 0 ∧
    clampRound (6004799503160661 / 9007199254740992) = 1 := by
  refine ⟨by decide!, by decide!, by decide!, ?_⟩
  decide!

/-- Claim C6, amended: at every pixel of Ω of a well-formed destination and in each of the
four channels, where the final estimate is a finite double of magnitude below `2 ^ 127`
(inside the range of `float`), the result holds the final estimate converted to single
precision (the `float` nearest to it, within the relative error `2 ^ (-24)`), clamped into
`[0, 255]`, with its fractional part discarded (rounded down, not to the nearest
integer). -/
theorem seamlessClone_inside_eq_clampTruncate (cfg : ofApp) (nanByte : Nat)
    (src : ofPixels ofColor) (mask : ofPixels Nat) (dst : ofPixels ofColor) (x y : Nat)
    (c : Channel) (q : ℚ)
    (hlen : dst.data.length = dst.width * dst.height) (hx : x < dst.width) (hy : y < dst.height)
    (hin : (inside mask dst.width dst.height).getD (idx x y dst.width) false = true)
    (hq : ((solve cfg src mask dst).2.chan c).getD (idx x y dst.width) Double.nan
      = Double.fin q)
    (hrange : |q| < (2 : ℚ) ^ (127 : Int)) :
    ∃ r, Double.toFloat (Double.fin q) = Double.fin r ∧
      ((seamlessClone cfg nanByte src mask dst).getColor x y).chan c = clampTruncate r ∧
      |r - q| ≤ |q| * (2 : ℚ) ^ (-24 : Int) + (2 : ℚ) ^ (-150 : Int) := by
  obtain ⟨r, hr⟩ := roundNearestEven_finite 24 (-126) 127 q (by norm_num) (by norm_num) hrange
  have hr' : Double.toFloat (Double.fin q) = Double.fin r := hr
  refine ⟨r, hr', ?_, ?_⟩
  · rw [seamlessClone_getColor_inside cfg nanByte src mask dst x y hlen hx hy hin,
      resultColor_chan, hq, resultByte_of_toFloat_fin nanByte q r hr']
    exact Nat.mod_eq_of_lt (Nat.lt_succ_of_le (clampTruncate_le r))
  · have := roundNearestEven_error 24 (-126) 127 q r hr
    have e1 : (-((24 : Nat) : Int)) = -24 := by norm_num
    have e2 : (-126 : Int) - ((24 : Nat) : Int) = -150 := by norm_num
    rw [e1, e2] at this
    exact this

/-- A 3×1 raster whose two left pixels are in Ω, with the parameters of `ofApp.h`: after 20
sweeps the green estimate at pixel `(1, 0)` is `200 - 2 ^ (-18)`, whose nearest `float` is
200, and the result holds 200 (discarding the fractional part of the double itself would
give 199). -/
theorem seamlessClone_inside_eq_clampTruncate_witness :
    ((solve ofApp.default ⟨3, 1, [⟨0, 0, 0, 255⟩, ⟨255, 2, 0, 255⟩, ⟨0, 0, 0, 255⟩]⟩
        ⟨3, 1, [255, 255, 0]⟩
        ⟨3, 1, [⟨0, 0, 0, 255⟩, ⟨0, 196, 0, 255⟩, ⟨255, 198, 0, 255⟩]⟩).2.chan Channel.G).getD
        (idx 1 0 3) Double.nan = Double.fin (52428799 / 262144) ∧
    |(52428799 / 262144 : ℚ)| < (2 : ℚ) ^ (127 : Int) ∧
    Double.toFloat (Double.fin (52428799 / 262144)) = Double.fin 200 ∧
    (∃ r, Double.toFloat (Double.fin (52428799 / 262144)) = Double.fin r ∧
      ((seamlessClone ofApp.default 0
        ⟨3, 1, [⟨0, 0, 0, 255⟩, ⟨255, 2, 0, 255⟩, ⟨0, 0, 0, 255⟩]⟩
        ⟨3, 1, [255, 255, 0]⟩
        ⟨3, 1, [⟨0, 0, 0, 255⟩, ⟨0, 196, 0, 255⟩, ⟨255, 198, 0, 255⟩]⟩).getColor 1 0).chan
        Channel.G = clampTruncate r ∧
      |r - 52428799 / 262144|
        ≤ |(52428799 / 262144 : ℚ)| * (2 : ℚ) ^ (-24 : Int) + (2 : ℚ) ^ (-150 : Int)) ∧
    ((seamlessClone ofApp.default 0 ⟨3, 1, [⟨0, 0, 0, 255⟩, ⟨255, 2, 0, 255⟩, ⟨0, 0, 0, 255⟩]⟩
        ⟨3, 1, [255, 255, 0]⟩
        ⟨3, 1, [⟨0, 0, 0, 255⟩, ⟨0, 196, 0, 255⟩, ⟨255, 198, 0, 255⟩]⟩).getColor 1 0).chan
        Channel.G = 200 ∧
    clampTruncate 200 = 200 ∧ clampTruncate (52428799 / 262144) = 199 :=
  have hq : ((solve ofApp.default
      ⟨3, 1, [⟨0, 0, 0, 255⟩, ⟨255, 2, 0, 255⟩, ⟨0, 0, 0, 255⟩]⟩ ⟨3, 1, [255, 255, 0]⟩
      ⟨3, 1, [⟨0, 0, 0, 255⟩, ⟨0, 196, 0, 255⟩, ⟨255, 198, 0, 255⟩]⟩).2.chan Channel.G).getD
      (idx 1 0 3) Double.nan = Double.fin (52428799 / 262144) := by decide!
  have hrange : |(52428799 / 262144 : ℚ)| < (2 : ℚ) ^ (127 : Int) :=
    abs_lt.mpr ⟨by norm_num, by norm_num⟩
  ⟨hq, hrange, by decide!,
   seamlessClone_inside_eq_clampTruncate ofApp.default 0
      ⟨3, 1, [⟨0, 0, 0, 255⟩, ⟨255, 2, 0, 255⟩, ⟨0, 0, 0, 255⟩]⟩ ⟨3, 1, [255, 255, 0]⟩
      ⟨3, 1, [⟨0, 0, 0, 255⟩, ⟨0, 196, 0, 255⟩, ⟨255, 198, 0, 255⟩]⟩ 1 0 Channel.G
      (52428799 / 262144) (by decide) (by decide) (by decide) (by decide!) hq hrange,
   by decide!, by decide!, by decide!⟩

/-! ## The sweep on an estimate field of finite doubles -/

theorem Double.isFinite_iff (d : Double) :
    d.isFinite ↔ ∃ q, d = Double.fin q ∧ Double.ofRat q = Double.fin q := by
  cases d with
  | fin q =>
    constructor
    · intro h; exact ⟨q, rfl, h⟩
    · rintro ⟨q', hq, h⟩
      injection hq with hq
      subst hq
      exact h
  | inf s =>
    constructor
    · intro h; exact absurd h (fun h => h)
    · rintro ⟨q, hq, _⟩; exact absurd hq (by simp)
  | nan =>
    constructor
    · intro h; exact absurd h (fun h => h)
    · rintro ⟨q, hq, _⟩; exact absurd hq (by simp)

theorem Estimate.finite_getD {f : Estimate} {n : Nat} (hf : f.finite n) (c : Channel) {i : Nat}
    (hi : i < n) :
    ∃ q, (f.chan c).getD i Double.nan = Double.fin q ∧ Double.ofRat q = Double.fin q :=
  (Double.isFinite_iff _).mp ((hf c).2 i hi)

theorem Double.rounded_ofRat (q : ℚ) : (Double.ofRat q).rounded := by
  rcases roundNearestEven_sign 53 (-1022) 1023 q with ⟨h, _⟩ | ⟨r, h, _⟩
  · have : Double.ofRat q = Double.inf (decide (q < 0)) := h
    rw [this]
    trivial
  · have h' : Double.ofRat q = Double.fin r := h
    rw [h']
    exact Double.ofRat_idem q r h'

theorem Double.rounded_of_isFinite {d : Double} (h : d.isFinite) : d.rounded := by
  cases d with
  | fin q => exact h
  | inf s => exact absurd h (fun h => h)
  | nan => exact absurd h (fun h => h)

/-- Adding a finite value to a double that is not `NaN` does not give `NaN`. -/
theorem Double.rounded_add_fin (x : Double) (hx : x.rounded) (v : ℚ) :
    (x + Double.fin v).rounded := by
  cases x with
  | fin a => exact Double.rounded_ofRat (a + v)
  | inf s => trivial
  | nan => exact absurd hx (fun h => h)

/-- Dividing a double that is not `NaN` by a non-zero count does not give `NaN`. -/
theorem Double.rounded_div_ofNat (x : Double) (hx : x.rounded) (n : Nat) (hn : n ≠ 0) :
    (x / Double.ofNat n).rounded := by
  have hnq : (n : ℚ) ≠ 0 := by exact_mod_cast hn
  cases x with
  | fin a =>
    rw [Double.ofNat_eq, Double.fin_div a _ hnq]
    exact Double.rounded_ofRat _
  | inf s => trivial
  | nan => exact absurd hx (fun h => h)

/-- The raw change `|new - f|` of a finite entry is zero, positive or `+∞`, and it is zero
exactly when the new value is the entry itself. -/
theorem Double.abs_sub_fin (x : Double) (hx : x.rounded) (a : ℚ)
    (ha : Double.ofRat a = Double.fin a) :
    (Double.abs (x - Double.fin a)).nonneg ∧
    (Double.abs (x - Double.fin a) = Double.fin 0 ↔ x = Double.fin a) := by
  cases x with
  | nan => exact absurd hx (fun h => h)
  | inf s =>
    refine ⟨rfl, ?_⟩
    constructor
    · intro h; exact absurd h (by simp [Double.abs, HSub.hSub, Sub.sub, Double.sub])
    · intro h; exact absurd h (by simp)
  | fin b =>
    have hb : Double.ofRat b = Double.fin b := hx
    have hz := Double.sub_eq_zero_iff b a hb ha
    rcases hd : Double.fin b - Double.fin a with r | s | _
    · rw [Double.abs_fin]
      refine ⟨abs_nonneg r, ?_⟩
      rw [hd] at hz
      constructor
      · intro h
        injection h with h
        have hr : r = 0 := abs_eq_zero.mp h
        rw [hz.mp (by rw [hr])]
      · intro h
        injection h with h
        have := hz.mpr h
        injection this with this
        rw [this, abs_zero]
    · refine ⟨rfl, ?_⟩
      constructor
      · intro h; exact absurd h (by simp [Double.abs])
      · intro h
        injection h with h
        have := hz.mpr h
        rw [hd] at this
        exact absurd this (by simp)
    · exfalso
      have := Double.rounded_ofRat (b - a)
      rw [← Double.fin_sub, hd] at this
      exact this

/-- The function `std::max` of two non-negative doubles is zero exactly when both are. -/
theorem Double.max_eq_zero_iff (m d : Double) (hm : m.nonneg) (hd : d.nonneg) :
    Double.max m d = Double.fin 0 ↔ m = Double.fin 0 ∧ d = Double.fin 0 := by
  unfold Double.max
  cases m with
  | nan => exact absurd hm (fun h => h)
  | inf s =>
    have hs : s = false := hm
    subst hs
    cases d with
    | nan => exact absurd hd (fun h => h)
    | inf t => simp [Double.lt]
    | fin b => simp [Double.lt]
  | fin a =>
    have ha : 0 ≤ a := hm
    cases d with
    | nan => exact absurd hd (fun h => h)
    | inf t =>
      have ht : t = false := hd
      subst ht
      simp [Double.lt]
    | fin b =>
      have hb : 0 ≤ b := hd
      by_cases hlt : a < b
      · simp only [Double.lt_fin, hlt, decide_True, if_true]
        constructor
        · intro h
          injection h with h
          linarith
        · rintro ⟨h1, h2⟩
          exact h2
      · simp only [Double.lt_fin, hlt, decide_False, Bool.false_eq_true, if_false]
        constructor
        · intro h
          injection h with h
          refine ⟨by rw [h], ?_⟩
          have : b = 0 := le_antisymm (by linarith [not_lt.mp hlt]) hb
          rw [this]
        · rintro ⟨h1, _⟩
          exact h1

/-- Once `maxDiff` is not zero, `std::max` never brings it back to zero. -/
theorem Double.max_ne_zero (m d : Double) (hm : m.nonneg) (hne : m ≠ Double.fin 0) :
    Double.max m d ≠ Double.fin 0 := by
  unfold Double.max
  cases m with
  | nan => exact absurd hm (fun h => h)
  | inf s =>
    have hs : s = false := hm
    subst hs
    cases d <;> simp [Double.lt]
  | fin a =>
    have ha : 0 ≤ a := hm
    have ha0 : a ≠ 0 := fun h => hne (by rw [h])
    have hpos : 0 < a := lt_of_le_of_ne ha (Ne.symm ha0)
    cases d with
    | nan => simpa [Double.lt] using ha0
    | inf t => cases t <;> simp [Double.lt, ha0]
    | fin b =>
      by_cases hlt : a < b
      · simp only [Double.lt_fin, hlt, decide_True, if_true]
        intro h
        injection h with h
        linarith
      · simp only [Double.lt_fin, hlt, decide_False, Bool.false_eq_true, if_false]
        exact hne

/-- With `relaxationFactor = 1` the relaxed update of a finite entry is the new value
itself: `(1.0 - 1) * f + 1 * new` is `0 + new`. -/
theorem relax_one (a : ℚ) (new : Double) (hnew : new.rounded) :
    relax 1 (Double.fin a) new = new := by
  unfold relax
  rw [Double.ofRat_one, Double.fin_sub, sub_self, Double.ofRat_zero, Double.fin_mul, zero_mul,
    Double.ofRat_zero]
  cases new with
  | nan => exact absurd hnew (fun h => h)
  | inf s =>
    show Double.add (Double.fin 0) (Double.mul (Double.fin 1) (Double.inf s)) = Double.inf s
    have h10 : ¬ ((1 : ℚ) < 0) := by norm_num
    cases s <;> simp [Double.mul, Double.add, h10]
  | fin b =>
    have hb : Double.ofRat b = Double.fin b := hnew
    rw [Double.fin_mul, one_mul, hb, Double.fin_add, zero_add, hb]

/-- The gradient of two bytes is computed exactly. -/
theorem Double.ofNat_sub_ofNat (a b : Fin 256) :
    Double.ofNat a - Double.ofNat b = Double.fin ((a : ℚ) - (b : ℚ)) := by
  rw [Double.ofNat_eq, Double.ofNat_eq, Double.fin_sub]
  have h := Double.ofRat_intCast ((a : Int) - (b : Int)) (by
    have ha := a.isLt
    have hb := b.isLt
    have : ((a : Int) - (b : Int)).natAbs < 256 := by omega
    exact lt_trans this (by norm_num))
  push_cast at h
  exact h

theorem guidance_fin (mixed : Bool) (s d : ℚ) :
    guidance mixed (Double.fin s) (Double.fin d)
      = Double.fin (if mixed = true ∧ |s| < |d| then d else s) := by
  unfold guidance
  rw [Double.abs_fin, Double.abs_fin, Double.lt_fin]
  by_cases hm : mixed = true <;> by_cases hlt : |s| < |d| <;> simp [hm, hlt]

theorem neighbors_mem_bounds {width height x y : Nat} (hx : x < width) (hy : y < height)
    {q : Nat × Nat} (hq : q ∈ neighbors width height x y) : q.1 < width ∧ q.2 < height := by
  unfold neighbors at hq
  simp only [List.mem_append] at hq
  rcases hq with ((hq | hq) | hq) | hq
  · split at hq
    · simp only [List.mem_singleton] at hq; subst hq; exact ⟨by simp only; omega, hy⟩
    · simp at hq
  · split at hq
    · simp only [List.mem_singleton] at hq; subst hq; exact ⟨by assumption, hy⟩
    · simp at hq
  · split at hq
    · simp only [List.mem_singleton] at hq; subst hq; exact ⟨hx, by simp only; omega⟩
    · simp at hq
  · split at hq
    · simp only [List.mem_singleton] at hq; subst hq; exact ⟨hx, by assumption⟩
    · simp at hq

theorem pixelStep_outside (cfg : ofApp) (src dst : ofPixels ofColor) (ins : List Bool)
    (width height : Nat) (st : SweepState) (x y : Nat)
    (hout : ins.getD (idx x y width) false = false) :
    pixelStep cfg src dst ins width height st x y = st := by
  unfold pixelStep
  simp [-List.getD_eq_getElem?_getD, hout]

theorem pixelStep_f_chan (cfg : ofApp) (src dst : ofPixels ofColor) (ins : List Bool)
    (width height : Nat) (st : SweepState) (x y : Nat)
    (hin : ins.getD (idx x y width) false = true) (c : Channel) :
    (pixelStep cfg src dst ins width height st x y).f.chan c
      = (st.f.chan c).set (idx x y width)
          (relax cfg.relaxationFactor ((st.f.chan c).getD (idx x y width) Double.nan)
            ((neighborSums cfg src dst ins width height st.f x y).chan c
              / Double.ofNat (neighborSums cfg src dst ins width height st.f x y).nCount)) := by
  unfold pixelStep
  simp only [hin, Bool.not_true, Bool.false_eq_true, if_false]
  cases c <;> rfl

theorem pixelStep_maxDiff (cfg : ofApp) (src dst : ofPixels ofColor) (ins : List Bool)
    (width height : Nat) (st : SweepState) (x y : Nat)
    (hin : ins.getD (idx x y width) false = true) :
    (pixelStep cfg src dst ins width height st x y).maxDiff
      = Double.max (Double.max (Double.max (Double.max st.maxDiff
          (Double.abs ((neighborSums cfg src dst ins width height st.f x y).chan Channel.R
              / Double.ofNat (neighborSums cfg src dst ins width height st.f x y).nCount
            - (st.f.chan Channel.R).getD (idx x y width) Double.nan)))
          (Double.abs ((neighborSums cfg src dst ins width height st.f x y).chan Channel.G
              / Double.ofNat (neighborSums cfg src dst ins width height st.f x y).nCount
            - (st.f.chan Channel.G).getD (idx x y width) Double.nan)))
          (Double.abs ((neighborSums cfg src dst ins width height st.f x y).chan Channel.B
              / Double.ofNat (neighborSums cfg src dst ins width height st.f x y).nCount
            - (st.f.chan Channel.B).getD (idx x y width) Double.nan)))
          (Double.abs ((neighborSums cfg src dst ins width height st.f x y).chan Channel.A
              / Double.ofNat (neighborSums cfg src dst ins width height st.f x y).nCount
            - (st.f.chan Channel.A).getD (idx x y width) Double.nan)) := by
  unfold pixelStep
  simp only [hin, Bool.not_true, Bool.false_eq_true, if_false]
  rfl

theorem addNeighbor_chan (cfg : ofApp) (src dst : ofPixels ofColor) (ins : List Bool)
    (width : Nat) (f : Estimate) (x y : Nat) (s : Sums) (q : Nat × Nat) (c : Channel) :
    (addNeighbor cfg src dst ins width f x y s q).chan c
      = s.chan c
        + (if ins.getD (idx q.1 q.2 width) false = true
            then (f.chan c).getD (idx q.1 q.2 width) Double.nan
            else Double.ofNat ((dst.getColor q.1 q.2).chan c))
        + Double.fin (guidanceValue cfg src dst c (x, y) q) := by
  unfold addNeighbor guidanceValue
  by_cases hin : ins.getD (idx q.1 q.2 width) false = true
  · simp only [hin, if_true]
    cases c <;>
      simp only [Sums.chan, Estimate.chan, ofColor.chan, Double.ofNat_sub_ofNat,
        guidance_fin, ne_eq, not_true_eq_false,
        false_and, if_false, reduceCtorEq, not_false_eq_true, true_and]
  · have hin2 : ins.getD (idx q.1 q.2 width) false = false := by
      cases hb : ins.getD (idx q.1 q.2 width) false
      · rfl
      · exact absurd hb hin
    simp only [hin2, Bool.false_eq_true, if_false]
    cases c <;>
      simp only [Sums.chan, Estimate.chan, ofColor.chan, Double.ofNat_sub_ofNat,
        guidance_fin, ne_eq, not_true_eq_false,
        false_and, if_false, reduceCtorEq, not_false_eq_true, true_and]

theorem foldl_addNeighbor_chan (cfg : ofApp) (src dst : ofPixels ofColor) (ins : List Bool)
    (width : Nat) (f : Estimate) (x y : Nat) (l : List (Nat × Nat)) (s : Sums) (c : Channel) :
    (l.foldl (addNeighbor cfg src dst ins width f x y) s).chan c
      = l.foldl (fun acc q => acc
          + (if ins.getD (idx q.1 q.2 width) false = true
              then (f.chan c).getD (idx q.1 q.2 width) Double.nan
              else Double.ofNat ((dst.getColor q.1 q.2).chan c))
          + Double.fin (guidanceValue cfg src dst c (x, y) q)) (s.chan c) := by
  induction l generalizing s with
  | nil => rfl
  | cons q t ih =>
    simp only [List.foldl_cons]
    rw [ih, addNeighbor_chan]

/-- The accumulator of channel `c` after the neighbour loop, as a fold over the in-bounds
neighbours. -/
theorem neighborSums_chan_eq_foldl (cfg : ofApp) (src dst : ofPixels ofColor) (ins : List Bool)
    (width height : Nat) (f : Estimate) (x y : Nat) (c : Channel)
    (hx : x < width) (hy : y < height) :
    (neighborSums cfg src dst ins width height f x y).chan c
      = (neighbors width height x y).foldl (fun acc q => acc
          + (if ins.getD (idx q.1 q.2 width) false = true
              then (f.chan c).getD (idx q.1 q.2 width) Double.nan
              else Double.ofNat ((dst.getColor q.1 q.2).chan c))
          + Double.fin (guidanceValue cfg src dst c (x, y) q)) (Double.fin 0) := by
  rw [neighborSums_eq_foldl _ _ _ _ _ _ _ _ _ hx hy, foldl_addNeighbor_chan]
  cases c <;> rfl

/-- The term (estimate or destination colour) that an in-bounds neighbour contributes on a
field of finite doubles is finite. -/
theorem neighbor_contribution_fin (dst : ofPixels ofColor) (ins : List Bool) (width n : Nat)
    (f : Estimate) (hf : f.finite n) (c : Channel) (q : Nat × Nat)
    (hq : idx q.1 q.2 width < n) :
    ∃ v, (if ins.getD (idx q.1 q.2 width) false = true
            then (f.chan c).getD (idx q.1 q.2 width) Double.nan
            else Double.ofNat ((dst.getColor q.1 q.2).chan c)) = Double.fin v := by
  split
  · obtain ⟨v, hv, _⟩ := Estimate.finite_getD hf c hq
    exact ⟨v, hv⟩
  · exact ⟨_, rfl⟩

theorem foldl_contribution_rounded (cfg : ofApp) (src dst : ofPixels ofColor)
    (ins : List Bool) (width n : Nat) (f : Estimate) (hf : f.finite n) (x y : Nat)
    (c : Channel) (l : List (Nat × Nat)) (hl : ∀ q ∈ l, idx q.1 q.2 width < n)
    (acc : Double) (hacc : acc.rounded) :
    (l.foldl (fun acc q => acc
          + (if ins.getD (idx q.1 q.2 width) false = true
              then (f.chan c).getD (idx q.1 q.2 width) Double.nan
              else Double.ofNat ((dst.getColor q.1 q.2).chan c))
          + Double.fin (guidanceValue cfg src dst c (x, y) q)) acc).rounded := by
  induction l generalizing acc with
  | nil => exact hacc
  | cons q t ih =>
    simp only [List.foldl_cons]
    apply ih (fun q' hq' => hl q' (List.mem_cons_of_mem q hq'))
    obtain ⟨v, hv⟩ := neighbor_contribution_fin dst ins width n f hf c q
      (hl q (List.mem_cons_self q t))
    rw [hv]
    exact Double.rounded_add_fin _ (Double.rounded_add_fin _ hacc v) _

/-- On a field of finite doubles the accumulated sums are never `NaN`. -/
theorem neighborSums_chan_rounded (cfg : ofApp) (src dst : ofPixels ofColor) (ins : List Bool)
    (width height : Nat) (f : Estimate) (hf : f.finite (width * height)) (x y : Nat)
    (hx : x < width) (hy : y < height) (c : Channel) :
    ((neighborSums cfg src dst ins width height f x y).chan c).rounded := by
  rw [neighborSums_chan_eq_foldl _ _ _ _ _ _ _ _ _ c hx hy]
  exact foldl_contribution_rounded cfg src dst ins width (width * height) f hf x y c _
    (fun q hq => idx_lt (neighbors_mem_bounds hx hy hq).1 (neighbors_mem_bounds hx hy hq).2)
    _ Double.ofRat_zero

/-- On a field of finite doubles, at a pixel with an in-bounds neighbour, the new value is
a finite double or an infinity, never `NaN`. -/
theorem newValue_rounded (cfg : ofApp) (src dst : ofPixels ofColor) (ins : List Bool)
    (width height : Nat) (f : Estimate) (hf : f.finite (width * height)) (x y : Nat)
    (hx : x < width) (hy : y < height) (hN : neighbors width height x y ≠ []) (c : Channel) :
    (newValue cfg src dst ins width height f c x y).rounded := by
  unfold newValue
  apply Double.rounded_div_ofNat _
    (neighborSums_chan_rounded cfg src dst ins width height f hf x y hx hy c)
  rw [neighborSums_nCount _ _ _ _ _ _ _ _ _ hx hy]
  intro h0
  exact hN (List.length_eq_zero.mp h0)

/-! ## Fixed points of the sweep -/

theorem Estimate.ext_chan (f g : Estimate) (h : ∀ c, f.chan c = g.chan c) : f = g := by
  have hR := h Channel.R
  have hG := h Channel.G
  have hB := h Channel.B
  have hA := h Channel.A
  cases f; cases g
  simp only [Estimate.chan] at hR hG hB hA
  simp [hR, hG, hB, hA]

theorem set_eq_self_of_getD {α : Type} (l : List α) (i : Nat) (d a : α)
    (h : l.getD i d = a) : l.set i a = l := by
  apply list_eq_of_getD _ _ d (by simp)
  intro j
  rw [getD_set]
  by_cases hij : i = j
  · subst hij
    by_cases hl : i < l.length
    · simp [-List.getD_eq_getElem?_getD, hl, h]
    · simp [-List.getD_eq_getElem?_getD, hl]
  · simp [-List.getD_eq_getElem?_getD, hij]

theorem mod_div_lt {k width height : Nat} (hk : k < width * height) :
    k % width < width ∧ k / width < height := by
  have hw : 0 < width := by
    rcases Nat.eq_zero_or_pos width with h | h
    · subst h; simp at hk
    · exact h
  exact ⟨Nat.mod_lt _ hw, (Nat.div_lt_iff_lt_mul hw).mpr (by rwa [Nat.mul_comm] at hk)⟩

theorem pixelStep_maxDiff_newValue (cfg : ofApp) (src dst : ofPixels ofColor)
    (ins : List Bool) (width height : Nat) (st : SweepState) (x y : Nat)
    (hin : ins.getD (idx x y width) false = true) :
    (pixelStep cfg src dst ins width height st x y).maxDiff
      = Double.max (Double.max (Double.max (Double.max st.maxDiff
          (Double.abs (newValue cfg src dst ins width height st.f Channel.R x y
            - (st.f.chan Channel.R).getD (idx x y width) Double.nan)))
          (Double.abs (newValue cfg src dst ins width height st.f Channel.G x y
            - (st.f.chan Channel.G).getD (idx x y width) Double.nan)))
          (Double.abs (newValue cfg src dst ins width height st.f Channel.B x y
            - (st.f.chan Channel.B).getD (idx x y width) Double.nan)))
          (Double.abs (newValue cfg src dst ins width height st.f Channel.A x y
            - (st.f.chan Channel.A).getD (idx x y width) Double.nan)) :=
  pixelStep_maxDiff cfg src dst ins width height st x y hin

theorem pixelStep_f_chan_newValue (cfg : ofApp) (src dst : ofPixels ofColor) (ins : List Bool)
    (width height : Nat) (st : SweepState) (x y : Nat)
    (hin : ins.getD (idx x y width) false = true) (c : Channel) :
    (pixelStep cfg src dst ins width height st x y).f.chan c
      = (st.f.chan c).set (idx x y width)
          (relax cfg.relaxationFactor ((st.f.chan c).getD (idx x y width) Double.nan)
            (newValue cfg src dst ins width height st.f c x y)) :=
  pixelStep_f_chan cfg src dst ins width height st x y hin c

theorem max4_eq_zero_iff (dR dG dB dA : Double) (hR : dR.nonneg) (hG : dG.nonneg)
    (hB : dB.nonneg) (hA : dA.nonneg) :
    Double.max (Double.max (Double.max (Double.max (Double.fin 0) dR) dG) dB) dA = Double.fin 0
      ↔ dR = Double.fin 0 ∧ dG = Double.fin 0 ∧ dB = Double.fin 0 ∧ dA = Double.fin 0 := by
  have h0 : (Double.fin 0).nonneg := le_refl (0 : ℚ)
  have h1 := Double.max_nonneg (Double.fin 0) dR h0
  have h2 := Double.max_nonneg _ dG h1
  have h3 := Double.max_nonneg _ dB h2
  rw [Double.max_eq_zero_iff _ _ h3 hA, Double.max_eq_zero_iff _ _ h2 hB,
    Double.max_eq_zero_iff _ _ h1 hG, Double.max_eq_zero_iff _ _ h0 hR]
  constructor
  · rintro ⟨⟨⟨⟨_, a⟩, b⟩, c⟩, d⟩
    exact ⟨a, b, c, d⟩
  · rintro ⟨a, b, c, d⟩
    exact ⟨⟨⟨⟨rfl, a⟩, b⟩, c⟩, d⟩

/-- At a pixel of Ω with an in-bounds neighbour, on a field of finite doubles and with
`maxDiff` still zero: `maxDiff` stays zero exactly when the new value of every channel is the
current entry, and then (with `relaxationFactor = 1`) the field is left unchanged. -/
theorem pixelStep_of_zero (cfg : ofApp) (src dst : ofPixels ofColor) (ins : List Bool)
    (width height : Nat) (st : SweepState) (hw : cfg.relaxationFactor = 1)
    (hf : st.f.finite (width * height)) (hm : st.maxDiff = Double.fin 0) (x y : Nat)
    (hx : x < width) (hy : y < height) (hN : neighbors width height x y ≠ [])
    (hin : ins.getD (idx x y width) false = true) :
    ((pixelStep cfg src dst ins width height st x y).maxDiff = Double.fin 0
      ↔ ∀ c, newValue cfg src dst ins width height st.f c x y
          = (st.f.chan c).getD (idx x y width) Double.nan) ∧
    ((pixelStep cfg src dst ins width height st x y).maxDiff = Double.fin 0 →
      (pixelStep cfg src dst ins width height st x y).f = st.f) := by
  have hc : ∀ c, (Double.abs (newValue cfg src dst ins width height st.f c x y
        - (st.f.chan c).getD (idx x y width) Double.nan)).nonneg ∧
      (Double.abs (newValue cfg src dst ins width height st.f c x y
        - (st.f.chan c).getD (idx x y width) Double.nan) = Double.fin 0
        ↔ newValue cfg src dst ins width height st.f c x y
          = (st.f.chan c).getD (idx x y width) Double.nan) := by
    intro c
    obtain ⟨a, ha, hra⟩ := Estimate.finite_getD hf c (idx_lt hx hy)
    rw [ha]
    exact Double.abs_sub_fin _ (newValue_rounded cfg src dst ins width height st.f hf x y hx hy
      hN c) a hra
  have hiff : (pixelStep cfg src dst ins width height st x y).maxDiff = Double.fin 0
      ↔ ∀ c, newValue cfg src dst ins width height st.f c x y
          = (st.f.chan c).getD (idx x y width) Double.nan := by
    rw [pixelStep_maxDiff_newValue _ _ _ _ _ _ _ _ _ hin, hm,
      max4_eq_zero_iff _ _ _ _ (hc Channel.R).1 (hc Channel.G).1 (hc Channel.B).1
        (hc Channel.A).1,
      (hc Channel.R).2, (hc Channel.G).2, (hc Channel.B).2, (hc Channel.A).2]
    constructor
    · rintro ⟨a, b, c, d⟩ ch
      cases ch
      · exact a
      · exact b
      · exact c
      · exact d
    · intro h
      exact ⟨h Channel.R, h Channel.G, h Channel.B, h Channel.A⟩
  refine ⟨hiff, fun hz => ?_⟩
  have hall := hiff.mp hz
  apply Estimate.ext_chan
  intro c
  rw [pixelStep_f_chan_newValue _ _ _ _ _ _ _ _ _ hin, hw, hall c]
  apply set_eq_self_of_getD _ _ Double.nan
  obtain ⟨a, ha, hra⟩ := Estimate.finite_getD hf c (idx_lt hx hy)
  rw [ha]
  have hr : (Double.fin a).rounded := hra
  exact (relax_one a (Double.fin a) hr).symm

/-- The invariant of a sweep started from a field of finite doubles, with
`relaxationFactor = 1`, on a raster in which every pixel of Ω has an in-bounds neighbour. -/
theorem sweep_invariant (cfg : ofApp) (src dst : ofPixels ofColor) (ins : List Bool)
    (width height : Nat) (f : Estimate) (hw : cfg.relaxationFactor = 1)
    (hf : f.finite (width * height))
    (hN : ∀ x < width, ∀ y < height, ins.getD (idx x y width) false = true →
      neighbors width height x y ≠ []) :
    ((sweep cfg src dst ins width height f).maxDiff = Double.fin 0 →
      (sweep cfg src dst ins width height f).f = f) ∧
    ((sweep cfg src dst ins width height f).maxDiff = Double.fin 0
      ↔ ∀ i < width * height, ins.getD i false = true →
        ∀ c, newValue cfg src dst ins width height f c (i % width) (i / width)
          = (f.chan c).getD i Double.nan) := by
  have key := forYX_induction
    (fun k (st : SweepState) => st.maxDiff.nonneg ∧
      (st.maxDiff = Double.fin 0 → st.f = f) ∧
      (st.maxDiff = Double.fin 0 ↔ ∀ i < k, ins.getD i false = true →
        ∀ c, newValue cfg src dst ins width height f c (i % width) (i / width)
          = (f.chan c).getD i Double.nan))
    height width (pixelStep cfg src dst ins width height) ⟨Double.fin 0, f⟩
    ⟨le_refl (0 : ℚ), fun _ => rfl, by simp⟩
    (by
      intro k st hk hP
      obtain ⟨hnn, hfix, hiff⟩ := hP
      obtain ⟨hx, hy⟩ := mod_div_lt hk
      have hidx : idx (k % width) (k / width) width = k := idx_mod_div k width
      refine ⟨pixelStep_maxDiff_nonneg cfg src dst ins width height st _ _ hnn, ?_⟩
      by_cases hin : ins.getD k false = true
      · have hin' : ins.getD (idx (k % width) (k / width) width) false = true := by
          rw [hidx]; exact hin
        have hNk := hN _ hx _ hy hin'
        by_cases hz : st.maxDiff = Double.fin 0
        · have hstf : st.f = f := hfix hz
          have hfst : st.f.finite (width * height) := hstf ▸ hf
          obtain ⟨h1, h2⟩ := pixelStep_of_zero cfg src dst ins width height st hw hfst hz
            (k % width) (k / width) hx hy hNk hin'
          rw [hstf, hidx] at h1
          refine ⟨fun h => (h2 h).trans hstf, ?_⟩
          rw [h1]
          constructor
          · intro hk' i hi hini c
            by_cases hik : i = k
            · subst hik
              exact hk' c
            · exact (hiff.mp hz) i (by omega) hini c
          · intro hall c
            exact hall k (Nat.lt_succ_self k) hin c
        · have hne : (pixelStep cfg src dst ins width height st (k % width)
              (k / width)).maxDiff ≠ Double.fin 0 := by
            rw [pixelStep_maxDiff _ _ _ _ _ _ _ _ _ hin']
            exact Double.max_ne_zero _ _ (Double.max_nonneg _ _ (Double.max_nonneg _ _
              (Double.max_nonneg _ _ hnn))) (Double.max_ne_zero _ _ (Double.max_nonneg _ _
              (Double.max_nonneg _ _ hnn)) (Double.max_ne_zero _ _ (Double.max_nonneg _ _ hnn)
              (Double.max_ne_zero _ _ hnn hz)))
          refine ⟨fun h => absurd h hne, ?_⟩
          constructor
          · intro h; exact absurd h hne
          · intro hall
            exact absurd (hiff.mpr (fun i hi hini c => hall i (by omega) hini c)) hz
      · have hin2 : ins.getD (idx (k % width) (k / width) width) false = false := by
          rw [hidx]
          cases hb : ins.getD k false
          · rfl
          · exact absurd hb hin
        rw [pixelStep_outside _ _ _ _ _ _ _ _ _ hin2]
        refine ⟨hfix, ?_⟩
        rw [hiff]
        constructor
        · intro hall i hi hini c
          by_cases hik : i = k
          · subst hik; exact absurd hini hin
          · exact hall i (by omega) hini c
        · intro hall i hi hini c
          exact hall i (by omega) hini c)
  exact ⟨key.2.1, key.2.2⟩

/-! ## The 1×1 raster -/

theorem solve_one_by_one_nan :
    (solve ofApp.default ⟨1, 1, [⟨10, 20, 30, 40⟩]⟩ ⟨1, 1, [255]⟩ ⟨1, 1, [⟨10, 20, 30, 40⟩]⟩).2
      = ⟨[Double.nan], [Double.nan], [Double.nan], [Double.nan]⟩ := by
  decide!

theorem seamlessClone_one_by_one (nanByte : Nat) :
    seamlessClone ofApp.default nanByte ⟨1, 1, [⟨10, 20, 30, 40⟩]⟩ ⟨1, 1, [255]⟩
        ⟨1, 1, [⟨10, 20, 30, 40⟩]⟩
      = ⟨1, 1, [⟨nanByte, nanByte, nanByte, nanByte⟩]⟩ := by
  unfold seamlessClone
  simp only [solve_one_by_one_nan]
  rfl

/-! ## The initial estimate -/

theorem Estimate.zeros_chan (n : Nat) (c : Channel) :
    (Estimate.zeros n).chan c = List.replicate n (Double.fin 0) := by
  cases c <;> rfl

theorem initStep_chan (cfg : ofApp) (src dst : ofPixels ofColor) (ins : List Bool)
    (width : Nat) (f : Estimate) (x y : Nat) (c : Channel) :
    (initStep cfg src dst ins width f x y).chan c
      = if ins.getD (idx x y width) false = true then
          (f.chan c).set (idx x y width) (Double.ofNat
            ((if cfg.guessDestination = true then dst.getColor x y
              else src.getColor x y).chan c))
        else f.chan c := by
  unfold initStep
  by_cases hin : ins.getD (idx x y width) false = true
  · simp only [hin, if_true]
    cases c <;> rfl
  · simp only [hin, if_false]
    rfl

/-- The initial estimate holds the seed colour at the pixels of Ω and zero elsewhere. -/
theorem initEstimate_spec (cfg : ofApp) (src dst : ofPixels ofColor) (ins : List Bool)
    (width height : Nat) (c : Channel) :
    ((initEstimate cfg src dst ins width height).chan c).length = width * height ∧
    ∀ i, i < width * height →
      ((initEstimate cfg src dst ins width height).chan c).getD i Double.nan
        = if ins.getD i false = true then
            Double.ofNat ((if cfg.guessDestination = true then dst.getColor (i % width) (i / width)
              else src.getColor (i % width) (i / width)).chan c)
          else Double.fin 0 := by
  have key := forYX_induction
    (fun k (f : Estimate) => (f.chan c).length = width * height ∧
      ∀ i, i < width * height → (f.chan c).getD i Double.nan
        = if i < k ∧ ins.getD i false = true then
            Double.ofNat ((if cfg.guessDestination = true then dst.getColor (i % width) (i / width)
              else src.getColor (i % width) (i / width)).chan c)
          else Double.fin 0)
    height width (initStep cfg src dst ins width) (Estimate.zeros (width * height))
    (by
      show ((Estimate.zeros (width * height)).chan c).length = width * height ∧ _
      rw [Estimate.zeros_chan]
      refine ⟨List.length_replicate _ _, fun i hi => ?_⟩
      rw [List.getD_eq_getElem _ _ (by simpa using hi)]
      simp)
    (by
      intro k f hk hP
      obtain ⟨hlen, hget⟩ := hP
      rw [initStep_chan, idx_mod_div]
      by_cases hin : ins.getD k false = true
      · rw [if_pos hin]
        refine ⟨by simp [hlen], fun i hi => ?_⟩
        rw [getD_set, hget i hi, hlen]
        by_cases hik : k = i
        · subst hik
          simp [-List.getD_eq_getElem?_getD, hk, hin]
        · have : (i < k + 1) = (i < k) := by
            apply propext; constructor <;> intro h <;> omega
          simp [-List.getD_eq_getElem?_getD, hik, this]
      · rw [if_neg hin]
        refine ⟨hlen, fun i hi => ?_⟩
        rw [hget i hi]
        by_cases hik : i = k
        · subst hik
          simp [-List.getD_eq_getElem?_getD, hin]
        · have : (i < k + 1) = (i < k) := by
            apply propext; constructor <;> intro h <;> omega
          simp [-List.getD_eq_getElem?_getD, this])
  refine ⟨key.1, fun i hi => ?_⟩
  have := key.2 i hi
  simp only [hi, true_and] at this
  exact this

theorem ofColor.chan_lt (col : ofColor) (c : Channel) : col.chan c < 256 := by
  cases c <;> simp only [ofColor.chan] <;> omega

theorem Double.isFinite_ofNat (n : Nat) (hn : n < 2 ^ 53) : (Double.ofNat n).isFinite :=
  Double.ofRat_natCast n hn

theorem initEstimate_finite (cfg : ofApp) (src dst : ofPixels ofColor) (ins : List Bool)
    (width height : Nat) : (initEstimate cfg src dst ins width height).finite (width * height) := by
  intro c
  refine ⟨(initEstimate_spec cfg src dst ins width height c).1, fun i hi => ?_⟩
  rw [(initEstimate_spec cfg src dst ins width height c).2 i hi]
  split
  · exact Double.isFinite_ofNat _ (lt_trans (ofColor.chan_lt _ c) (by norm_num))
  · exact Double.ofRat_zero

/-! ## Stationary estimate fields -/

/-- From an estimate field of finite doubles that is a fixed point of the update, the
solver loop (with `relaxationFactor = 1`) returns the field unchanged, whatever the budget
and the tolerance. -/
theorem iterate_stationary (cfg : ofApp) (src dst : ofPixels ofColor) (ins : List Bool)
    (width height : Nat) (f : Estimate) (hw : cfg.relaxationFactor = 1)
    (hf : f.finite (width * height))
    (hN : ∀ x < width, ∀ y < height, ins.getD (idx x y width) false = true →
      neighbors width height x y ≠ [])
    (hst : ∀ x < width, ∀ y < height, ins.getD (idx x y width) false = true →
      ∀ c, newValue cfg src dst ins width height f c x y
        = (f.chan c).getD (idx x y width) Double.nan)
    (budget : Nat) :
    (iterate cfg src dst ins width height budget f).2 = f := by
  obtain ⟨hfix, hiff⟩ := sweep_invariant cfg src dst ins width height f hw hf hN
  have hm0 : (sweep cfg src dst ins width height f).maxDiff = Double.fin 0 := by
    rw [hiff]
    intro i hi hin c
    obtain ⟨hx, hy⟩ := mod_div_lt hi
    have := hst _ hx _ hy (by rw [idx_mod_div]; exact hin) c
    rwa [idx_mod_div] at this
  have hsf := hfix hm0
  induction budget with
  | zero => rfl
  | succ n ih =>
    unfold iterate
    simp only
    split
    · exact hsf
    · simp only
      rw [hsf]
      exact ih

theorem clampTruncate_natCast (n : Nat) (hn : n ≤ 255) : clampTruncate (n : ℚ) = n := by
  unfold clampTruncate
  have h1 : min (n : ℚ) 255 = n := min_eq_left (by exact_mod_cast hn)
  have h2 : max (0 : ℚ) n = n := max_eq_right (by exact_mod_cast Nat.zero_le n)
  rw [h1, h2, Int.floor_natCast, Int.toNat_natCast]

theorem ofColor_ext_chan (a b : ofColor) (h : ∀ c, a.chan c = b.chan c) : a = b := by
  have hR := h Channel.R
  have hG := h Channel.G
  have hB := h Channel.B
  have hA := h Channel.A
  cases a; cases b
  simp only [ofColor.chan] at hR hG hB hA
  simp only [ofColor.mk.injEq]
  exact ⟨Fin.ext hR, Fin.ext hG, Fin.ext hB, Fin.ext hA⟩

/-- A byte is a `float`: converting it from `double` to `float` changes nothing. -/
theorem Double.toFloat_natCast (n : Nat) (hn : n < 256) :
    Double.toFloat (Double.fin (n : ℚ)) = Double.fin (n : ℚ) := by
  show roundNearestEven 24 (-126) 127 (n : ℚ) = Double.fin (n : ℚ)
  have habs : |(n : ℚ)| = (n : ℚ) := abs_of_nonneg (Nat.cast_nonneg n)
  have hlt : (n : ℚ) < (2 : ℚ) ^ (8 : Nat) := by
    have : ((n : Nat) : ℚ) < ((256 : Nat) : ℚ) := by exact_mod_cast hn
    norm_num at this ⊢
    exact this
  apply roundNearestEven_of_representable 24 (-126) 127 (n : ℚ) n 0
    (lt_trans hn (by norm_num)) (by norm_num)
  · rw [habs, zpow_zero, mul_one]
  · rw [habs]
    have h128 : ((127 : Int) + 1).toNat = 128 := by decide
    rw [h128]
    exact lt_of_lt_of_le hlt (pow_le_pow_right₀ (by norm_num : (1 : ℚ) ≤ 2)
      (by norm_num : 8 ≤ 128))

/-- The byte written back for an estimate that is a byte is that byte. -/
theorem resultByte_natCast (nanByte n : Nat) (hn : n < 256) :
    resultByte nanByte (Double.fin (n : ℚ)) = n := by
  rw [resultByte_of_toFloat_fin nanByte _ _ (Double.toFloat_natCast n hn)]
  exact clampTruncate_natCast n (by omega)

/-- Accumulating, from `k * p`, contributions `d` and guidance values `p - d` that are
bytes gives `(k + number of neighbours) * p`, without any rounding. -/
theorem foldl_add_const {α : Type} (V : α → Double) (G : α → ℚ) (p : Nat) (hp : p < 256)
    (l : List α)
    (hl : ∀ q ∈ l, ∃ d : Nat, d < 256 ∧ V q = Double.fin (d : ℚ) ∧ G q = (p : ℚ) - (d : ℚ))
    (k : Nat) (hk : k + l.length ≤ 4) :
    l.foldl (fun acc q => acc + V q + Double.fin (G q)) (Double.fin ((k * p : Nat) : ℚ))
      = Double.fin (((k + l.length) * p : Nat) : ℚ) := by
  induction l generalizing k with
  | nil => simp
  | cons q t ih =>
    simp only [List.foldl_cons, List.length_cons] at hk ⊢
    obtain ⟨d, hd, hV, hG⟩ := hl q (List.mem_cons_self q t)
    have hkp : k * p ≤ 3 * 255 := Nat.mul_le_mul (by omega) (by omega)
    have h1 : Double.fin ((k * p : Nat) : ℚ) + V q = Double.fin ((k * p + d : Nat) : ℚ) := by
      rw [hV, Double.fin_add]
      have := Double.ofRat_natCast (k * p + d)
        (lt_of_le_of_lt (by omega : k * p + d ≤ 3 * 255 + 255) (by norm_num))
      push_cast at this ⊢
      exact this
    have h2 : Double.fin ((k * p + d : Nat) : ℚ) + Double.fin (G q)
        = Double.fin (((k + 1) * p : Nat) : ℚ) := by
      rw [hG, Double.fin_add]
      have e : ((k * p + d : Nat) : ℚ) + ((p : ℚ) - (d : ℚ)) = (((k + 1) * p : Nat) : ℚ) := by
        push_cast
        ring
      rw [e]
      have hle : (k + 1) * p ≤ 4 * 255 := Nat.mul_le_mul (by omega) (by omega)
      exact Double.ofRat_natCast _ (lt_of_le_of_lt hle (by norm_num))
    rw [h1, h2, ih (fun q' hq' => hl q' (List.mem_cons_of_mem q hq')) (k + 1) (by omega)]
    congr 3
    omega

/-- When the initial estimate is the destination colour on Ω and every guidance value is
the destination-side gradient, the initial estimate is a fixed point of the update and,
with `relaxationFactor = 1`, the result is the destination, provided every pixel of Ω has
an in-bounds neighbour. -/
theorem seamlessClone_eq_dst_of_stationary (cfg : ofApp) (nanByte : Nat)
    (src : ofPixels ofColor) (mask : ofPixels Nat) (dst : ofPixels ofColor)
    (hw : cfg.relaxationFactor = 1)
    (hlen : dst.data.length = dst.width * dst.height)
    (hN : ∀ x < dst.width, ∀ y < dst.height,
      (inside mask dst.width dst.height).getD (idx x y dst.width) false = true →
      neighbors dst.width dst.height x y ≠ [])
    (hseed : ∀ x < dst.width, ∀ y < dst.height,
      (inside mask dst.width dst.height).getD (idx x y dst.width) false = true →
      (if cfg.guessDestination = true then dst.getColor x y else src.getColor x y)
        = dst.getColor x y)
    (hguid : ∀ x < dst.width, ∀ y < dst.height,
      (inside mask dst.width dst.height).getD (idx x y dst.width) false = true →
      ∀ q ∈ neighbors dst.width dst.height x y, ∀ c,
        guidanceValue cfg src dst c (x, y) q
          = ((dst.getColor x y).chan c : ℚ) - ((dst.getColor q.1 q.2).chan c : ℚ)) :
    seamlessClone cfg nanByte src mask dst = dst := by
  have hval : ∀ x < dst.width, ∀ y < dst.height,
      (inside mask dst.width dst.height).getD (idx x y dst.width) false = true → ∀ c,
      ((initEstimate cfg src dst (inside mask dst.width dst.height) dst.width dst.height).chan
        c).getD (idx x y dst.width) Double.nan = Double.fin ((dst.getColor x y).chan c : ℚ) := by
    intro x hx y hy hin c
    rw [(initEstimate_spec cfg src dst _ dst.width dst.height c).2 _ (idx_lt hx hy), if_pos hin,
      idx_mod hx, idx_div hx, hseed x hx y hy hin]
    rfl
  have hsolve : (solve cfg src mask dst).2
      = initEstimate cfg src dst (inside mask dst.width dst.height) dst.width dst.height := by
    unfold solve
    simp only
    apply iterate_stationary cfg src dst _ dst.width dst.height _ hw
      (initEstimate_finite cfg src dst _ dst.width dst.height) hN
    intro x hx y hy hin c
    have hlen4 := neighbors_length_le dst.width dst.height x y
    have hne : (neighbors dst.width dst.height x y).length ≠ 0 := by
      intro h0
      exact hN x hx y hy hin (List.length_eq_zero.mp h0)
    unfold newValue
    rw [neighborSums_chan_eq_foldl _ _ _ _ _ _ _ _ _ c hx hy,
      neighborSums_nCount _ _ _ _ _ _ _ _ _ hx hy, hval x hx y hy hin c]
    have h0 : Double.fin 0 = Double.fin (((0 : Nat) * (dst.getColor x y).chan c : Nat) : ℚ) := by
      simp
    rw [h0, foldl_add_const _ _ ((dst.getColor x y).chan c) (ofColor.chan_lt _ c)
      (neighbors dst.width dst.height x y) ?_ 0 (by omega)]
    · rw [Double.ofNat_eq, Double.fin_div _ _ (by exact_mod_cast hne)]
      have e : ((((0 + (neighbors dst.width dst.height x y).length)
          * (dst.getColor x y).chan c : Nat) : ℚ))
            / ((neighbors dst.width dst.height x y).length : ℚ)
          = (((dst.getColor x y).chan c : Nat) : ℚ) := by
        push_cast
        rw [zero_add]
        field_simp
      rw [e]
      exact Double.ofRat_natCast _ (lt_trans (ofColor.chan_lt _ c) (by norm_num))
    · intro q hq
      obtain ⟨hqx, hqy⟩ := neighbors_mem_bounds hx hy hq
      refine ⟨(dst.getColor q.1 q.2).chan c, ofColor.chan_lt _ c, ?_, hguid x hx y hy hin q hq c⟩
      by_cases hqin : (inside mask dst.width dst.height).getD (idx q.1 q.2 dst.width) false = true
      · rw [if_pos hqin]
        exact hval q.1 hqx q.2 hqy hqin c
      · rw [if_neg hqin]
        rfl
  apply ofPixels_ext _ _ (seamlessClone_width ..) (seamlessClone_height ..)
  apply list_eq_of_getD _ _ ofColor.zero (seamlessClone_length ..)
  intro i
  rw [seamlessClone_data_getD, hsolve]
  by_cases hin : (inside mask dst.width dst.height).getD i false = true ∧ i < dst.data.length
  · rw [if_pos hin]
    obtain ⟨hin1, hin2⟩ := hin
    rw [hlen] at hin2
    obtain ⟨hx, hy⟩ := mod_div_lt hin2
    have hin' : (inside mask dst.width dst.height).getD
        (idx (i % dst.width) (i / dst.width) dst.width) false = true := by
      rw [idx_mod_div]; exact hin1
    have hcol : dst.getColor (i % dst.width) (i / dst.width) = dst.data.getD i ofColor.zero := by
      unfold ofPixels.getColor
      rw [idx_mod_div]
    apply ofColor_ext_chan
    intro c
    have := hval _ hx _ hy hin' c
    rw [idx_mod_div, hcol] at this
    rw [resultColor_chan, this, resultByte_natCast nanByte _ (ofColor.chan_lt _ c)]
    exact Nat.mod_eq_of_lt (ofColor.chan_lt _ c)
  · rw [if_neg hin]

/-! ## Identical source and destination -/

theorem guidanceValue_self (cfg : ofApp) (dst : ofPixels ofColor) (c : Channel)
    (p q : Nat × Nat) :
    guidanceValue cfg dst dst c p q
      = ((dst.getColor p.1 p.2).chan c : ℚ) - ((dst.getColor q.1 q.2).chan c : ℚ) := by
  unfold guidanceValue
  simp only
  split <;> rfl

/-- With identical source and destination and `relaxationFactor = 1` the result is the
destination, for every mask, on every well-formed raster in which each pixel of Ω has an
in-bounds neighbour (every raster other than a 1×1 raster whose pixel is in Ω): the sums of
bytes are computed without rounding. -/
theorem seamlessClone_identical_eq_dst (cfg : ofApp) (nanByte : Nat) (mask : ofPixels Nat)
    (dst : ofPixels ofColor) (hw : cfg.relaxationFactor = 1)
    (hlen : dst.data.length = dst.width * dst.height)
    (hN : ∀ x < dst.width, ∀ y < dst.height,
      (inside mask dst.width dst.height).getD (idx x y dst.width) false = true →
      neighbors dst.width dst.height x y ≠ []) :
    seamlessClone cfg nanByte dst mask dst = dst := by
  apply seamlessClone_eq_dst_of_stationary cfg nanByte dst mask dst hw hlen hN
  · intro x _ y _ _
    split <;> rfl
  · intro x _ y _ _ q _ c
    exact guidanceValue_self cfg dst c (x, y) q

/-- Claim C5 at a 1×1 raster whose pixel is in Ω: with identical source and destination the
solver divides `0.0` by `nCount = 0`, the estimate becomes `NaN` in every channel and the
result pixel is the byte conversion of `NaN` in every channel, which differs from the
destination pixel whatever that byte is. -/
theorem seamlessClone_identical_one_by_one :
    (neighborSums ofApp.default ⟨1, 1, [⟨10, 20, 30, 40⟩]⟩ ⟨1, 1, [⟨10, 20, 30, 40⟩]⟩
        (inside ⟨1, 1, [255]⟩ 1 1) 1 1
        (initEstimate ofApp.default ⟨1, 1, [⟨10, 20, 30, 40⟩]⟩ ⟨1, 1, [⟨10, 20, 30, 40⟩]⟩
          (inside ⟨1, 1, [255]⟩ 1 1) 1 1) 0 0).nCount = 0 ∧
    (solve ofApp.default ⟨1, 1, [⟨10, 20, 30, 40⟩]⟩ ⟨1, 1, [255]⟩ ⟨1, 1, [⟨10, 20, 30, 40⟩]⟩).2
      = ⟨[Double.nan], [Double.nan], [Double.nan], [Double.nan]⟩ ∧
    ∀ nanByte, seamlessClone ofApp.default nanByte ⟨1, 1, [⟨10, 20, 30, 40⟩]⟩ ⟨1, 1, [255]⟩
        ⟨1, 1, [⟨10, 20, 30, 40⟩]⟩ = ⟨1, 1, [⟨nanByte, nanByte, nanByte, nanByte⟩]⟩ ∧
      seamlessClone ofApp.default nanByte ⟨1, 1, [⟨10, 20, 30, 40⟩]⟩ ⟨1, 1, [255]⟩
        ⟨1, 1, [⟨10, 20, 30, 40⟩]⟩ ≠ ⟨1, 1, [⟨10, 20, 30, 40⟩]⟩ := by
  refine ⟨by decide!, solve_one_by_one_nan, fun nanByte => ?_⟩
  rw [seamlessClone_one_by_one]
  refine ⟨rfl, fun h => ?_⟩
  injection h with _ _ hd
  injection hd with hc _
  injection hc with h1 h2 _ _
  omega

/-! ## Uniform source and destination -/

theorem getColor_of_uniform (p : ofPixels ofColor) (col : ofColor) (width height : Nat)
    (hw : p.width = width) (hlen : p.data.length = width * height)
    (hu : ∀ c ∈ p.data, c = col) {x y : Nat} (hx : x < width) (hy : y < height) :
    p.getColor x y = col := by
  unfold ofPixels.getColor
  have hi : idx x y p.width < p.data.length := by
    rw [hw, hlen]; exact idx_lt hx hy
  rw [List.getD_eq_getElem _ _ hi]
  exact hu _ (List.getElem_mem _)

/-- With `guessDestination = true` and `relaxationFactor = 1`, a uniform source and a
uniform destination of the same dimensions give the destination as result, whatever the two
colours, for every mask, on every raster in which each pixel of Ω has an in-bounds neighbour
(every raster other than a 1×1 raster whose pixel is in Ω). -/
theorem seamlessClone_uniform_eq_dst (cfg : ofApp) (nanByte : Nat) (src : ofPixels ofColor)
    (mask : ofPixels Nat) (dst : ofPixels ofColor) (s d : ofColor)
    (hguess : cfg.guessDestination = true) (hw : cfg.relaxationFactor = 1)
    (hsw : src.width = dst.width) (hslen : src.data.length = dst.width * dst.height)
    (hlen : dst.data.length = dst.width * dst.height)
    (hsrc : ∀ col ∈ src.data, col = s) (hdst : ∀ col ∈ dst.data, col = d)
    (hN : ∀ x < dst.width, ∀ y < dst.height,
      (inside mask dst.width dst.height).getD (idx x y dst.width) false = true →
      neighbors dst.width dst.height x y ≠ []) :
    seamlessClone cfg nanByte src mask dst = dst := by
  apply seamlessClone_eq_dst_of_stationary cfg nanByte src mask dst hw hlen hN
  · intro x _ y _ _
    rw [if_pos hguess]
  · intro x hx y hy _ q hq c
    obtain ⟨hqx, hqy⟩ := neighbors_mem_bounds hx hy hq
    unfold guidanceValue
    simp only
    rw [getColor_of_uniform src s dst.width dst.height hsw hslen hsrc hx hy,
      getColor_of_uniform src s dst.width dst.height hsw hslen hsrc hqx hqy,
      getColor_of_uniform dst d dst.width dst.height rfl hlen hdst hx hy,
      getColor_of_uniform dst d dst.width dst.height rfl hlen hdst hqx hqy]
    simp

/-- The concrete scenario of claim C9: a 3×3 all-black destination, an all-white source, a
mask that is white at the centre only, `maxIterations = 50`, `tolerance = 1e-3`,
`relaxationFactor = 1.0`, `guessDestination = true`: the result is the destination. -/
theorem seamlessClone_three_by_three_scenario :
    seamlessClone ⟨50, 1 / 1000, 1, true, false⟩ 0
        ⟨3, 3, List.replicate 9 ⟨255, 255, 255, 255⟩⟩
        ⟨3, 3, [0, 0, 0, 0, 255, 0, 0, 0, 0]⟩
        ⟨3, 3, List.replicate 9 ⟨0, 0, 0, 255⟩⟩
      = ⟨3, 3, List.replicate 9 ⟨0, 0, 0, 255⟩⟩ := by
  decide!

/-- Claim C9 at a 1×1 raster whose pixel is in Ω: source and destination are (trivially)
uniform, the solver divides `0.0` by `nCount = 0`, the estimate becomes `NaN` in every
channel and the result pixel is the byte conversion of `NaN` in every channel, which
differs from the destination pixel whatever that byte is. -/
theorem seamlessClone_uniform_one_by_one :
    (ofApp.default.guessDestination = true) ∧
    (solve ofApp.default ⟨1, 1, [⟨255, 255, 255, 255⟩]⟩ ⟨1, 1, [255]⟩
        ⟨1, 1, [⟨0, 0, 0, 255⟩]⟩).2
      = ⟨[Double.nan], [Double.nan], [Double.nan], [Double.nan]⟩ ∧
    ∀ nanByte, seamlessClone ofApp.default nanByte ⟨1, 1, [⟨255, 255, 255, 255⟩]⟩
        ⟨1, 1, [255]⟩ ⟨1, 1, [⟨0, 0, 0, 255⟩]⟩
          = ⟨1, 1, [⟨nanByte, nanByte, nanByte, nanByte⟩]⟩ ∧
      seamlessClone ofApp.default nanByte ⟨1, 1, [⟨255, 255, 255, 255⟩]⟩
        ⟨1, 1, [255]⟩ ⟨1, 1, [⟨0, 0, 0, 255⟩]⟩ ≠ ⟨1, 1, [⟨0, 0, 0, 255⟩]⟩ := by
  have hsolve : (solve ofApp.default ⟨1, 1, [⟨255, 255, 255, 255⟩]⟩ ⟨1, 1, [255]⟩
      ⟨1, 1, [⟨0, 0, 0, 255⟩]⟩).2
      = ⟨[Double.nan], [Double.nan], [Double.nan], [Double.nan]⟩ := by decide!
  refine ⟨rfl, hsolve, fun nanByte => ?_⟩
  have hres : seamlessClone ofApp.default nanByte ⟨1, 1, [⟨255, 255, 255, 255⟩]⟩
      ⟨1, 1, [255]⟩ ⟨1, 1, [⟨0, 0, 0, 255⟩]⟩
        = ⟨1, 1, [⟨nanByte, nanByte, nanByte, nanByte⟩]⟩ := by
    unfold seamlessClone
    simp only [hsolve]
    rfl
  rw [hres]
  refine ⟨rfl, fun h => ?_⟩
  injection h with _ _ hd
  injection hd with hc _
  injection hc with h1 _ _ h4
  omega

/-! ## The number of sweeps -/

theorem maxDelta_succ (cfg : ofApp) (src dst : ofPixels ofColor) (ins : List Bool)
    (width height : Nat) (f : Estimate) (k : Nat) :
    maxDelta cfg src dst ins width height f (k + 1)
      = maxDelta cfg src dst ins width height (sweep cfg src dst ins width height f).f k := by
  unfold maxDelta
  rw [sweepsFrom_succ_eq]

/-- The field returned by the solver loop is the field after the sweeps it performed. -/
theorem iterate_eq_sweepsFrom (cfg : ofApp) (src dst : ofPixels ofColor) (ins : List Bool)
    (width height : Nat) (budget : Nat) (f : Estimate) :
    (iterate cfg src dst ins width height budget f).2
      = sweepsFrom cfg src dst ins width height f
          (iterate cfg src dst ins width height budget f).1 := by
  induction budget generalizing f with
  | zero => rfl
  | succ n ih =>
    unfold iterate
    simp only
    split
    · rfl
    · simp only
      rw [sweepsFrom_succ_eq]
      exact ih _

/-- The solver loop stops right after the first sweep whose max delta is below the
tolerance. -/
theorem iterate_first_converged (cfg : ofApp) (src dst : ofPixels ofColor) (ins : List Bool)
    (width height : Nat) (budget : Nat) (f : Estimate) (j : Nat) (hj : j < budget)
    (hbefore : ∀ k < j, Double.lt (maxDelta cfg src dst ins width height f k)
      (Double.ofRat cfg.tolerance) = false)
    (hconv : Double.lt (maxDelta cfg src dst ins width height f j)
      (Double.ofRat cfg.tolerance) = true) :
    (iterate cfg src dst ins width height budget f).1 = j + 1 := by
  induction budget generalizing f j with
  | zero => omega
  | succ n ih =>
    unfold iterate
    simp only
    cases j with
    | zero =>
      have h0 : Double.lt (sweep cfg src dst ins width height f).maxDiff
          (Double.ofRat cfg.tolerance) = true := hconv
      rw [h0]
      simp
    | succ j' =>
      have h0 : Double.lt (sweep cfg src dst ins width height f).maxDiff
          (Double.ofRat cfg.tolerance) = false := hbefore 0 (Nat.succ_pos j')
      rw [h0]
      simp only [Bool.false_eq_true, if_false]
      rw [ih (sweep cfg src dst ins width height f).f j' (by omega)
        (fun k hk => by
          have := hbefore (k + 1) (by omega)
          rwa [maxDelta_succ] at this)
        (by rwa [maxDelta_succ] at hconv)]

/-- As long as no sweep has reported a max delta below the tolerance and budget is left,
the solver loop goes on. -/
theorem iterate_count_gt (cfg : ofApp) (src dst : ofPixels ofColor) (ins : List Bool)
    (width height : Nat) (budget : Nat) (f : Estimate) (n : Nat) (hn : n < budget)
    (hnc : ∀ k < n, Double.lt (maxDelta cfg src dst ins width height f k)
      (Double.ofRat cfg.tolerance) = false) :
    n < (iterate cfg src dst ins width height budget f).1 := by
  induction budget generalizing f n with
  | zero => omega
  | succ b ih =>
    unfold iterate
    simp only
    cases n with
    | zero =>
      split
      · simp
      · simp
    | succ n' =>
      have h0 : Double.lt (sweep cfg src dst ins width height f).maxDiff
          (Double.ofRat cfg.tolerance) = false := hnc 0 (Nat.succ_pos n')
      rw [h0]
      simp only [Bool.false_eq_true, if_false]
      have := ih (sweep cfg src dst ins width height f).f n' (by omega)
        (fun k hk => by
          have := hnc (k + 1) (by omega)
          rwa [maxDelta_succ] at this)
      omega

/-- Claim C12: the number of sweeps performed is the (1-based) index of the first sweep
whose max delta `maxDiff` is strictly below the tolerance, or `maxIterations` when none of
the first `maxIterations` sweeps is; a sweep whose max delta equals the tolerance does not
stop the solve. -/
theorem solve_count_eq_first_converged (cfg : ofApp) (src : ofPixels ofColor)
    (mask : ofPixels Nat) (dst : ofPixels ofColor) (hmax : 0 ≤ cfg.maxIterations) :
    (∀ j : Nat, (j : Int) < cfg.maxIterations →
      (∀ k < j, Double.lt (maxDelta cfg src dst (inside mask dst.width dst.height) dst.width
          dst.height (initEstimate cfg src dst (inside mask dst.width dst.height) dst.width
            dst.height) k) (Double.ofRat cfg.tolerance) = false) →
      Double.lt (maxDelta cfg src dst (inside mask dst.width dst.height) dst.width
          dst.height (initEstimate cfg src dst (inside mask dst.width dst.height) dst.width
            dst.height) j) (Double.ofRat cfg.tolerance) = true →
      (solve cfg src mask dst).1 = j + 1) ∧
    ((∀ k : Nat, (k : Int) < cfg.maxIterations →
        Double.lt (maxDelta cfg src dst (inside mask dst.width dst.height) dst.width
          dst.height (initEstimate cfg src dst (inside mask dst.width dst.height) dst.width
            dst.height) k) (Double.ofRat cfg.tolerance) = false) →
      ((solve cfg src mask dst).1 : Int) = cfg.maxIterations) ∧
    (∀ j : Nat, (j : Int) + 1 < cfg.maxIterations →
      (∀ k < j, Double.lt (maxDelta cfg src dst (inside mask dst.width dst.height) dst.width
          dst.height (initEstimate cfg src dst (inside mask dst.width dst.height) dst.width
            dst.height) k) (Double.ofRat cfg.tolerance) = false) →
      maxDelta cfg src dst (inside mask dst.width dst.height) dst.width
          dst.height (initEstimate cfg src dst (inside mask dst.width dst.height) dst.width
            dst.height) j = Double.ofRat cfg.tolerance →
      j + 1 < (solve cfg src mask dst).1) := by
  have hnat : ((cfg.maxIterations.toNat : Nat) : Int) = cfg.maxIterations :=
    Int.toNat_of_nonneg hmax
  refine ⟨?_, ?_, ?_⟩
  · intro j hj hbefore hconv
    unfold solve
    simp only
    exact iterate_first_converged cfg src dst _ dst.width dst.height _ _ j (by omega)
      hbefore hconv
  · intro hnc
    unfold solve
    simp only
    rw [iterate_of_never_converged cfg src dst _ dst.width dst.height _ _
      (fun k hk => hnc k (by omega))]
    exact hnat
  · intro j hj hbefore heq
    unfold solve
    simp only
    apply iterate_count_gt cfg src dst _ dst.width dst.height _ _ (j + 1) (by omega)
    intro k hk
    by_cases hkj : k < j
    · exact hbefore k hkj
    · have : k = j := by omega
      subst this
      rw [heq]
      exact Double.lt_irrefl _

theorem solve_count_eq_first_converged_witness :
    0 ≤ (⟨5, 8, 1, true, false⟩ : ofApp).maxIterations ∧
    (solve ⟨5, 8, 1, true, false⟩ ⟨2, 1, [⟨9, 9, 9, 9⟩, ⟨9, 9, 9, 9⟩]⟩ ⟨2, 1, [255, 0]⟩
        ⟨2, 1, [⟨0, 0, 0, 0⟩, ⟨8, 8, 8, 8⟩]⟩).1 = 1 + 1 ∧
    maxDelta ⟨5, 8, 1, true, false⟩ ⟨2, 1, [⟨9, 9, 9, 9⟩, ⟨9, 9, 9, 9⟩]⟩
        ⟨2, 1, [⟨0, 0, 0, 0⟩, ⟨8, 8, 8, 8⟩]⟩ (inside ⟨2, 1, [255, 0]⟩ 2 1) 2 1
        (initEstimate ⟨5, 8, 1, true, false⟩ ⟨2, 1, [⟨9, 9, 9, 9⟩, ⟨9, 9, 9, 9⟩]⟩
          ⟨2, 1, [⟨0, 0, 0, 0⟩, ⟨8, 8, 8, 8⟩]⟩ (inside ⟨2, 1, [255, 0]⟩ 2 1) 2 1) 0
      = Double.fin 8 ∧
    0 + 1 < (solve ⟨5, 8, 1, true, false⟩ ⟨2, 1, [⟨9, 9, 9, 9⟩, ⟨9, 9, 9, 9⟩]⟩ ⟨2, 1, [255, 0]⟩
        ⟨2, 1, [⟨0, 0, 0, 0⟩, ⟨8, 8, 8, 8⟩]⟩).1 :=
  have h := solve_count_eq_first_converged ⟨5, 8, 1, true, false⟩
    ⟨2, 1, [⟨9, 9, 9, 9⟩, ⟨9, 9, 9, 9⟩]⟩ ⟨2, 1, [255, 0]⟩ ⟨2, 1, [⟨0, 0, 0, 0⟩, ⟨8, 8, 8, 8⟩]⟩
    (by decide)
  ⟨by decide,
   h.1 1 (by decide) (fun k hk => by
      have hk0 : k = 0 := by omega
      subst hk0
      decide!) (by decide!),
   by decide!,
   h.2.2 0 (by decide) (fun k hk => absurd hk (Nat.not_lt_zero k)) (by decide!)⟩

/-! ## The guidance field -/

/-- Claim C13: for every in-bounds pixel `p = (x, y)` (in particular every pixel of Ω) the
accumulator of channel `c` after the neighbour loop is the sum, over the in-bounds
neighbours `q`, of the neighbour contribution and of a guidance value that is, for R, G and
B, the destination-side gradient exactly when `mixedGradients` is true and its absolute
value is strictly greater than that of the source-side gradient in that channel, and the
source-side gradient otherwise; for alpha it is always the source-side gradient. -/
theorem neighborSums_guidance (cfg : ofApp) (src dst : ofPixels ofColor) (ins : List Bool)
    (width height : Nat) (f : Estimate) (x y : Nat) (c : Channel)
    (hx : x < width) (hy : y < height) :
    (neighborSums cfg src dst ins width height f x y).chan c
      = (neighbors width height x y).foldl (fun acc q => acc
          + (if ins.getD (idx q.1 q.2 width) false = true
              then (f.chan c).getD (idx q.1 q.2 width) Double.nan
              else Double.ofNat ((dst.getColor q.1 q.2).chan c))
          + Double.fin
              (if c = Channel.A then
                ((src.getColor x y).a : ℚ) - ((src.getColor q.1 q.2).a : ℚ)
              else if cfg.mixedGradients = true ∧
                  |((dst.getColor x y).chan c : ℚ) - ((dst.getColor q.1 q.2).chan c : ℚ)|
                    > |((src.getColor x y).chan c : ℚ) - ((src.getColor q.1 q.2).chan c : ℚ)|
                then ((dst.getColor x y).chan c : ℚ) - ((dst.getColor q.1 q.2).chan c : ℚ)
                else ((src.getColor x y).chan c : ℚ) - ((src.getColor q.1 q.2).chan c : ℚ)))
          (Double.fin 0) := by
  rw [neighborSums_eq_foldl _ _ _ _ _ _ _ _ _ hx hy, foldl_addNeighbor_chan]
  have hz : (⟨Double.fin 0, Double.fin 0, Double.fin 0, Double.fin 0, 0⟩ : Sums).chan c
      = Double.fin 0 := by cases c <;> rfl
  rw [hz]
  congr 1
  funext acc q
  congr 2
  unfold guidanceValue
  cases c <;> simp [ofColor.chan]

theorem neighborSums_guidance_witness :
    (neighborSums ⟨500, 1 / 1000, 1, true, true⟩
        ⟨2, 1, [⟨10, 10, 10, 10⟩, ⟨7, 30, 10, 90⟩]⟩ ⟨2, 1, [⟨50, 50, 50, 50⟩, ⟨60, 40, 50, 0⟩]⟩
        [true, false] 2 1 (Estimate.zeros 2) 0 0).chan Channel.R
      = (neighbors 2 1 0 0).foldl (fun acc q => acc
          + (if [true, false].getD (idx q.1 q.2 2) false = true
              then ((Estimate.zeros 2).chan Channel.R).getD (idx q.1 q.2 2) Double.nan
              else Double.ofNat ((ofPixels.getColor
                ⟨2, 1, [⟨50, 50, 50, 50⟩, ⟨60, 40, 50, 0⟩]⟩ q.1 q.2).chan Channel.R))
          + Double.fin
              (if Channel.R = Channel.A then
                ((ofPixels.getColor ⟨2, 1, [⟨10, 10, 10, 10⟩, ⟨7, 30, 10, 90⟩]⟩ 0 0).a : ℚ)
                  - ((ofPixels.getColor ⟨2, 1, [⟨10, 10, 10, 10⟩, ⟨7, 30, 10, 90⟩]⟩
                      q.1 q.2).a : ℚ)
              else if (⟨500, 1 / 1000, 1, true, true⟩ : ofApp).mixedGradients = true ∧
                  |((ofPixels.getColor ⟨2, 1, [⟨50, 50, 50, 50⟩, ⟨60, 40, 50, 0⟩]⟩ 0 0).chan
                      Channel.R : ℚ)
                    - ((ofPixels.getColor ⟨2, 1, [⟨50, 50, 50, 50⟩, ⟨60, 40, 50, 0⟩]⟩
                      q.1 q.2).chan Channel.R : ℚ)|
                    > |((ofPixels.getColor ⟨2, 1, [⟨10, 10, 10, 10⟩, ⟨7, 30, 10, 90⟩]⟩ 0 0).chan
                      Channel.R : ℚ)
                    - ((ofPixels.getColor ⟨2, 1, [⟨10, 10, 10, 10⟩, ⟨7, 30, 10, 90⟩]⟩
                      q.1 q.2).chan Channel.R : ℚ)|
                then ((ofPixels.getColor ⟨2, 1, [⟨50, 50, 50, 50⟩, ⟨60, 40, 50, 0⟩]⟩ 0 0).chan
                      Channel.R : ℚ)
                    - ((ofPixels.getColor ⟨2, 1, [⟨50, 50, 50, 50⟩, ⟨60, 40, 50, 0⟩]⟩
                      q.1 q.2).chan Channel.R : ℚ)
                else ((ofPixels.getColor ⟨2, 1, [⟨10, 10, 10, 10⟩, ⟨7, 30, 10, 90⟩]⟩ 0 0).chan
                      Channel.R : ℚ)
                    - ((ofPixels.getColor ⟨2, 1, [⟨10, 10, 10, 10⟩, ⟨7, 30, 10, 90⟩]⟩
                      q.1 q.2).chan Channel.R : ℚ)))
          (Double.fin 0) ∧
    neighborSums ⟨500, 1 / 1000, 1, true, true⟩
        ⟨2, 1, [⟨10, 10, 10, 10⟩, ⟨7, 30, 10, 90⟩]⟩ ⟨2, 1, [⟨50, 50, 50, 50⟩, ⟨60, 40, 50, 0⟩]⟩
        [true, false] 2 1 (Estimate.zeros 2) 0 0
      = ⟨Double.fin (60 + -10), Double.fin (40 + -20), Double.fin (50 + 0),
         Double.fin (0 + -80), 1⟩ :=
  ⟨neighborSums_guidance ⟨500, 1 / 1000, 1, true, true⟩
      ⟨2, 1, [⟨10, 10, 10, 10⟩, ⟨7, 30, 10, 90⟩]⟩ ⟨2, 1, [⟨50, 50, 50, 50⟩, ⟨60, 40, 50, 0⟩]⟩
      [true, false] 2 1 (Estimate.zeros 2) 0 0 Channel.R (by decide) (by decide),
   by decide!⟩

/-! ## Gauss-Seidel against Jacobi -/

/-- Claim C14: the relaxation sweep is not a Jacobi sweep.  On a 2×1 raster whose two
(4-adjacent) pixels are both in Ω, with initial estimate 0 and 100, one sweep of the solver gives
100 at both pixels, because the second pixel reads the value 100 just written at the first,
while updating both pixels from the frozen field gives 100 and 0. -/
theorem sweep_ne_jacobiSweep :
    (1, 0) ∈ neighbors 2 1 0 0 ∧
    inside ⟨2, 1, [255, 255]⟩ 2 1 = [true, true] ∧
    initEstimate ofApp.default ⟨2, 1, [⟨9, 9, 9, 9⟩, ⟨9, 9, 9, 9⟩]⟩
        ⟨2, 1, [⟨0, 0, 0, 0⟩, ⟨100, 100, 100, 100⟩]⟩ [true, true] 2 1
      = ⟨[Double.fin 0, Double.fin 100], [Double.fin 0, Double.fin 100],
         [Double.fin 0, Double.fin 100], [Double.fin 0, Double.fin 100]⟩ ∧
    (sweep ofApp.default ⟨2, 1, [⟨9, 9, 9, 9⟩, ⟨9, 9, 9, 9⟩]⟩
        ⟨2, 1, [⟨0, 0, 0, 0⟩, ⟨100, 100, 100, 100⟩]⟩ [true, true] 2 1
        ⟨[Double.fin 0, Double.fin 100], [Double.fin 0, Double.fin 100],
         [Double.fin 0, Double.fin 100], [Double.fin 0, Double.fin 100]⟩).f
      = ⟨[Double.fin 100, Double.fin 100], [Double.fin 100, Double.fin 100],
         [Double.fin 100, Double.fin 100], [Double.fin 100, Double.fin 100]⟩ ∧
    (jacobiSweep ofApp.default ⟨2, 1, [⟨9, 9, 9, 9⟩, ⟨9, 9, 9, 9⟩]⟩
        ⟨2, 1, [⟨0, 0, 0, 0⟩, ⟨100, 100, 100, 100⟩]⟩ [true, true] 2 1
        ⟨[Double.fin 0, Double.fin 100], [Double.fin 0, Double.fin 100],
         [Double.fin 0, Double.fin 100], [Double.fin 0, Double.fin 100]⟩).f
      = ⟨[Double.fin 100, Double.fin 0], [Double.fin 100, Double.fin 0],
         [Double.fin 100, Double.fin 0], [Double.fin 100, Double.fin 0]⟩ ∧
    (sweep ofApp.default ⟨2, 1, [⟨9, 9, 9, 9⟩, ⟨9, 9, 9, 9⟩]⟩
        ⟨2, 1, [⟨0, 0, 0, 0⟩, ⟨100, 100, 100, 100⟩]⟩ [true, true] 2 1
        ⟨[Double.fin 0, Double.fin 100], [Double.fin 0, Double.fin 100],
         [Double.fin 0, Double.fin 100], [Double.fin 0, Double.fin 100]⟩).f
      ≠ (jacobiSweep ofApp.default ⟨2, 1, [⟨9, 9, 9, 9⟩, ⟨9, 9, 9, 9⟩]⟩
        ⟨2, 1, [⟨0, 0, 0, 0⟩, ⟨100, 100, 100, 100⟩]⟩ [true, true] 2 1
        ⟨[Double.fin 0, Double.fin 100], [Double.fin 0, Double.fin 100],
         [Double.fin 0, Double.fin 100], [Double.fin 0, Double.fin 100]⟩).f := by
  refine ⟨by decide, by decide, by decide!, by decide!, by decide!, by decide!⟩

/-! ## The estimate field outside Ω -/

theorem forYX_congr {σ : Type} (height width : Nat) (body₁ body₂ : σ → Nat → Nat → σ)
    (h : ∀ s, ∀ x < width, ∀ y < height, body₁ s x y = body₂ s x y) (st : σ) :
    forYX height width body₁ st = forYX height width body₂ st := by
  rw [forYX_eq_foldl_range, forYX_eq_foldl_range]
  apply foldl_congr_mem
  intro s i hi
  obtain ⟨hx, hy⟩ := mod_div_lt (List.mem_range.mp hi)
  exact h s _ hx _ hy

theorem pixelStep_chan_length (cfg : ofApp) (src dst : ofPixels ofColor) (ins : List Bool)
    (width height : Nat) (st : SweepState) (x y : Nat) (c : Channel) :
    ((pixelStep cfg src dst ins width height st x y).f.chan c).length
      = (st.f.chan c).length := by
  by_cases hin : ins.getD (idx x y width) false = true
  · rw [pixelStep_f_chan _ _ _ _ _ _ _ _ _ hin]
    simp
  · have hin2 : ins.getD (idx x y width) false = false := by
      cases hb : ins.getD (idx x y width) false
      · rfl
      · exact absurd hb hin
    rw [pixelStep_outside _ _ _ _ _ _ _ _ _ hin2]

theorem pixelStep_getD_of_ne (cfg : ofApp) (src dst : ofPixels ofColor) (ins : List Bool)
    (width height : Nat) (st : SweepState) (x y : Nat) (c : Channel) (j : Nat) (d : Double)
    (hj : idx x y width ≠ j) :
    ((pixelStep cfg src dst ins width height st x y).f.chan c).getD j d
      = (st.f.chan c).getD j d := by
  by_cases hin : ins.getD (idx x y width) false = true
  · rw [pixelStep_f_chan _ _ _ _ _ _ _ _ _ hin, getD_set, if_neg (fun h => hj h.1)]
  · have hin2 : ins.getD (idx x y width) false = false := by
      cases hb : ins.getD (idx x y width) false
      · rfl
      · exact absurd hb hin
    rw [pixelStep_outside _ _ _ _ _ _ _ _ _ hin2]

/-- A sweep leaves the estimate untouched at every position outside Ω and keeps the size
of the four vectors. -/
theorem sweep_frame (cfg : ofApp) (src dst : ofPixels ofColor) (ins : List Bool)
    (width height : Nat) (f : Estimate) (c : Channel) :
    ((sweep cfg src dst ins width height f).f.chan c).length = (f.chan c).length ∧
    ∀ j d, ins.getD j false = false →
      ((sweep cfg src dst ins width height f).f.chan c).getD j d = (f.chan c).getD j d := by
  have key := forYX_induction
    (fun _ (st : SweepState) => (st.f.chan c).length = (f.chan c).length ∧
      ∀ j d, ins.getD j false = false → (st.f.chan c).getD j d = (f.chan c).getD j d)
    height width (pixelStep cfg src dst ins width height) ⟨Double.fin 0, f⟩
    ⟨rfl, fun _ _ _ => rfl⟩
    (by
      intro k st _ hP
      obtain ⟨hlen, hget⟩ := hP
      refine ⟨by rw [pixelStep_chan_length]; exact hlen, fun j d hj => ?_⟩
      by_cases hkj : idx (k % width) (k / width) width = j
      · have hout : ins.getD (idx (k % width) (k / width) width) false = false := by
          rw [hkj]; exact hj
        rw [pixelStep_outside _ _ _ _ _ _ _ _ _ hout]
        exact hget j d hj
      · rw [pixelStep_getD_of_ne _ _ _ _ _ _ _ _ _ _ _ _ hkj]
        exact hget j d hj)
  exact key

theorem sweepsFrom_frame (cfg : ofApp) (src dst : ofPixels ofColor) (ins : List Bool)
    (width height : Nat) (f : Estimate) (c : Channel) (k : Nat) :
    ((sweepsFrom cfg src dst ins width height f k).chan c).length = (f.chan c).length ∧
    ∀ j d, ins.getD j false = false →
      ((sweepsFrom cfg src dst ins width height f k).chan c).getD j d = (f.chan c).getD j d := by
  induction k with
  | zero => exact ⟨rfl, fun _ _ _ => rfl⟩
  | succ n ih =>
    have hs := sweep_frame cfg src dst ins width height
      (sweepsFrom cfg src dst ins width height f n) c
    refine ⟨?_, fun j d hj => ?_⟩
    · show ((sweep cfg src dst ins width height
        (sweepsFrom cfg src dst ins width height f n)).f.chan c).length = _
      rw [hs.1, ih.1]
    · show ((sweep cfg src dst ins width height
        (sweepsFrom cfg src dst ins width height f n)).f.chan c).getD j d = _
      rw [hs.2 j d hj, ih.2 j d hj]

/-- Claim C15: after the initialisation and after every relaxation sweep (in particular in
the field the solver returns) the estimate is 0 in all four channels at every position
where Ω is false; and the initial estimate holds, at every position where Ω is true, the
colour of the destination when `guessDestination` is true and of the source otherwise. -/
theorem estimate_zero_outside_and_seed_inside (cfg : ofApp) (src : ofPixels ofColor)
    (mask : ofPixels Nat) (dst : ofPixels ofColor) :
    (∀ k i c, i < dst.width * dst.height →
      (inside mask dst.width dst.height).getD i false = false →
      ((sweepsFrom cfg src dst (inside mask dst.width dst.height) dst.width dst.height
        (initEstimate cfg src dst (inside mask dst.width dst.height) dst.width dst.height)
        k).chan c).getD i Double.nan = Double.fin 0) ∧
    (∀ i c, i < dst.width * dst.height →
      (inside mask dst.width dst.height).getD i false = false →
      ((solve cfg src mask dst).2.chan c).getD i Double.nan = Double.fin 0) ∧
    (∀ x y c, x < dst.width → y < dst.height →
      (inside mask dst.width dst.height).getD (idx x y dst.width) false = true →
      ((initEstimate cfg src dst (inside mask dst.width dst.height) dst.width
        dst.height).chan c).getD (idx x y dst.width) Double.nan
        = Double.ofNat ((if cfg.guessDestination = true then dst.getColor x y
            else src.getColor x y).chan c)) := by
  have hzero : ∀ k i c, i < dst.width * dst.height →
      (inside mask dst.width dst.height).getD i false = false →
      ((sweepsFrom cfg src dst (inside mask dst.width dst.height) dst.width dst.height
        (initEstimate cfg src dst (inside mask dst.width dst.height) dst.width dst.height)
        k).chan c).getD i Double.nan = Double.fin 0 := by
    intro k i c hi hout
    rw [(sweepsFrom_frame cfg src dst _ dst.width dst.height _ c k).2 i _ hout,
      (initEstimate_spec cfg src dst _ dst.width dst.height c).2 i hi, hout]
    simp
  refine ⟨hzero, ?_, ?_⟩
  · intro i c hi hout
    unfold solve
    simp only
    rw [iterate_eq_sweepsFrom]
    exact hzero _ i c hi hout
  · intro x y c hx hy hin
    rw [(initEstimate_spec cfg src dst _ dst.width dst.height c).2 _ (idx_lt hx hy), if_pos hin,
      idx_mod hx, idx_div hx]

/-! ## Dependence on the source -/

theorem addNeighbor_congr_src (cfg : ofApp) (src₁ src₂ dst : ofPixels ofColor)
    (ins : List Bool) (width : Nat) (f : Estimate) (x y : Nat) (s : Sums) (q : Nat × Nat)
    (hgrad : ∀ c, ((src₁.getColor x y).chan c : ℚ) - ((src₁.getColor q.1 q.2).chan c : ℚ)
      = ((src₂.getColor x y).chan c : ℚ) - ((src₂.getColor q.1 q.2).chan c : ℚ)) :
    addNeighbor cfg src₁ dst ins width f x y s q
      = addNeighbor cfg src₂ dst ins width f x y s q := by
  have hR := hgrad Channel.R
  have hG := hgrad Channel.G
  have hB := hgrad Channel.B
  have hA := hgrad Channel.A
  simp only [ofColor.chan] at hR hG hB hA
  unfold addNeighbor
  simp only [Double.ofNat_eq, Double.fin_sub, hR, hG, hB, hA]

theorem neighborSums_congr_src (cfg : ofApp) (src₁ src₂ dst : ofPixels ofColor)
    (ins : List Bool) (width height : Nat) (f : Estimate) (x y : Nat)
    (hx : x < width) (hy : y < height)
    (hgrad : ∀ q ∈ neighbors width height x y, ∀ c,
      ((src₁.getColor x y).chan c : ℚ) - ((src₁.getColor q.1 q.2).chan c : ℚ)
        = ((src₂.getColor x y).chan c : ℚ) - ((src₂.getColor q.1 q.2).chan c : ℚ)) :
    neighborSums cfg src₁ dst ins width height f x y
      = neighborSums cfg src₂ dst ins width height f x y := by
  rw [neighborSums_eq_foldl _ _ _ _ _ _ _ _ _ hx hy,
    neighborSums_eq_foldl _ _ _ _ _ _ _ _ _ hx hy]
  apply foldl_congr_mem
  intro s q hq
  exact addNeighbor_congr_src cfg src₁ src₂ dst ins width f x y s q (hgrad q hq)

theorem pixelStep_congr_src (cfg : ofApp) (src₁ src₂ dst : ofPixels ofColor)
    (ins : List Bool) (width height : Nat) (st : SweepState) (x y : Nat)
    (hx : x < width) (hy : y < height)
    (hgrad : ins.getD (idx x y width) false = true → ∀ q ∈ neighbors width height x y, ∀ c,
      ((src₁.getColor x y).chan c : ℚ) - ((src₁.getColor q.1 q.2).chan c : ℚ)
        = ((src₂.getColor x y).chan c : ℚ) - ((src₂.getColor q.1 q.2).chan c : ℚ)) :
    pixelStep cfg src₁ dst ins width height st x y
      = pixelStep cfg src₂ dst ins width height st x y := by
  by_cases hin : ins.getD (idx x y width) false = true
  · unfold pixelStep
    simp only [neighborSums_congr_src cfg src₁ src₂ dst ins width height st.f x y hx hy
      (hgrad hin)]
  · have hin2 : ins.getD (idx x y width) false = false := by
      cases hb : ins.getD (idx x y width) false
      · rfl
      · exact absurd hb hin
    rw [pixelStep_outside _ _ _ _ _ _ _ _ _ hin2, pixelStep_outside _ _ _ _ _ _ _ _ _ hin2]

theorem sweep_congr_src (cfg : ofApp) (src₁ src₂ dst : ofPixels ofColor)
    (ins : List Bool) (width height : Nat)
    (hgrad : ∀ x < width, ∀ y < height, ins.getD (idx x y width) false = true →
      ∀ q ∈ neighbors width height x y, ∀ c,
      ((src₁.getColor x y).chan c : ℚ) - ((src₁.getColor q.1 q.2).chan c : ℚ)
        = ((src₂.getColor x y).chan c : ℚ) - ((src₂.getColor q.1 q.2).chan c : ℚ))
    (f : Estimate) :
    sweep cfg src₁ dst ins width height f = sweep cfg src₂ dst ins width height f := by
  unfold sweep
  apply forYX_congr
  intro s x hx y hy
  exact pixelStep_congr_src cfg src₁ src₂ dst ins width height s x y hx hy (hgrad x hx y hy)

theorem sweepsFrom_congr_src (cfg : ofApp) (src₁ src₂ dst : ofPixels ofColor)
    (ins : List Bool) (width height : Nat)
    (hgrad : ∀ x < width, ∀ y < height, ins.getD (idx x y width) false = true →
      ∀ q ∈ neighbors width height x y, ∀ c,
      ((src₁.getColor x y).chan c : ℚ) - ((src₁.getColor q.1 q.2).chan c : ℚ)
        = ((src₂.getColor x y).chan c : ℚ) - ((src₂.getColor q.1 q.2).chan c : ℚ))
    (f : Estimate) (k : Nat) :
    sweepsFrom cfg src₁ dst ins width height f k
      = sweepsFrom cfg src₂ dst ins width height f k := by
  induction k with
  | zero => rfl
  | succ n ih =>
    show (sweep cfg src₁ dst ins width height (sweepsFrom cfg src₁ dst ins width height f n)).f
      = (sweep cfg src₂ dst ins width height (sweepsFrom cfg src₂ dst ins width height f n)).f
    rw [ih, sweep_congr_src cfg src₁ src₂ dst ins width height hgrad]

theorem iterate_congr_src (cfg : ofApp) (src₁ src₂ dst : ofPixels ofColor)
    (ins : List Bool) (width height : Nat)
    (hgrad : ∀ x < width, ∀ y < height, ins.getD (idx x y width) false = true →
      ∀ q ∈ neighbors width height x y, ∀ c,
      ((src₁.getColor x y).chan c : ℚ) - ((src₁.getColor q.1 q.2).chan c : ℚ)
        = ((src₂.getColor x y).chan c : ℚ) - ((src₂.getColor q.1 q.2).chan c : ℚ))
    (budget : Nat) (f : Estimate) :
    iterate cfg src₁ dst ins width height budget f
      = iterate cfg src₂ dst ins width height budget f := by
  induction budget generalizing f with
  | zero => rfl
  | succ n ih =>
    unfold iterate
    simp only [sweep_congr_src cfg src₁ src₂ dst ins width height hgrad, ih]

theorem initEstimate_congr_src (cfg : ofApp) (src₁ src₂ dst : ofPixels ofColor)
    (ins : List Bool) (width height : Nat)
    (hseed : cfg.guessDestination = false → ∀ x < width, ∀ y < height,
      ins.getD (idx x y width) false = true → src₁.getColor x y = src₂.getColor x y) :
    initEstimate cfg src₁ dst ins width height = initEstimate cfg src₂ dst ins width height := by
  unfold initEstimate
  apply forYX_congr
  intro s x hx y hy
  unfold initStep
  by_cases hin : ins.getD (idx x y width) false = true
  · cases hg : cfg.guessDestination
    · simp only [hin, if_true, Bool.false_eq_true, if_false, hseed hg x hx y hy hin]
    · simp only [hin, if_true]
  · simp only [hin, if_false, Bool.false_eq_true]

/-- The solve reads the source only through the seed colours on Ω (when the initial guess
is the source) and through the source-side gradients between a pixel of Ω and its in-bounds
neighbours. -/
theorem solve_congr_src (cfg : ofApp) (src₁ src₂ : ofPixels ofColor) (mask : ofPixels Nat)
    (dst : ofPixels ofColor)
    (hseed : cfg.guessDestination = false → ∀ x < dst.width, ∀ y < dst.height,
      (inside mask dst.width dst.height).getD (idx x y dst.width) false = true →
      src₁.getColor x y = src₂.getColor x y)
    (hgrad : ∀ x < dst.width, ∀ y < dst.height,
      (inside mask dst.width dst.height).getD (idx x y dst.width) false = true →
      ∀ q ∈ neighbors dst.width dst.height x y, ∀ c,
      ((src₁.getColor x y).chan c : ℚ) - ((src₁.getColor q.1 q.2).chan c : ℚ)
        = ((src₂.getColor x y).chan c : ℚ) - ((src₂.getColor q.1 q.2).chan c : ℚ)) :
    solve cfg src₁ mask dst = solve cfg src₂ mask dst := by
  unfold solve
  simp only
  rw [initEstimate_congr_src cfg src₁ src₂ dst _ dst.width dst.height hseed,
    iterate_congr_src cfg src₁ src₂ dst _ dst.width dst.height hgrad]

theorem seamlessClone_eq_of_solve_eq (cfg : ofApp) (nanByte : Nat)
    (src₁ src₂ : ofPixels ofColor) (mask : ofPixels Nat) (dst : ofPixels ofColor)
    (h : solve cfg src₁ mask dst = solve cfg src₂ mask dst) :
    seamlessClone cfg nanByte src₁ mask dst = seamlessClone cfg nanByte src₂ mask dst := by
  unfold seamlessClone
  simp only [h]

/-- Claim C16: with `guessDestination = true`, two sources that differ by the same constant
per-channel offset at every pixel of the raster give the same estimate field after every
sweep, the same number of sweeps and the same result, for every mask, destination and
remaining parameters. -/
theorem seamlessClone_source_offset (cfg : ofApp) (nanByte : Nat)
    (src₁ src₂ : ofPixels ofColor) (mask : ofPixels Nat) (dst : ofPixels ofColor)
    (o : Channel → Int) (hguess : cfg.guessDestination = true)
    (hoff : ∀ x < dst.width, ∀ y < dst.height, ∀ c,
      ((src₂.getColor x y).chan c : Int) = ((src₁.getColor x y).chan c : Int) + o c) :
    (∀ k, sweepsFrom cfg src₁ dst (inside mask dst.width dst.height) dst.width dst.height
        (initEstimate cfg src₁ dst (inside mask dst.width dst.height) dst.width dst.height) k
      = sweepsFrom cfg src₂ dst (inside mask dst.width dst.height) dst.width dst.height
        (initEstimate cfg src₂ dst (inside mask dst.width dst.height) dst.width dst.height) k) ∧
    (solve cfg src₁ mask dst).1 = (solve cfg src₂ mask dst).1 ∧
    (solve cfg src₁ mask dst).2 = (solve cfg src₂ mask dst).2 ∧
    seamlessClone cfg nanByte src₁ mask dst = seamlessClone cfg nanByte src₂ mask dst := by
  have hseed : cfg.guessDestination = false → ∀ x < dst.width, ∀ y < dst.height,
      (inside mask dst.width dst.height).getD (idx x y dst.width) false = true →
      src₁.getColor x y = src₂.getColor x y := by
    intro hfalse
    rw [hguess] at hfalse
    exact absurd hfalse (by decide)
  have hgrad : ∀ x < dst.width, ∀ y < dst.height,
      (inside mask dst.width dst.height).getD (idx x y dst.width) false = true →
      ∀ q ∈ neighbors dst.width dst.height x y, ∀ c,
      ((src₁.getColor x y).chan c : ℚ) - ((src₁.getColor q.1 q.2).chan c : ℚ)
        = ((src₂.getColor x y).chan c : ℚ) - ((src₂.getColor q.1 q.2).chan c : ℚ) := by
    intro x hx y hy _ q hq c
    obtain ⟨hqx, hqy⟩ := neighbors_mem_bounds hx hy hq
    have hp : ((src₂.getColor x y).chan c : ℚ)
        = ((src₁.getColor x y).chan c : ℚ) + (o c : ℚ) := by
      exact_mod_cast hoff x hx y hy c
    have hq' : ((src₂.getColor q.1 q.2).chan c : ℚ)
        = ((src₁.getColor q.1 q.2).chan c : ℚ) + (o c : ℚ) := by
      exact_mod_cast hoff q.1 hqx q.2 hqy c
    rw [hp, hq']
    ring
  have hsolve := solve_congr_src cfg src₁ src₂ mask dst hseed hgrad
  refine ⟨fun k => ?_, by rw [hsolve], by rw [hsolve],
    seamlessClone_eq_of_solve_eq cfg nanByte src₁ src₂ mask dst hsolve⟩
  rw [initEstimate_congr_src cfg src₁ src₂ dst _ dst.width dst.height hseed,
    sweepsFrom_congr_src cfg src₁ src₂ dst _ dst.width dst.height hgrad]

theorem seamlessClone_source_offset_witness :
    (ofApp.default.guessDestination = true) ∧
    (solve ofApp.default ⟨2, 1, [⟨10, 20, 30, 40⟩, ⟨50, 60, 70, 80⟩]⟩ ⟨2, 1, [255, 255]⟩
        ⟨2, 1, [⟨1, 2, 3, 4⟩, ⟨5, 6, 7, 8⟩]⟩).1
      = (solve ofApp.default ⟨2, 1, [⟨15, 10, 30, 140⟩, ⟨55, 50, 70, 180⟩]⟩ ⟨2, 1, [255, 255]⟩
        ⟨2, 1, [⟨1, 2, 3, 4⟩, ⟨5, 6, 7, 8⟩]⟩).1 ∧
    seamlessClone ofApp.default 0 ⟨2, 1, [⟨10, 20, 30, 40⟩, ⟨50, 60, 70, 80⟩]⟩
        ⟨2, 1, [255, 255]⟩ ⟨2, 1, [⟨1, 2, 3, 4⟩, ⟨5, 6, 7, 8⟩]⟩
      = seamlessClone ofApp.default 0 ⟨2, 1, [⟨15, 10, 30, 140⟩, ⟨55, 50, 70, 180⟩]⟩
        ⟨2, 1, [255, 255]⟩ ⟨2, 1, [⟨1, 2, 3, 4⟩, ⟨5, 6, 7, 8⟩]⟩ :=
  have h := seamlessClone_source_offset ofApp.default 0
    ⟨2, 1, [⟨10, 20, 30, 40⟩, ⟨50, 60, 70, 80⟩]⟩ ⟨2, 1, [⟨15, 10, 30, 140⟩, ⟨55, 50, 70, 180⟩]⟩
    ⟨2, 1, [255, 255]⟩ ⟨2, 1, [⟨1, 2, 3, 4⟩, ⟨5, 6, 7, 8⟩]⟩
    (fun c => match c with
      | Channel.R => 5
      | Channel.G => -10
      | Channel.B => 0
      | Channel.A => 100)
    rfl
    (by
      intro x hx y hy c
      have hx' : x = 0 ∨ x = 1 := by
        have : x < 2 := hx
        omega
      have hy' : y = 0 := by
        have : y < 1 := hy
        omega
      subst hy'
      rcases hx' with rfl | rfl <;> cases c <;> decide)
  ⟨rfl, h.2.1, h.2.2.2⟩

/-- Claim C18: two sources that agree at every position that is in Ω or is an in-bounds
4-connected neighbour of a position in Ω give the same estimate field, the same number of
sweeps and the same result, for every mask, destination and parameters. -/
theorem seamlessClone_source_locality (cfg : ofApp) (nanByte : Nat)
    (src₁ src₂ : ofPixels ofColor) (mask : ofPixels Nat) (dst : ofPixels ofColor)
    (hin : ∀ x < dst.width, ∀ y < dst.height,
      (inside mask dst.width dst.height).getD (idx x y dst.width) false = true →
      src₁.getColor x y = src₂.getColor x y)
    (hnb : ∀ x < dst.width, ∀ y < dst.height,
      (inside mask dst.width dst.height).getD (idx x y dst.width) false = true →
      ∀ q ∈ neighbors dst.width dst.height x y,
      src₁.getColor q.1 q.2 = src₂.getColor q.1 q.2) :
    solve cfg src₁ mask dst = solve cfg src₂ mask dst ∧
    seamlessClone cfg nanByte src₁ mask dst = seamlessClone cfg nanByte src₂ mask dst := by
  have hsolve := solve_congr_src cfg src₁ src₂ mask dst
    (fun _ x hx y hy hΩ => hin x hx y hy hΩ)
    (fun x hx y hy hΩ q hq c => by rw [hin x hx y hy hΩ, hnb x hx y hy hΩ q hq])
  exact ⟨hsolve, seamlessClone_eq_of_solve_eq cfg nanByte src₁ src₂ mask dst hsolve⟩

theorem seamlessClone_source_locality_witness :
    seamlessClone ⟨500, 1 / 1000, 1, false, true⟩ 0
        ⟨3, 1, [⟨10, 20, 30, 40⟩, ⟨50, 60, 70, 80⟩, ⟨1, 1, 1, 1⟩]⟩
        ⟨3, 1, [255, 0, 0]⟩ ⟨3, 1, [⟨1, 2, 3, 4⟩, ⟨5, 6, 7, 8⟩, ⟨9, 9, 9, 9⟩]⟩
      = seamlessClone ⟨500, 1 / 1000, 1, false, true⟩ 0
        ⟨3, 1, [⟨10, 20, 30, 40⟩, ⟨50, 60, 70, 80⟩, ⟨200, 100, 0, 255⟩]⟩
        ⟨3, 1, [255, 0, 0]⟩ ⟨3, 1, [⟨1, 2, 3, 4⟩, ⟨5, 6, 7, 8⟩, ⟨9, 9, 9, 9⟩]⟩ :=
  (seamlessClone_source_locality ⟨500, 1 / 1000, 1, false, true⟩ 0
    ⟨3, 1, [⟨10, 20, 30, 40⟩, ⟨50, 60, 70, 80⟩, ⟨1, 1, 1, 1⟩]⟩
    ⟨3, 1, [⟨10, 20, 30, 40⟩, ⟨50, 60, 70, 80⟩, ⟨200, 100, 0, 255⟩]⟩
    ⟨3, 1, [255, 0, 0]⟩ ⟨3, 1, [⟨1, 2, 3, 4⟩, ⟨5, 6, 7, 8⟩, ⟨9, 9, 9, 9⟩]⟩
    (by decide) (by decide)).2

/-! ## Independence of the channels -/

/-- Invariant rule for two loops over `0, 1, ..., n - 1` run side by side. -/
theorem foldl_range_induction₂ {σ τ : Type} (P : Nat → σ → τ → Prop) (f : σ → Nat → σ)
    (g : τ → Nat → τ) (n : Nat) (a : σ) (b : τ) (h0 : P 0 a b)
    (hstep : ∀ i s t, i < n → P i s t → P (i + 1) (f s i) (g t i)) :
    P n ((List.range n).foldl f a) ((List.range n).foldl g b) := by
  induction n with
  | zero => simpa using h0
  | succ k ih =>
    rw [List.range_succ, List.foldl_append, List.foldl_append]
    simp only [List.foldl_cons, List.foldl_nil]
    exact hstep k _ _ (Nat.lt_succ_self k)
      (ih (fun i s t hi hP => hstep i s t (Nat.lt_succ_of_lt hi) hP))

/-- Invariant rule for two loop nests run side by side, by linear pixel index. -/
theorem forYX_induction₂ {σ τ : Type} (P : Nat → σ → τ → Prop) (height width : Nat)
    (body₁ : σ → Nat → Nat → σ) (body₂ : τ → Nat → Nat → τ) (a : σ) (b : τ) (h0 : P 0 a b)
    (hstep : ∀ i s t, i < width * height → P i s t →
      P (i + 1) (body₁ s (i % width) (i / width)) (body₂ t (i % width) (i / width))) :
    P (width * height) (forYX height width body₁ a) (forYX height width body₂ b) := by
  rw [forYX_eq_foldl_range, forYX_eq_foldl_range]
  exact foldl_range_induction₂ P _ _ _ a b h0 hstep

theorem guidanceValue_congr_chan (cfg : ofApp) (src₁ src₂ dst₁ dst₂ : ofPixels ofColor)
    (c : Channel) (p q : Nat × Nat)
    (hsp : (src₁.getColor p.1 p.2).chan c = (src₂.getColor p.1 p.2).chan c)
    (hsq : (src₁.getColor q.1 q.2).chan c = (src₂.getColor q.1 q.2).chan c)
    (hdp : (dst₁.getColor p.1 p.2).chan c = (dst₂.getColor p.1 p.2).chan c)
    (hdq : (dst₁.getColor q.1 q.2).chan c = (dst₂.getColor q.1 q.2).chan c) :
    guidanceValue cfg src₁ dst₁ c p q = guidanceValue cfg src₂ dst₂ c p q := by
  unfold guidanceValue
  rw [hsp, hsq, hdp, hdq]

theorem neighborSums_chan_congr (cfg : ofApp) (src₁ src₂ dst₁ dst₂ : ofPixels ofColor)
    (ins : List Bool) (width height : Nat) (f₁ f₂ : Estimate) (c : Channel) (x y : Nat)
    (hx : x < width) (hy : y < height)
    (hsrc : ∀ x < width, ∀ y < height,
      (src₁.getColor x y).chan c = (src₂.getColor x y).chan c)
    (hdst : ∀ x < width, ∀ y < height,
      (dst₁.getColor x y).chan c = (dst₂.getColor x y).chan c)
    (hf : f₁.chan c = f₂.chan c) :
    (neighborSums cfg src₁ dst₁ ins width height f₁ x y).chan c
      = (neighborSums cfg src₂ dst₂ ins width height f₂ x y).chan c := by
  rw [neighborSums_eq_foldl _ _ _ _ _ _ _ _ _ hx hy,
    neighborSums_eq_foldl _ _ _ _ _ _ _ _ _ hx hy, foldl_addNeighbor_chan,
    foldl_addNeighbor_chan, hf]
  apply foldl_congr_mem
  intro acc q hq
  obtain ⟨hqx, hqy⟩ := neighbors_mem_bounds hx hy hq
  rw [hdst q.1 hqx q.2 hqy,
    guidanceValue_congr_chan cfg src₁ src₂ dst₁ dst₂ c (x, y) q (hsrc x hx y hy)
      (hsrc q.1 hqx q.2 hqy) (hdst x hx y hy) (hdst q.1 hqx q.2 hqy)]

theorem pixelStep_chan_congr (cfg : ofApp) (src₁ src₂ dst₁ dst₂ : ofPixels ofColor)
    (ins : List Bool) (width height : Nat) (st₁ st₂ : SweepState) (c : Channel) (x y : Nat)
    (hx : x < width) (hy : y < height)
    (hsrc : ∀ x < width, ∀ y < height,
      (src₁.getColor x y).chan c = (src₂.getColor x y).chan c)
    (hdst : ∀ x < width, ∀ y < height,
      (dst₁.getColor x y).chan c = (dst₂.getColor x y).chan c)
    (hf : st₁.f.chan c = st₂.f.chan c) :
    (pixelStep cfg src₁ dst₁ ins width height st₁ x y).f.chan c
      = (pixelStep cfg src₂ dst₂ ins width height st₂ x y).f.chan c := by
  by_cases hin : ins.getD (idx x y width) false = true
  · rw [pixelStep_f_chan _ _ _ _ _ _ _ _ _ hin, pixelStep_f_chan _ _ _ _ _ _ _ _ _ hin,
      neighborSums_chan_congr cfg src₁ src₂ dst₁ dst₂ ins width height st₁.f st₂.f c x y hx hy
        hsrc hdst hf,
      neighborSums_nCount _ _ _ _ _ _ _ _ _ hx hy, neighborSums_nCount _ _ _ _ _ _ _ _ _ hx hy,
      hf]
  · have hin2 : ins.getD (idx x y width) false = false := by
      cases hb : ins.getD (idx x y width) false
      · rfl
      · exact absurd hb hin
    rw [pixelStep_outside _ _ _ _ _ _ _ _ _ hin2, pixelStep_outside _ _ _ _ _ _ _ _ _ hin2]
    exact hf

/-- Claim C17: channel `c` of the estimate field after one relaxation sweep is a function
of Ω, the parameters and channel `c` of the source, of the destination and of the incoming
estimate field only: two sweeps that agree on those agree on channel `c` of the outcome,
whatever the other channels hold. -/
theorem sweep_channel_independent (cfg : ofApp) (src₁ src₂ dst₁ dst₂ : ofPixels ofColor)
    (ins : List Bool) (width height : Nat) (f₁ f₂ : Estimate) (c : Channel)
    (hsrc : ∀ x < width, ∀ y < height,
      (src₁.getColor x y).chan c = (src₂.getColor x y).chan c)
    (hdst : ∀ x < width, ∀ y < height,
      (dst₁.getColor x y).chan c = (dst₂.getColor x y).chan c)
    (hf : f₁.chan c = f₂.chan c) :
    (sweep cfg src₁ dst₁ ins width height f₁).f.chan c
      = (sweep cfg src₂ dst₂ ins width height f₂).f.chan c := by
  have key := forYX_induction₂
    (fun _ (s t : SweepState) => s.f.chan c = t.f.chan c)
    height width (pixelStep cfg src₁ dst₁ ins width height)
    (pixelStep cfg src₂ dst₂ ins width height) ⟨Double.fin 0, f₁⟩ ⟨Double.fin 0, f₂⟩ hf
    (by
      intro i s t hi hP
      obtain ⟨hx, hy⟩ := mod_div_lt hi
      exact pixelStep_chan_congr cfg src₁ src₂ dst₁ dst₂ ins width height s t c _ _ hx hy
        hsrc hdst hP)
  exact key

theorem sweep_channel_independent_witness :
    (sweep ⟨500, 1 / 1000, 3 / 2, true, true⟩
        ⟨2, 1, [⟨10, 20, 30, 40⟩, ⟨50, 60, 70, 80⟩]⟩ ⟨2, 1, [⟨1, 2, 3, 4⟩, ⟨5, 6, 7, 8⟩]⟩
        [true, true] 2 1
        ⟨[Double.fin 1, Double.fin 5], [Double.fin 2, Double.fin 6],
         [Double.fin 3, Double.fin 7], [Double.fin 4, Double.fin 8]⟩).f.chan Channel.G
      = (sweep ⟨500, 1 / 1000, 3 / 2, true, true⟩
        ⟨2, 1, [⟨0, 20, 255, 7⟩, ⟨99, 60, 0, 13⟩]⟩ ⟨2, 1, [⟨200, 2, 100, 0⟩, ⟨0, 6, 50, 255⟩]⟩
        [true, true] 2 1
        ⟨[Double.fin 100, Double.fin 0], [Double.fin 2, Double.fin 6],
         [Double.nan, Double.fin (1 / 3)], [Double.fin 0, Double.fin 0]⟩).f.chan Channel.G ∧
    (sweep ⟨500, 1 / 1000, 3 / 2, true, true⟩
        ⟨2, 1, [⟨10, 20, 30, 40⟩, ⟨50, 60, 70, 80⟩]⟩ ⟨2, 1, [⟨1, 2, 3, 4⟩, ⟨5, 6, 7, 8⟩]⟩
        [true, true] 2 1
        ⟨[Double.fin 1, Double.fin 5], [Double.fin 2, Double.fin 6],
         [Double.fin 3, Double.fin 7], [Double.fin 4, Double.fin 8]⟩).f.chan Channel.R
      ≠ (sweep ⟨500, 1 / 1000, 3 / 2, true, true⟩
        ⟨2, 1, [⟨0, 20, 255, 7⟩, ⟨99, 60, 0, 13⟩]⟩ ⟨2, 1, [⟨200, 2, 100, 0⟩, ⟨0, 6, 50, 255⟩]⟩
        [true, true] 2 1
        ⟨[Double.fin 100, Double.fin 0], [Double.fin 2, Double.fin 6],
         [Double.nan, Double.fin (1 / 3)], [Double.fin 0, Double.fin 0]⟩).f.chan Channel.R :=
  ⟨sweep_channel_independent ⟨500, 1 / 1000, 3 / 2, true, true⟩
      ⟨2, 1, [⟨10, 20, 30, 40⟩, ⟨50, 60, 70, 80⟩]⟩ ⟨2, 1, [⟨0, 20, 255, 7⟩, ⟨99, 60, 0, 13⟩]⟩
      ⟨2, 1, [⟨1, 2, 3, 4⟩, ⟨5, 6, 7, 8⟩]⟩ ⟨2, 1, [⟨200, 2, 100, 0⟩, ⟨0, 6, 50, 255⟩]⟩
      [true, true] 2 1
      ⟨[Double.fin 1, Double.fin 5], [Double.fin 2, Double.fin 6],
       [Double.fin 3, Double.fin 7], [Double.fin 4, Double.fin 8]⟩
      ⟨[Double.fin 100, Double.fin 0], [Double.fin 2, Double.fin 6],
       [Double.nan, Double.fin (1 / 3)], [Double.fin 0, Double.fin 0]⟩
      Channel.G (by decide) (by decide) rfl,
   by decide!⟩

/-! ## Rounding errors of one sweep -/

theorem two_zpow_neg53_pos : (0 : ℚ) < (2 : ℚ) ^ (-53 : Int) := zpow_pos (by norm_num) _

theorem two_zpow_neg53_le : (2 : ℚ) ^ (-53 : Int) ≤ 1 / 1024 := by
  have h : (2 : ℚ) ^ (-53 : Int) ≤ (2 : ℚ) ^ (-10 : Int) :=
    zpow_le_zpow_right₀ (by norm_num) (by norm_num)
  have e : (2 : ℚ) ^ (-10 : Int) = 1 / 1024 := by norm_num
  rw [e] at h
  exact h

/-- The rounding error of one operation whose exact result has magnitude at most `Q`:
the result is finite and within `(Q + 1) * 2 ^ (-53)` of the exact one. -/
theorem Double.ofRat_error (q Q : ℚ) (hq : |q| ≤ Q) (hQ : Q ≤ (2 : ℚ) ^ (1022 : Nat)) :
    ∃ r, Double.ofRat q = Double.fin r ∧ Double.ofRat r = Double.fin r ∧
      |r - q| ≤ (Q + 1) * (2 : ℚ) ^ (-53 : Int) := by
  have hlt : |q| < (2 : ℚ) ^ (1023 : Int) := by
    have h1 : (2 : ℚ) ^ (1022 : Nat) < (2 : ℚ) ^ (1023 : Nat) :=
      pow_lt_pow_right₀ (by norm_num) (by norm_num)
    have h2 : (2 : ℚ) ^ (1023 : Int) = (2 : ℚ) ^ (1023 : Nat) := by
      rw [← zpow_natCast]; rfl
    rw [h2]
    exact lt_of_le_of_lt (le_trans hq hQ) h1
  obtain ⟨r, hr⟩ := roundNearestEven_finite 53 (-1022) 1023 q (by norm_num) (by norm_num) hlt
  refine ⟨r, hr, Double.ofRat_idem q r hr, ?_⟩
  have herr := roundNearestEven_error 53 (-1022) 1023 q r hr
  have e1 : (-((53 : Nat) : Int)) = -53 := by norm_num
  have e2 : (-1022 : Int) - ((53 : Nat) : Int) = -1075 := by norm_num
  rw [e1, e2] at herr
  have hη : (2 : ℚ) ^ (-1075 : Int) ≤ (2 : ℚ) ^ (-53 : Int) :=
    zpow_le_zpow_right₀ (by norm_num) (by norm_num)
  have hu := two_zpow_neg53_pos
  have hmul : |q| * (2 : ℚ) ^ (-53 : Int) ≤ Q * (2 : ℚ) ^ (-53 : Int) :=
    mul_le_mul_of_nonneg_right hq (le_of_lt hu)
  linarith
theorem sixteen_mul_le (T : ℚ) (hT : T ≤ (2 : ℚ) ^ (1000 : Nat)) :
    16 * T ≤ (2 : ℚ) ^ (1022 : Nat) := by
  have h1 : (2 : ℚ) ^ (1004 : Nat) ≤ (2 : ℚ) ^ (1022 : Nat) :=
    pow_le_pow_right₀ (by norm_num) (by norm_num)
  have h2 : (2 : ℚ) ^ (1004 : Nat) = 16 * (2 : ℚ) ^ (1000 : Nat) := by
    rw [show (1004 : Nat) = 4 + 1000 from rfl, pow_add]
    norm_num
  linarith

/-- One pass of the neighbour loop: adding a contribution `v` and a guidance value `g`, both
of magnitude at most `T`, to an accumulator of magnitude at most `4 j T` gives a finite
accumulator within `32 T 2 ^ (-53)` of the exact sum. -/
theorem add_contribution_error (a v g T : ℚ) (j : Nat) (hT1 : 1 ≤ T)
    (hT : T ≤ (2 : ℚ) ^ (1000 : Nat)) (hj : j ≤ 3) (ha : |a| ≤ 4 * (j : ℚ) * T)
    (hv : |v| ≤ T) (hg : |g| ≤ T) :
    ∃ r, Double.fin a + Double.fin v + Double.fin g = Double.fin r ∧
      |r| ≤ 4 * ((j : ℚ) + 1) * T ∧
      |r - (a + v + g)| ≤ 32 * T * (2 : ℚ) ^ (-53 : Int) := by
  have h16 := sixteen_mul_le T hT
  have hu := two_zpow_neg53_pos
  have hu2 := two_zpow_neg53_le
  have hq1' : |a + v| ≤ 13 * T := by
    have hjq : (j : ℚ) ≤ 3 := by exact_mod_cast hj
    have hjT : (j : ℚ) * T ≤ 3 * T := mul_le_mul_of_nonneg_right hjq (by linarith)
    have := abs_add a v
    linarith
  obtain ⟨r1, h1, _, e1⟩ := Double.ofRat_error (a + v) (13 * T) hq1' (by linarith)
  have hq2' : |r1 + g| ≤ 15 * T := by
    clear h16 hT
    have hU2 : T * (2 : ℚ) ^ (-53 : Int) ≤ T / 1024 := by
      have := mul_le_mul_of_nonneg_left hu2 (by linarith : (0 : ℚ) ≤ T)
      linarith
    have e : r1 + g = (r1 - (a + v)) + (a + v) + g := by ring
    have h3 := abs_add ((r1 - (a + v)) + (a + v)) g
    have h4 := abs_add (r1 - (a + v)) (a + v)
    rw [e]
    have e1' : |r1 - (a + v)| ≤ 13 * (T * (2 : ℚ) ^ (-53 : Int)) + (2 : ℚ) ^ (-53 : Int) := by
      have : (13 * T + 1) * (2 : ℚ) ^ (-53 : Int)
          = 13 * (T * (2 : ℚ) ^ (-53 : Int)) + (2 : ℚ) ^ (-53 : Int) := by ring
      rw [← this]
      exact e1
    generalize (2 : ℚ) ^ (-53 : Int) = u at *
    generalize T * u = U at *
    linarith
  obtain ⟨r2, h2, _, e2⟩ := Double.ofRat_error (r1 + g) (15 * T) hq2' (by linarith)
  clear h16 hT
  have hjq : (j : ℚ) ≤ 3 := by exact_mod_cast hj
  have hj0 : (0 : ℚ) ≤ (j : ℚ) := Nat.cast_nonneg j
  have hU1 : (2 : ℚ) ^ (-53 : Int) ≤ T * (2 : ℚ) ^ (-53 : Int) := by
    have := mul_le_mul_of_nonneg_right hT1 (le_of_lt hu)
    linarith
  have hU2 : T * (2 : ℚ) ^ (-53 : Int) ≤ T / 1024 := by
    have := mul_le_mul_of_nonneg_left hu2 (by linarith : (0 : ℚ) ≤ T)
    linarith
  have e1' : |r1 - (a + v)| ≤ 13 * (T * (2 : ℚ) ^ (-53 : Int)) + (2 : ℚ) ^ (-53 : Int) := by
    have : (13 * T + 1) * (2 : ℚ) ^ (-53 : Int)
        = 13 * (T * (2 : ℚ) ^ (-53 : Int)) + (2 : ℚ) ^ (-53 : Int) := by ring
    rw [← this]
    exact e1
  have e2' : |r2 - (r1 + g)| ≤ 15 * (T * (2 : ℚ) ^ (-53 : Int)) + (2 : ℚ) ^ (-53 : Int) := by
    have : (15 * T + 1) * (2 : ℚ) ^ (-53 : Int)
        = 15 * (T * (2 : ℚ) ^ (-53 : Int)) + (2 : ℚ) ^ (-53 : Int) := by ring
    rw [← this]
    exact e2
  have herr : |r2 - (a + v + g)| ≤ 32 * (T * (2 : ℚ) ^ (-53 : Int)) := by
    have e : r2 - (a + v + g) = (r2 - (r1 + g)) + (r1 - (a + v)) := by ring
    have h3 := abs_add (r2 - (r1 + g)) (r1 - (a + v))
    rw [e]
    generalize (2 : ℚ) ^ (-53 : Int) = u at *
    generalize T * u = U at *
    linarith
  refine ⟨r2, ?_, ?_, ?_⟩
  · rw [Double.fin_add, h1, Double.fin_add, h2]
  · have e : r2 = (r2 - (a + v + g)) + (a + v + g) := by ring
    have h3 := abs_add (r2 - (a + v + g)) (a + v + g)
    have h4 := abs_add (a + v) g
    have h5 := abs_add a v
    have e4 : 4 * ((j : ℚ) + 1) * T = 4 * (j : ℚ) * T + 4 * T := by ring
    rw [e4, e]
    generalize (2 : ℚ) ^ (-53 : Int) = u at *
    generalize T * u = U at *
    generalize 4 * (j : ℚ) * T = J at *
    linarith
  · rw [mul_assoc]
    exact herr

/-- The accumulator after the neighbour loop, for contributions and guidance values of
magnitude at most `T`: it is finite, of magnitude at most `4 T` per neighbour, and within
`32 T 2 ^ (-53)` per neighbour of the exact sum. -/
theorem foldl_contribution_error {α : Type} (V : α → Double) (G v : α → ℚ) (T : ℚ)
    (hT1 : 1 ≤ T) (hT : T ≤ (2 : ℚ) ^ (1000 : Nat)) (l : List α)
    (hl : ∀ q ∈ l, V q = Double.fin (v q) ∧ |v q| ≤ T ∧ |G q| ≤ T) (j : Nat)
    (hj : j + l.length ≤ 4) (a s : ℚ) (ha : |a| ≤ 4 * (j : ℚ) * T)
    (hs : |a - s| ≤ 32 * (j : ℚ) * T * (2 : ℚ) ^ (-53 : Int)) :
    ∃ S, l.foldl (fun acc q => acc + V q + Double.fin (G q)) (Double.fin a) = Double.fin S ∧
      |S| ≤ 4 * ((j + l.length : Nat) : ℚ) * T ∧
      |S - (s + (l.map (fun q => v q + G q)).sum)|
        ≤ 32 * ((j + l.length : Nat) : ℚ) * T * (2 : ℚ) ^ (-53 : Int) := by
  induction l generalizing j a s with
  | nil =>
    refine ⟨a, rfl, ?_, ?_⟩
    · simpa using ha
    · simpa using hs
  | cons q t ih =>
    simp only [List.length_cons] at hj
    obtain ⟨hV, hv, hg⟩ := hl q (List.mem_cons_self q t)
    obtain ⟨r, hr, hrb, hre⟩ := add_contribution_error a (v q) (G q) T j hT1 hT (by omega) ha hv hg
    have hrb' : |r| ≤ 4 * ((j + 1 : Nat) : ℚ) * T := by
      push_cast
      exact hrb
    have hrs : |r - (s + (v q + G q))| ≤ 32 * ((j + 1 : Nat) : ℚ) * T * (2 : ℚ) ^ (-53 : Int) := by
      push_cast
      obtain ⟨h1, h2⟩ := abs_le.mp hre
      obtain ⟨h3, h4⟩ := abs_le.mp hs
      rw [abs_le]
      constructor <;> linarith
    obtain ⟨S, hS, hSb, hSe⟩ := ih (fun q' hq' => hl q' (List.mem_cons_of_mem q hq')) (j + 1)
      (by omega) r (s + (v q + G q)) hrb' hrs
    refine ⟨S, ?_, ?_, ?_⟩
    · simp only [List.foldl_cons]
      rw [hV, hr]
      exact hS
    · have e : j + (t.length + 1) = j + 1 + t.length := by omega
      simp only [List.length_cons]
      rw [e]
      exact hSb
    · have e : j + (t.length + 1) = j + 1 + t.length := by omega
      simp only [List.length_cons, List.map_cons, List.sum_cons]
      rw [e, ← add_assoc]
      exact hSe
theorem guidanceValue_abs_le (cfg : ofApp) (src dst : ofPixels ofColor) (c : Channel)
    (p q : Nat × Nat) : |guidanceValue cfg src dst c p q| ≤ 255 := by
  have key : ∀ a b : Nat, a < 256 → b < 256 → |(a : ℚ) - (b : ℚ)| ≤ 255 := by
    intro a b ha hb
    have ha' : (a : ℚ) ≤ 255 := by exact_mod_cast (by omega : a ≤ 255)
    have hb' : (b : ℚ) ≤ 255 := by exact_mod_cast (by omega : b ≤ 255)
    have ha0 : (0 : ℚ) ≤ a := Nat.cast_nonneg a
    have hb0 : (0 : ℚ) ≤ b := Nat.cast_nonneg b
    rw [abs_le]
    constructor <;> linarith
  unfold guidanceValue
  simp only
  split
  · exact key _ _ (ofColor.chan_lt _ c) (ofColor.chan_lt _ c)
  · exact key _ _ (ofColor.chan_lt _ c) (ofColor.chan_lt _ c)

theorem Estimate.entry_of_getD {f : Estimate} {c : Channel} {i : Nat} {a : ℚ}
    (h : (f.chan c).getD i Double.nan = Double.fin a) : f.entry c i = a := by
  unfold Estimate.entry
  rw [h]
  rfl

/-- The rounding error of the new value: on a field of finite doubles of magnitude at most
`T`, the value `sum / nCount` computed by the sweep body is a finite double within
`49 T 2 ^ (-53)` of the exact average `newEstimate`. -/
theorem newValue_error (cfg : ofApp) (src dst : ofPixels ofColor) (ins : List Bool)
    (width height : Nat) (f : Estimate) (T : ℚ) (hf : f.finite (width * height))
    (hb : f.bounded (width * height) T) (hT1 : 255 ≤ T) (hT : T ≤ (2 : ℚ) ^ (1000 : Nat))
    (x y : Nat) (hx : x < width) (hy : y < height) (hN : neighbors width height x y ≠ [])
    (c : Channel) :
    ∃ b, newValue cfg src dst ins width height f c x y = Double.fin b ∧
      Double.ofRat b = Double.fin b ∧
      |b - newEstimate cfg src dst ins width height f c x y| ≤ 49 * T * (2 : ℚ) ^ (-53 : Int) := by
  have hlen4 := neighbors_length_le width height x y
  have hlen0 : (neighbors width height x y).length ≠ 0 := by
    intro h0
    exact hN (List.length_eq_zero.mp h0)
  have hT1' : (1 : ℚ) ≤ T := by linarith
  have hl : ∀ q ∈ neighbors width height x y,
      (if ins.getD (idx q.1 q.2 width) false = true
          then (f.chan c).getD (idx q.1 q.2 width) Double.nan
          else Double.ofNat ((dst.getColor q.1 q.2).chan c))
        = Double.fin (if ins.getD (idx q.1 q.2 width) false = true then f.value width c q.1 q.2
            else ((dst.getColor q.1 q.2).chan c : ℚ)) ∧
      |(if ins.getD (idx q.1 q.2 width) false = true then f.value width c q.1 q.2
            else ((dst.getColor q.1 q.2).chan c : ℚ))| ≤ T ∧
      |guidanceValue cfg src dst c (x, y) q| ≤ T := by
    intro q hq
    obtain ⟨hqx, hqy⟩ := neighbors_mem_bounds hx hy hq
    refine ⟨?_, ?_, le_trans (guidanceValue_abs_le cfg src dst c (x, y) q) hT1⟩
    · by_cases hin : ins.getD (idx q.1 q.2 width) false = true
      · rw [if_pos hin, if_pos hin]
        obtain ⟨a, ha, _⟩ := Estimate.finite_getD hf c (idx_lt hqx hqy)
        have hval : f.value width c q.1 q.2 = a := Estimate.entry_of_getD ha
        rw [ha, hval]
      · rw [if_neg hin, if_neg hin]
        rfl
    · by_cases hin : ins.getD (idx q.1 q.2 width) false = true
      · rw [if_pos hin]
        exact hb c _ (idx_lt hqx hqy)
      · rw [if_neg hin]
        have h1 : ((dst.getColor q.1 q.2).chan c : ℚ) ≤ 255 := by
          exact_mod_cast (by have := ofColor.chan_lt (dst.getColor q.1 q.2) c; omega :
            (dst.getColor q.1 q.2).chan c ≤ 255)
        rw [abs_of_nonneg (Nat.cast_nonneg _)]
        linarith
  obtain ⟨S, hS, hSb, hSe⟩ := foldl_contribution_error
    (fun q => if ins.getD (idx q.1 q.2 width) false = true
          then (f.chan c).getD (idx q.1 q.2 width) Double.nan
          else Double.ofNat ((dst.getColor q.1 q.2).chan c))
    (fun q => guidanceValue cfg src dst c (x, y) q)
    (fun q => if ins.getD (idx q.1 q.2 width) false = true then f.value width c q.1 q.2
            else ((dst.getColor q.1 q.2).chan c : ℚ))
    T hT1' hT (neighbors width height x y) hl 0 (by omega) 0 0 (by simp) (by simp)
  have hnq : (0 : ℚ) < ((neighbors width height x y).length : ℚ) := by
    exact_mod_cast Nat.pos_of_ne_zero hlen0
  have hnq1 : (1 : ℚ) ≤ ((neighbors width height x y).length : ℚ) := by
    exact_mod_cast Nat.pos_of_ne_zero hlen0
  have hnq4 : ((neighbors width height x y).length : ℚ) ≤ 4 := by exact_mod_cast hlen4
  simp only [zero_add] at hSb hSe
  have hSn : |S / ((neighbors width height x y).length : ℚ)| ≤ 16 * T := by
    rw [abs_div, abs_of_pos hnq, div_le_iff₀ hnq]
    have : 4 * ((neighbors width height x y).length : ℚ) * T
        ≤ 16 * T * ((neighbors width height x y).length : ℚ) := by nlinarith
    linarith
  obtain ⟨b, hbq, hbb, hbe⟩ := Double.ofRat_error _ (16 * T) hSn (sixteen_mul_le T hT)
  refine ⟨b, ?_, hbb, ?_⟩
  · unfold newValue
    rw [neighborSums_chan_eq_foldl _ _ _ _ _ _ _ _ _ c hx hy,
      neighborSums_nCount _ _ _ _ _ _ _ _ _ hx hy, hS, Double.ofNat_eq,
      Double.fin_div _ _ (ne_of_gt hnq)]
    exact hbq
  · have hnew : newEstimate cfg src dst ins width height f c x y
        = ((neighbors width height x y).map (fun q =>
            (if ins.getD (idx q.1 q.2 width) false = true then f.value width c q.1 q.2
              else ((dst.getColor q.1 q.2).chan c : ℚ))
            + guidanceValue cfg src dst c (x, y) q)).sum
          / ((neighbors width height x y).length : ℚ) := rfl
    rw [hnew]
    have hdiv : |S / ((neighbors width height x y).length : ℚ)
        - ((neighbors width height x y).map (fun q =>
            (if ins.getD (idx q.1 q.2 width) false = true then f.value width c q.1 q.2
              else ((dst.getColor q.1 q.2).chan c : ℚ))
            + guidanceValue cfg src dst c (x, y) q)).sum
          / ((neighbors width height x y).length : ℚ)|
        ≤ 32 * T * (2 : ℚ) ^ (-53 : Int) := by
      rw [← sub_div, abs_div, abs_of_pos hnq, div_le_iff₀ hnq]
      have : 32 * ((neighbors width height x y).length : ℚ) * T * (2 : ℚ) ^ (-53 : Int)
          = 32 * T * (2 : ℚ) ^ (-53 : Int) * ((neighbors width height x y).length : ℚ) := by ring
      rw [← this]
      exact hSe
    have hu := two_zpow_neg53_pos
    have hU1 : (2 : ℚ) ^ (-53 : Int) ≤ T * (2 : ℚ) ^ (-53 : Int) := by
      have := mul_le_mul_of_nonneg_right hT1' (le_of_lt hu)
      linarith
    have hbe' : |b - S / ((neighbors width height x y).length : ℚ)|
        ≤ 16 * (T * (2 : ℚ) ^ (-53 : Int)) + (2 : ℚ) ^ (-53 : Int) := by
      have : (16 * T + 1) * (2 : ℚ) ^ (-53 : Int)
          = 16 * (T * (2 : ℚ) ^ (-53 : Int)) + (2 : ℚ) ^ (-53 : Int) := by ring
      rw [← this]
      exact hbe
    have htri := abs_sub_le b (S / ((neighbors width height x y).length : ℚ))
      (((neighbors width height x y).map (fun q =>
            (if ins.getD (idx q.1 q.2 width) false = true then f.value width c q.1 q.2
              else ((dst.getColor q.1 q.2).chan c : ℚ))
            + guidanceValue cfg src dst c (x, y) q)).sum
          / ((neighbors width height x y).length : ℚ))
    have e49 : 49 * T * (2 : ℚ) ^ (-53 : Int) = 49 * (T * (2 : ℚ) ^ (-53 : Int)) := by ring
    have e32 : 32 * T * (2 : ℚ) ^ (-53 : Int) = 32 * (T * (2 : ℚ) ^ (-53 : Int)) := by ring
    rw [e49]
    rw [e32] at hdiv
    clear hT hSn hbe hSe hSb
    generalize (2 : ℚ) ^ (-53 : Int) = u at *
    generalize T * u = U at *
    linarith
theorem sweep_eq_sweepPrefix (cfg : ofApp) (src dst : ofPixels ofColor) (ins : List Bool)
    (width height : Nat) (f : Estimate) :
    sweep cfg src dst ins width height f
      = sweepPrefix cfg src dst ins width height f (width * height) := by
  unfold sweep sweepPrefix
  rw [forYX_eq_foldl_range]

theorem sweepPrefix_succ (cfg : ofApp) (src dst : ofPixels ofColor) (ins : List Bool)
    (width height : Nat) (f : Estimate) (k : Nat) :
    sweepPrefix cfg src dst ins width height f (k + 1)
      = pixelStep cfg src dst ins width height (sweepPrefix cfg src dst ins width height f k)
          (k % width) (k / width) := by
  unfold sweepPrefix
  rw [List.range_succ, List.foldl_append]
  rfl

/-- The value a sweep leaves at pixel `i` is the one written when pixel `i` was visited. -/
theorem sweepPrefix_stable (cfg : ofApp) (src dst : ofPixels ofColor) (ins : List Bool)
    (width height : Nat) (f : Estimate) (c : Channel) (i : Nat) (d : Double) (n : Nat)
    (hn : i < n) :
    ((sweepPrefix cfg src dst ins width height f n).f.chan c).getD i d
      = ((sweepPrefix cfg src dst ins width height f (i + 1)).f.chan c).getD i d := by
  induction n with
  | zero => omega
  | succ k ih =>
    by_cases hik : i = k
    · subst hik; rfl
    · rw [sweepPrefix_succ, pixelStep_getD_of_ne _ _ _ _ _ _ _ _ _ _ _ _
        (by rw [idx_mod_div]; omega)]
      exact ih (by omega)

/-- A pixel that the sweep has not visited yet still holds its value. -/
theorem sweepPrefix_getD_of_le (cfg : ofApp) (src dst : ofPixels ofColor) (ins : List Bool)
    (width height : Nat) (f : Estimate) (c : Channel) (j : Nat) (d : Double) (i : Nat)
    (hij : i ≤ j) :
    ((sweepPrefix cfg src dst ins width height f i).f.chan c).getD j d
      = (f.chan c).getD j d := by
  induction i with
  | zero => rfl
  | succ k ih =>
    rw [sweepPrefix_succ, pixelStep_getD_of_ne _ _ _ _ _ _ _ _ _ _ _ _
      (by rw [idx_mod_div]; omega)]
    exact ih (by omega)

/-- A pixel that the sweep has visited holds the value it has after the sweep. -/
theorem sweepPrefix_getD_of_lt (cfg : ofApp) (src dst : ofPixels ofColor) (ins : List Bool)
    (width height : Nat) (f : Estimate) (c : Channel) (j : Nat) (d : Double) (i : Nat)
    (hji : j < i) (hi : i ≤ width * height) :
    ((sweepPrefix cfg src dst ins width height f i).f.chan c).getD j d
      = ((sweep cfg src dst ins width height f).f.chan c).getD j d := by
  rw [sweep_eq_sweepPrefix, sweepPrefix_stable _ _ _ _ _ _ _ _ _ _ _ hji,
    sweepPrefix_stable _ _ _ _ _ _ _ _ _ _ (width * height) (by omega)]

theorem sweepPrefix_length (cfg : ofApp) (src dst : ofPixels ofColor) (ins : List Bool)
    (width height : Nat) (f : Estimate) (c : Channel) (i : Nat) :
    ((sweepPrefix cfg src dst ins width height f i).f.chan c).length = (f.chan c).length := by
  induction i with
  | zero => rfl
  | succ k ih => rw [sweepPrefix_succ, pixelStep_chan_length, ih]

theorem sweepPrefix_entry (cfg : ofApp) (src dst : ofPixels ofColor) (ins : List Bool)
    (width height : Nat) (f : Estimate) (c : Channel) (j i : Nat) (hi : i ≤ width * height) :
    (sweepPrefix cfg src dst ins width height f i).f.entry c j
      = if j < i then (sweep cfg src dst ins width height f).f.entry c j else f.entry c j := by
  unfold Estimate.entry
  by_cases hji : j < i
  · rw [if_pos hji, sweepPrefix_getD_of_lt _ _ _ _ _ _ _ _ _ _ _ hji hi]
  · rw [if_neg hji, sweepPrefix_getD_of_le _ _ _ _ _ _ _ _ _ _ _ (by omega)]

/-- While a sweep runs, the field is bounded by any bound of the fields before and after
the sweep. -/
theorem sweepPrefix_bounded (cfg : ofApp) (src dst : ofPixels ofColor) (ins : List Bool)
    (width height : Nat) (f : Estimate) (T : ℚ) (hb : f.bounded (width * height) T)
    (hb' : (sweep cfg src dst ins width height f).f.bounded (width * height) T) (i : Nat)
    (hi : i ≤ width * height) :
    (sweepPrefix cfg src dst ins width height f i).f.bounded (width * height) T := by
  intro c j hj
  rw [sweepPrefix_entry _ _ _ _ _ _ _ _ _ _ hi]
  split
  · exact hb' c j hj
  · exact hb c j hj

/-- What the sweep body does at a pixel of Ω with an in-bounds neighbour, on a field of
finite doubles of magnitude at most `T` and with `relaxationFactor = 1`: every channel
receives its new value, a finite double within `49 T 2 ^ (-53)` of the exact average. -/
theorem pixelStep_inside (cfg : ofApp) (src dst : ofPixels ofColor) (ins : List Bool)
    (width height : Nat) (st : SweepState) (T : ℚ) (hw : cfg.relaxationFactor = 1)
    (hf : st.f.finite (width * height)) (hb : st.f.bounded (width * height) T)
    (hT1 : 255 ≤ T) (hT : T ≤ (2 : ℚ) ^ (1000 : Nat))
    (x y : Nat) (hx : x < width) (hy : y < height) (hN : neighbors width height x y ≠ [])
    (hin : ins.getD (idx x y width) false = true) (c : Channel) :
    ∃ b, newValue cfg src dst ins width height st.f c x y = Double.fin b ∧
      Double.ofRat b = Double.fin b ∧
      |b - newEstimate cfg src dst ins width height st.f c x y|
        ≤ 49 * T * (2 : ℚ) ^ (-53 : Int) ∧
      (pixelStep cfg src dst ins width height st x y).f.chan c
        = (st.f.chan c).set (idx x y width) (Double.fin b) := by
  obtain ⟨b, hb1, hb2, hb3⟩ := newValue_error cfg src dst ins width height st.f T hf hb hT1 hT
    x y hx hy hN c
  refine ⟨b, hb1, hb2, hb3, ?_⟩
  rw [pixelStep_f_chan_newValue _ _ _ _ _ _ _ _ _ hin, hw, hb1]
  obtain ⟨a, ha, _⟩ := Estimate.finite_getD hf c (idx_lt hx hy)
  rw [ha]
  have hr : (Double.fin b).rounded := hb2
  rw [relax_one a (Double.fin b) hr]

theorem pixelStep_finite (cfg : ofApp) (src dst : ofPixels ofColor) (ins : List Bool)
    (width height : Nat) (st : SweepState) (T : ℚ) (hw : cfg.relaxationFactor = 1)
    (hf : st.f.finite (width * height)) (hb : st.f.bounded (width * height) T)
    (hT1 : 255 ≤ T) (hT : T ≤ (2 : ℚ) ^ (1000 : Nat))
    (x y : Nat) (hx : x < width) (hy : y < height)
    (hN : ins.getD (idx x y width) false = true → neighbors width height x y ≠ []) :
    (pixelStep cfg src dst ins width height st x y).f.finite (width * height) := by
  by_cases hin : ins.getD (idx x y width) false = true
  · intro c
    obtain ⟨b, _, hb2, _, hset⟩ := pixelStep_inside cfg src dst ins width height st T hw hf hb
      hT1 hT x y hx hy (hN hin) hin c
    rw [hset]
    refine ⟨by rw [List.length_set]; exact (hf c).1, fun i hi => ?_⟩
    rw [getD_set]
    split
    · exact hb2
    · exact (hf c).2 i hi
  · have hin2 : ins.getD (idx x y width) false = false := by
      cases hb : ins.getD (idx x y width) false
      · rfl
      · exact absurd hb hin
    rw [pixelStep_outside _ _ _ _ _ _ _ _ _ hin2]
    exact hf

/-- A sweep that starts from a field of finite doubles and keeps the field within
`[-T, T]` keeps it finite. -/
theorem sweepPrefix_finite (cfg : ofApp) (src dst : ofPixels ofColor) (ins : List Bool)
    (width height : Nat) (f : Estimate) (T : ℚ) (hw : cfg.relaxationFactor = 1)
    (hf : f.finite (width * height)) (hb : f.bounded (width * height) T)
    (hb' : (sweep cfg src dst ins width height f).f.bounded (width * height) T)
    (hT1 : 255 ≤ T) (hT : T ≤ (2 : ℚ) ^ (1000 : Nat))
    (hN : ∀ x < width, ∀ y < height, ins.getD (idx x y width) false = true →
      neighbors width height x y ≠ []) (k : Nat) (hk : k ≤ width * height) :
    (sweepPrefix cfg src dst ins width height f k).f.finite (width * height) := by
  induction k with
  | zero => exact hf
  | succ n ih =>
    rw [sweepPrefix_succ]
    obtain ⟨hx, hy⟩ := mod_div_lt (Nat.lt_of_succ_le hk)
    exact pixelStep_finite cfg src dst ins width height _ T hw (ih (Nat.le_of_succ_le hk))
      (sweepPrefix_bounded cfg src dst ins width height f T hb hb' n (Nat.le_of_succ_le hk))
      hT1 hT _ _ hx hy (hN _ hx _ hy)

theorem sweep_finite (cfg : ofApp) (src dst : ofPixels ofColor) (ins : List Bool)
    (width height : Nat) (f : Estimate) (T : ℚ) (hw : cfg.relaxationFactor = 1)
    (hf : f.finite (width * height)) (hb : f.bounded (width * height) T)
    (hb' : (sweep cfg src dst ins width height f).f.bounded (width * height) T)
    (hT1 : 255 ≤ T) (hT : T ≤ (2 : ℚ) ^ (1000 : Nat))
    (hN : ∀ x < width, ∀ y < height, ins.getD (idx x y width) false = true →
      neighbors width height x y ≠ []) :
    (sweep cfg src dst ins width height f).f.finite (width * height) := by
  rw [sweep_eq_sweepPrefix]
  exact sweepPrefix_finite cfg src dst ins width height f T hw hf hb
    hb' hT1 hT hN _ (le_refl _)

/-! ## Two successive sweeps in lockstep -/

theorem Double.max_fin_fin (m q : ℚ) :
    Double.max (Double.fin m) (Double.fin q) = Double.fin (Max.max m q) := by
  by_cases h : m < q
  · simp [Double.max, h, max_eq_right (le_of_lt h)]
  · simp [Double.max, h, max_eq_left (le_of_not_lt h)]

/-- The rounding error of a delta `abs(new - f[i])` of two doubles of magnitude at most
`T`: at most `3 T 2 ^ (-53)`. -/
theorem delta_error (a b T : ℚ) (ha : |a| ≤ T) (hb : |b| ≤ T) (hT1 : 255 ≤ T)
    (hT : T ≤ (2 : ℚ) ^ (1000 : Nat)) :
    ∃ δ, Double.abs (Double.fin b - Double.fin a) = Double.fin δ ∧ 0 ≤ δ ∧
      |δ - (|b - a|)| ≤ 3 * T * (2 : ℚ) ^ (-53 : Int) := by
  have h2T : 2 * T ≤ (2 : ℚ) ^ (1022 : Nat) := by
    have e : (2 : ℚ) ^ (1022 : Nat) = (2 : ℚ) ^ (22 : Nat) * (2 : ℚ) ^ (1000 : Nat) := by
      rw [← pow_add]
    rw [e]
    have h22 : (2 : ℚ) ≤ (2 : ℚ) ^ (22 : Nat) := by norm_num
    have hT0 : (0 : ℚ) ≤ T := by linarith
    exact mul_le_mul h22 hT hT0 (by norm_num)
  have hba : |b - a| ≤ 2 * T := by
    have := abs_sub b a
    linarith
  obtain ⟨r, hr, _, herr⟩ := Double.ofRat_error (b - a) (2 * T) hba h2T
  refine ⟨|r|, ?_, abs_nonneg r, ?_⟩
  · rw [Double.fin_sub, hr, Double.abs_fin]
  · have h1 := abs_abs_sub_abs_le_abs_sub r (b - a)
    have hu := two_zpow_neg53_pos
    clear hT h2T hr
    have e2 : (2 * T + 1) * (2 : ℚ) ^ (-53 : Int) ≤ 3 * T * (2 : ℚ) ^ (-53 : Int) := by
      apply mul_le_mul_of_nonneg_right _ (le_of_lt hu)
      linarith
    linarith

theorem max4_ge (t : Channel → ℚ) (m : ℚ) :
    m ≤ Max.max (Max.max (Max.max (Max.max m (t Channel.R)) (t Channel.G)) (t Channel.B))
        (t Channel.A) ∧
    ∀ c, t c ≤ Max.max (Max.max (Max.max (Max.max m (t Channel.R)) (t Channel.G))
        (t Channel.B)) (t Channel.A) := by
  refine ⟨le_trans (le_trans (le_trans (le_max_left _ _) (le_max_left _ _)) (le_max_left _ _))
    (le_max_left _ _), fun c => ?_⟩
  cases c
  · exact le_trans (le_trans (le_trans (le_max_right _ _) (le_max_left _ _)) (le_max_left _ _))
      (le_max_left _ _)
  · exact le_trans (le_trans (le_max_right _ _) (le_max_left _ _)) (le_max_left _ _)
  · exact le_trans (le_max_right _ _) (le_max_left _ _)
  · exact le_max_right _ _

theorem max4_le (t : Channel → ℚ) (m b : ℚ) (hm : m ≤ b) (ht : ∀ c, t c ≤ b) :
    Max.max (Max.max (Max.max (Max.max m (t Channel.R)) (t Channel.G)) (t Channel.B))
        (t Channel.A) ≤ b :=
  max_le (max_le (max_le (max_le hm (ht Channel.R)) (ht Channel.G)) (ht Channel.B))
    (ht Channel.A)

/-- The max delta after the sweep body at a pixel of Ω, on finite doubles of magnitude at
most `T`: the maximum of the max delta so far and of four deltas, each within
`3 T 2 ^ (-53)` of the exact distance between the new value and the old one. -/
theorem pixelStep_maxDiff_finite (cfg : ofApp) (src dst : ofPixels ofColor) (ins : List Bool)
    (width height : Nat) (st : SweepState) (T : ℚ)
    (hT1 : 255 ≤ T) (hT : T ≤ (2 : ℚ) ^ (1000 : Nat)) (x y : Nat)
    (hin : ins.getD (idx x y width) false = true) (mi : ℚ) (hmi : st.maxDiff = Double.fin mi)
    (a b : Channel → ℚ)
    (ha : ∀ c, (st.f.chan c).getD (idx x y width) Double.nan = Double.fin (a c))
    (hb : ∀ c, newValue cfg src dst ins width height st.f c x y = Double.fin (b c))
    (haT : ∀ c, |a c| ≤ T) (hbT : ∀ c, |b c| ≤ T) :
    ∃ δ : Channel → ℚ, (∀ c, 0 ≤ δ c ∧ |δ c - (|b c - a c|)| ≤ 3 * T * (2 : ℚ) ^ (-53 : Int)) ∧
      (pixelStep cfg src dst ins width height st x y).maxDiff
        = Double.fin (Max.max (Max.max (Max.max (Max.max mi (δ Channel.R)) (δ Channel.G))
            (δ Channel.B)) (δ Channel.A)) := by
  have h := fun c => delta_error (a c) (b c) T (haT c) (hbT c) hT1 hT
  refine ⟨fun c => (h c).choose, fun c => (h c).choose_spec.2, ?_⟩
  rw [pixelStep_maxDiff_newValue _ _ _ _ _ _ _ _ _ hin, hmi, ha, ha, ha, ha, hb, hb, hb, hb,
    (h Channel.R).choose_spec.1, (h Channel.G).choose_spec.1, (h Channel.B).choose_spec.1,
    (h Channel.A).choose_spec.1, Double.max_fin_fin, Double.max_fin_fin, Double.max_fin_fin,
    Double.max_fin_fin]

theorem Estimate.value_eq_entry (f : Estimate) (width : Nat) (c : Channel) (x y : Nat) :
    f.value width c x y = f.entry c (idx x y width) := rfl

theorem pixelStep_entry_of_ne (cfg : ofApp) (src dst : ofPixels ofColor) (ins : List Bool)
    (width height : Nat) (st : SweepState) (x y : Nat) (c : Channel) (j : Nat)
    (hj : idx x y width ≠ j) :
    (pixelStep cfg src dst ins width height st x y).f.entry c j = st.f.entry c j := by
  unfold Estimate.entry
  rw [pixelStep_getD_of_ne _ _ _ _ _ _ _ _ _ _ _ _ hj]

/-- The sweep body at a pixel of Ω with an in-bounds neighbour, with `relaxationFactor = 1`,
on a field of finite doubles that stays within `[-T, T]`, in rational terms: the entry at
the pixel becomes a value `b` within `49 T 2 ^ (-53)` of the exact average, the other
entries stay, and the max delta becomes the maximum of the max delta so far and of four
deltas, each within `3 T 2 ^ (-53)` of the distance between `b` and the old entry. -/
theorem pixelStep_inside_rat (cfg : ofApp) (src dst : ofPixels ofColor) (ins : List Bool)
    (width height : Nat) (st : SweepState) (T : ℚ) (hw : cfg.relaxationFactor = 1)
    (hf : st.f.finite (width * height)) (hb : st.f.bounded (width * height) T)
    (hT1 : 255 ≤ T) (hT : T ≤ (2 : ℚ) ^ (1000 : Nat))
    (x y : Nat) (hx : x < width) (hy : y < height) (hN : neighbors width height x y ≠ [])
    (hin : ins.getD (idx x y width) false = true)
    (hb' : (pixelStep cfg src dst ins width height st x y).f.bounded (width * height) T)
    (mi : ℚ) (hmi : st.maxDiff = Double.fin mi) :
    ∃ b δ : Channel → ℚ,
      (∀ c, |b c - newEstimate cfg src dst ins width height st.f c x y|
        ≤ 49 * T * (2 : ℚ) ^ (-53 : Int)) ∧
      (∀ c j, (pixelStep cfg src dst ins width height st x y).f.entry c j
        = if idx x y width = j then b c else st.f.entry c j) ∧
      (∀ c, 0 ≤ δ c ∧ |δ c - (|b c - st.f.entry c (idx x y width)|)|
        ≤ 3 * T * (2 : ℚ) ^ (-53 : Int)) ∧
      (pixelStep cfg src dst ins width height st x y).maxDiff
        = Double.fin (Max.max (Max.max (Max.max (Max.max mi (δ Channel.R)) (δ Channel.G))
            (δ Channel.B)) (δ Channel.A)) := by
  have h := fun c => pixelStep_inside cfg src dst ins width height st T hw hf hb hT1 hT x y hx hy
    hN hin c
  choose b hb1 hb2 hb3 hset using h
  have h2 := fun c => Estimate.finite_getD hf c (idx_lt hx hy)
  choose a ha ha2 using h2
  have hent : ∀ c j, (pixelStep cfg src dst ins width height st x y).f.entry c j
      = if idx x y width = j then b c else st.f.entry c j := by
    intro c j
    unfold Estimate.entry
    rw [hset c, getD_set]
    by_cases hj : idx x y width = j
    · have hlen : idx x y width < (st.f.chan c).length := by
        rw [(hf c).1]; exact idx_lt hx hy
      rw [if_pos ⟨hj, hlen⟩, if_pos hj]
      rfl
    · rw [if_neg (fun h => hj h.1), if_neg hj]
  have hae : ∀ c, st.f.entry c (idx x y width) = a c := fun c => Estimate.entry_of_getD (ha c)
  have haT : ∀ c, |a c| ≤ T := by
    intro c
    rw [← hae c]
    exact hb c _ (idx_lt hx hy)
  have hbT : ∀ c, |b c| ≤ T := by
    intro c
    have := hb' c _ (idx_lt hx hy)
    rw [hent c, if_pos rfl] at this
    exact this
  obtain ⟨δ, hδ, hmax⟩ := pixelStep_maxDiff_finite cfg src dst ins width height st T hT1 hT x y
    hin mi hmi a b ha hb1 haT hbT
  refine ⟨b, δ, hb3, hent, fun c => ?_, hmax⟩
  rw [hae c]
  exact hδ c

theorem sweepPrefix_zero (cfg : ofApp) (src dst : ofPixels ofColor) (ins : List Bool)
    (width height : Nat) (f : Estimate) :
    sweepPrefix cfg src dst ins width height f 0 = ⟨Double.fin 0, f⟩ := rfl

theorem bound_mul_ulp_nonneg (T : ℚ) (hT1 : 255 ≤ T) : 0 ≤ T * (2 : ℚ) ^ (-53 : Int) :=
  mul_nonneg (by linarith) (le_of_lt two_zpow_neg53_pos)

/-- With `relaxationFactor = 1`, on finite doubles that stay within `[-T, T]`, no entry of
the field is changed by a sweep by more than the max delta the sweep reports plus
`3 T 2 ^ (-53)`. -/
theorem sweepPrefix_change_le (cfg : ofApp) (src dst : ofPixels ofColor) (ins : List Bool)
    (width height : Nat) (g : Estimate) (T : ℚ) (hw : cfg.relaxationFactor = 1)
    (hg : g.finite (width * height)) (hb : g.bounded (width * height) T)
    (hb' : (sweep cfg src dst ins width height g).f.bounded (width * height) T)
    (hT1 : 255 ≤ T) (hT : T ≤ (2 : ℚ) ^ (1000 : Nat))
    (hN : ∀ x < width, ∀ y < height, ins.getD (idx x y width) false = true →
      neighbors width height x y ≠ []) (k : Nat) (hk : k ≤ width * height) :
    ∃ m, (sweepPrefix cfg src dst ins width height g k).maxDiff = Double.fin m ∧ 0 ≤ m ∧
      ∀ j c, |(sweepPrefix cfg src dst ins width height g k).f.entry c j - g.entry c j|
        ≤ m + 3 * (T * (2 : ℚ) ^ (-53 : Int)) := by
  have hU := bound_mul_ulp_nonneg T hT1
  induction k with
  | zero =>
    refine ⟨0, rfl, le_refl 0, fun j c => ?_⟩
    rw [sweepPrefix_zero, sub_self, abs_zero]
    linarith
  | succ n ih =>
    obtain ⟨mn, hmn, hmn0, hbound⟩ := ih (Nat.le_of_succ_le hk)
    obtain ⟨hx, hy⟩ := mod_div_lt (Nat.lt_of_succ_le hk)
    have hidx : idx (n % width) (n / width) width = n := idx_mod_div n width
    have hfin := sweepPrefix_finite cfg src dst ins width height g T hw hg hb hb' hT1 hT hN n
      (Nat.le_of_succ_le hk)
    have hbd := sweepPrefix_bounded cfg src dst ins width height g T hb hb' n
      (Nat.le_of_succ_le hk)
    have hbd' := sweepPrefix_bounded cfg src dst ins width height g T hb hb' (n + 1) hk
    rw [sweepPrefix_succ] at hbd' ⊢
    by_cases hin : ins.getD (idx (n % width) (n / width) width) false = true
    · obtain ⟨b, δ, _, hent, hδ, hmax⟩ := pixelStep_inside_rat cfg src dst ins width height _ T
        hw hfin hbd hT1 hT _ _ hx hy (hN _ hx _ hy hin) hin hbd' mn hmn
      obtain ⟨hge, hgec⟩ := max4_ge δ mn
      refine ⟨_, hmax, le_trans hmn0 hge, fun j c => ?_⟩
      rw [hent c j]
      by_cases hj : idx (n % width) (n / width) width = j
      · rw [if_pos hj]
        have hsame : (sweepPrefix cfg src dst ins width height g n).f.entry c
            (idx (n % width) (n / width) width) = g.entry c j := by
          rw [sweepPrefix_entry _ _ _ _ _ _ _ _ _ _ (Nat.le_of_succ_le hk), hidx,
            if_neg (lt_irrefl n), ← hj, hidx]
        have h1 := (hδ c).2
        rw [hsame, mul_assoc] at h1
        have h2 := hgec c
        have h3 := (abs_le.mp h1).1
        clear hT hbound hent hmax hδ h1
        generalize T * (2 : ℚ) ^ (-53 : Int) = U at hU h3 ⊢
        linarith
      · rw [if_neg hj]
        have := hbound j c
        linarith
    · have hin2 : ins.getD (idx (n % width) (n / width) width) false = false := by
        cases hb : ins.getD (idx (n % width) (n / width) width) false
        · rfl
        · exact absurd hb hin
      rw [pixelStep_outside _ _ _ _ _ _ _ _ _ hin2]
      exact ⟨mn, hmn, hmn0, hbound⟩

theorem abs_sum_map_le {α : Type} (l : List α) (t : α → ℚ) (m : ℚ)
    (h : ∀ q ∈ l, |t q| ≤ m) : |(l.map t).sum| ≤ (l.length : ℚ) * m := by
  induction l with
  | nil => simp
  | cons q r ih =>
    simp only [List.map_cons, List.sum_cons, List.length_cons]
    have h1 := h q (List.mem_cons_self q r)
    have h2 := ih (fun q' hq' => h q' (List.mem_cons_of_mem q hq'))
    have h3 := abs_add (t q) ((r.map t).sum)
    push_cast
    linarith

theorem sum_map_sub_sum_map {α : Type} (l : List α) (a b : α → ℚ) :
    (l.map a).sum - (l.map b).sum = (l.map (fun q => a q - b q)).sum := by
  induction l with
  | nil => simp
  | cons q r ih =>
    simp only [List.map_cons, List.sum_cons]
    rw [← ih]
    ring

/-- Two estimate fields that differ by at most `m` at the neighbours of a pixel give exact
averages that differ by at most `m` at that pixel. -/
theorem newEstimate_sub_le (cfg : ofApp) (src dst : ofPixels ofColor) (ins : List Bool)
    (width height : Nat) (F G : Estimate) (c : Channel) (x y : Nat) (m : ℚ) (hm : 0 ≤ m)
    (h : ∀ q ∈ neighbors width height x y, |F.value width c q.1 q.2 - G.value width c q.1 q.2| ≤ m) :
    |newEstimate cfg src dst ins width height F c x y
      - newEstimate cfg src dst ins width height G c x y| ≤ m := by
  unfold newEstimate
  rw [← sub_div, sum_map_sub_sum_map]
  by_cases hl : (neighbors width height x y).length = 0
  · rw [hl]
    simpa using hm
  · have hpos : (0 : ℚ) < ((neighbors width height x y).length : ℚ) := by
      exact_mod_cast Nat.pos_of_ne_zero hl
    rw [abs_div, abs_of_pos hpos, div_le_iff₀ hpos, mul_comm]
    apply abs_sum_map_le
    intro q hq
    unfold neighborTerm
    by_cases hin : ins.getD (idx q.1 q.2 width) false = true
    · simp only [hin, if_true]
      have := h q hq
      rwa [add_sub_add_right_eq_sub]
    · simp only [hin, if_false, Bool.false_eq_true]
      rw [add_sub_add_right_eq_sub, sub_self, abs_zero]
      exact hm

/-- Two successive sweeps run in lockstep, with `relaxationFactor = 1`, on finite doubles
that stay within `[-T, T]`: after `k` pixels, the fields of the two sweeps differ by at
most `m + (98 k + 3) T 2 ^ (-53)` and the max delta of the second sweep is at most
`m + (98 k + 6) T 2 ^ (-53)`, where `m` is the max delta of the first sweep. -/
theorem sweepPrefix_lockstep (cfg : ofApp) (src dst : ofPixels ofColor) (ins : List Bool)
    (width height : Nat) (g : Estimate) (T : ℚ) (hw : cfg.relaxationFactor = 1)
    (hg : g.finite (width * height)) (hb : g.bounded (width * height) T)
    (hb' : (sweep cfg src dst ins width height g).f.bounded (width * height) T)
    (hb'' : (sweep cfg src dst ins width height
      (sweep cfg src dst ins width height g).f).f.bounded (width * height) T)
    (hT1 : 255 ≤ T) (hT : T ≤ (2 : ℚ) ^ (1000 : Nat))
    (hN : ∀ x < width, ∀ y < height, ins.getD (idx x y width) false = true →
      neighbors width height x y ≠ [])
    (m : ℚ) (hm0 : 0 ≤ m)
    (hchange : ∀ j c, |(sweep cfg src dst ins width height g).f.entry c j - g.entry c j|
      ≤ m + 3 * (T * (2 : ℚ) ^ (-53 : Int)))
    (k : Nat) (hk : k ≤ width * height) :
    ∃ m', (sweepPrefix cfg src dst ins width height
        (sweep cfg src dst ins width height g).f k).maxDiff = Double.fin m' ∧ 0 ≤ m' ∧
      m' ≤ m + (98 * (k : ℚ) + 6) * (T * (2 : ℚ) ^ (-53 : Int)) ∧
      ∀ j c, |(sweepPrefix cfg src dst ins width height
          (sweep cfg src dst ins width height g).f k).f.entry c j
        - (sweepPrefix cfg src dst ins width height g k).f.entry c j|
        ≤ m + (98 * (k : ℚ) + 3) * (T * (2 : ℚ) ^ (-53 : Int)) := by
  have hU := bound_mul_ulp_nonneg T hT1
  have hg' := sweep_finite cfg src dst ins width height g T hw hg hb hb' hT1 hT hN
  induction k with
  | zero =>
    refine ⟨0, rfl, le_refl 0, ?_, fun j c => ?_⟩
    · push_cast
      linarith
    · rw [sweepPrefix_zero, sweepPrefix_zero]
      have := hchange j c
      push_cast
      linarith
  | succ n ih =>
    obtain ⟨m', hm', hm'0, hm'le, hbound⟩ := ih (Nat.le_of_succ_le hk)
    obtain ⟨hx, hy⟩ := mod_div_lt (Nat.lt_of_succ_le hk)
    have hn : n ≤ width * height := Nat.le_of_succ_le hk
    have hidx : idx (n % width) (n / width) width = n := idx_mod_div n width
    have hAfin := sweepPrefix_finite cfg src dst ins width height g T hw hg hb hb' hT1 hT hN n hn
    have hAbd := sweepPrefix_bounded cfg src dst ins width height g T hb hb' n hn
    have hAbd' := sweepPrefix_bounded cfg src dst ins width height g T hb hb' (n + 1) hk
    have hBfin := sweepPrefix_finite cfg src dst ins width height _ T hw hg' hb' hb'' hT1 hT hN
      n hn
    have hBbd := sweepPrefix_bounded cfg src dst ins width height _ T hb' hb'' n hn
    have hBbd' := sweepPrefix_bounded cfg src dst ins width height _ T hb' hb'' (n + 1) hk
    obtain ⟨mA, hmA, _, _⟩ := sweepPrefix_change_le cfg src dst ins width height g T hw hg hb hb'
      hT1 hT hN n hn
    have hAnext : ∀ c, (sweepPrefix cfg src dst ins width height g (n + 1)).f.entry c n
        = (sweep cfg src dst ins width height g).f.entry c n := by
      intro c
      rw [sweepPrefix_entry _ _ _ _ _ _ _ _ _ _ hk, if_pos (Nat.lt_succ_self n)]
    have hBold : ∀ c, (sweepPrefix cfg src dst ins width height
        (sweep cfg src dst ins width height g).f n).f.entry c n
        = (sweep cfg src dst ins width height g).f.entry c n := by
      intro c
      rw [sweepPrefix_entry _ _ _ _ _ _ _ _ _ _ hn, if_neg (lt_irrefl n)]
    rw [sweepPrefix_succ] at hAbd' hBbd' hAnext
    rw [sweepPrefix_succ, sweepPrefix_succ]
    have hmono6 : m + (98 * (n : ℚ) + 6) * (T * (2 : ℚ) ^ (-53 : Int))
        ≤ m + (98 * ((n + 1 : Nat) : ℚ) + 6) * (T * (2 : ℚ) ^ (-53 : Int)) := by
      push_cast
      nlinarith
    have hmono3 : m + (98 * (n : ℚ) + 3) * (T * (2 : ℚ) ^ (-53 : Int))
        ≤ m + (98 * ((n + 1 : Nat) : ℚ) + 3) * (T * (2 : ℚ) ^ (-53 : Int)) := by
      push_cast
      nlinarith
    by_cases hin : ins.getD (idx (n % width) (n / width) width) false = true
    · obtain ⟨bA, δA, hA49, hAent, _, _⟩ := pixelStep_inside_rat cfg src dst ins width height _
        T hw hAfin hAbd hT1 hT _ _ hx hy (hN _ hx _ hy hin) hin hAbd' mA hmA
      obtain ⟨bB, δB, hB49, hBent, hδB, hmaxB⟩ := pixelStep_inside_rat cfg src dst ins width
        height _ T hw hBfin hBbd hT1 hT _ _ hx hy (hN _ hx _ hy hin) hin hBbd' m' hm'
      have hn0 : (0 : ℚ) ≤ (n : ℚ) := Nat.cast_nonneg n
      have hbnd0 : 0 ≤ m + (98 * (n : ℚ) + 3) * (T * (2 : ℚ) ^ (-53 : Int)) := by
        have : 0 ≤ (98 * (n : ℚ) + 3) * (T * (2 : ℚ) ^ (-53 : Int)) :=
          mul_nonneg (by linarith) hU
        linarith
      have hne : ∀ c, |newEstimate cfg src dst ins width height
            (sweepPrefix cfg src dst ins width height
              (sweep cfg src dst ins width height g).f n).f c (n % width) (n / width)
          - newEstimate cfg src dst ins width height
            (sweepPrefix cfg src dst ins width height g n).f c (n % width) (n / width)|
          ≤ m + (98 * (n : ℚ) + 3) * (T * (2 : ℚ) ^ (-53 : Int)) := by
        intro c
        apply newEstimate_sub_le _ _ _ _ _ _ _ _ _ _ _ _ hbnd0
        intro q _
        rw [Estimate.value_eq_entry, Estimate.value_eq_entry]
        exact hbound _ c
      have hbb : ∀ c, |bB c - bA c|
          ≤ m + (98 * ((n + 1 : Nat) : ℚ) + 3) * (T * (2 : ℚ) ^ (-53 : Int)) := by
        intro c
        have h1 := hA49 c
        have h2 := hB49 c
        have h3 := hne c
        rw [mul_assoc] at h1 h2
        rw [abs_le] at h1 h2 h3 ⊢
        push_cast
        clear hT hbound hAent hBent hmaxB hδB hA49 hB49 hne
        generalize T * (2 : ℚ) ^ (-53 : Int) = U at hU h1 h2 h3 ⊢
        constructor <;> nlinarith [h1.1, h1.2, h2.1, h2.2, h3.1, h3.2]
      have hBval : ∀ c, (sweepPrefix cfg src dst ins width height
          (sweep cfg src dst ins width height g).f n).f.entry c
            (idx (n % width) (n / width) width) = bA c := by
        intro c
        rw [hidx, hBold c, ← hAnext c, hAent c n, if_pos hidx]
      have hδle : ∀ c, δB c
          ≤ m + (98 * ((n + 1 : Nat) : ℚ) + 6) * (T * (2 : ℚ) ^ (-53 : Int)) := by
        intro c
        have h1 := (hδB c).2
        rw [hBval c, mul_assoc] at h1
        have h2 := hbb c
        have h3 := (abs_le.mp h1).2
        clear hT hbound hAent hBent hmaxB hδB hA49 hB49 hne h1
        generalize T * (2 : ℚ) ^ (-53 : Int) = U at hU h2 h3 ⊢
        linarith
      obtain ⟨hge, _⟩ := max4_ge δB m'
      refine ⟨_, hmaxB, le_trans hm'0 hge, max4_le δB m' _ (le_trans hm'le hmono6) hδle,
        fun j c => ?_⟩
      rw [hAent c j, hBent c j]
      by_cases hj : idx (n % width) (n / width) width = j
      · rw [if_pos hj, if_pos hj]
        exact hbb c
      · rw [if_neg hj, if_neg hj]
        exact le_trans (hbound j c) hmono3
    · have hin2 : ins.getD (idx (n % width) (n / width) width) false = false := by
        cases hb : ins.getD (idx (n % width) (n / width) width) false
        · rfl
        · exact absurd hb hin
      rw [pixelStep_outside _ _ _ _ _ _ _ _ _ hin2, pixelStep_outside _ _ _ _ _ _ _ _ _ hin2]
      exact ⟨m', hm', hm'0, le_trans hm'le hmono6, fun j c => le_trans (hbound j c) hmono3⟩

/-- With `relaxationFactor = 1`, on finite doubles that stay within `[-T, T]` and a raster
in which every pixel of Ω has an in-bounds neighbour: a sweep reports a finite max delta
`m ≥ 0` and changes no entry by more than `m + 3 T 2 ^ (-53)`. -/
theorem sweep_change_le (cfg : ofApp) (src dst : ofPixels ofColor) (ins : List Bool)
    (width height : Nat) (g : Estimate) (T : ℚ) (hw : cfg.relaxationFactor = 1)
    (hg : g.finite (width * height)) (hb : g.bounded (width * height) T)
    (hb' : (sweep cfg src dst ins width height g).f.bounded (width * height) T)
    (hT1 : 255 ≤ T) (hT : T ≤ (2 : ℚ) ^ (1000 : Nat))
    (hN : ∀ x < width, ∀ y < height, ins.getD (idx x y width) false = true →
      neighbors width height x y ≠ []) :
    ∃ m, (sweep cfg src dst ins width height g).maxDiff = Double.fin m ∧ 0 ≤ m ∧
      ∀ j c, |(sweep cfg src dst ins width height g).f.entry c j - g.entry c j|
        ≤ m + 3 * (T * (2 : ℚ) ^ (-53 : Int)) := by
  rw [sweep_eq_sweepPrefix]
  exact sweepPrefix_change_le cfg src dst ins width height g T hw hg hb hb' hT1 hT hN _
    (le_refl _)

/-- With `relaxationFactor = 1`, on finite doubles that stay within `[-T, T]` and a raster
in which every pixel of Ω has an in-bounds neighbour: the max delta of a sweep exceeds the
max delta of the sweep before it by at most `(98 N + 6) T 2 ^ (-53)`, with `N` the number
of pixels. -/
theorem sweep_maxDiff_succ_le (cfg : ofApp) (src dst : ofPixels ofColor) (ins : List Bool)
    (width height : Nat) (g : Estimate) (T : ℚ) (hw : cfg.relaxationFactor = 1)
    (hg : g.finite (width * height)) (hb : g.bounded (width * height) T)
    (hb' : (sweep cfg src dst ins width height g).f.bounded (width * height) T)
    (hb'' : (sweep cfg src dst ins width height
      (sweep cfg src dst ins width height g).f).f.bounded (width * height) T)
    (hT1 : 255 ≤ T) (hT : T ≤ (2 : ℚ) ^ (1000 : Nat))
    (hN : ∀ x < width, ∀ y < height, ins.getD (idx x y width) false = true →
      neighbors width height x y ≠ []) :
    ∃ m m', (sweep cfg src dst ins width height g).maxDiff = Double.fin m ∧
      (sweep cfg src dst ins width height (sweep cfg src dst ins width height g).f).maxDiff
        = Double.fin m' ∧ 0 ≤ m ∧ 0 ≤ m' ∧
      m' ≤ m + (98 * ((width * height : Nat) : ℚ) + 6) * (T * (2 : ℚ) ^ (-53 : Int)) := by
  obtain ⟨m, hm, hm0, hchange⟩ := sweep_change_le cfg src dst ins width height g T hw hg hb hb'
    hT1 hT hN
  obtain ⟨m', hm', hm'0, hle, _⟩ := sweepPrefix_lockstep cfg src dst ins width height g T hw hg
    hb hb' hb'' hT1 hT hN m hm0 hchange _ (le_refl _)
  refine ⟨m, m', hm, ?_, hm0, hm'0, hle⟩
  rw [sweep_eq_sweepPrefix cfg src dst ins width height (sweep cfg src dst ins width height g).f]
  exact hm'

theorem sweepsFrom_finite (cfg : ofApp) (src dst : ofPixels ofColor) (ins : List Bool)
    (width height : Nat) (f : Estimate) (T : ℚ) (K : Nat) (hw : cfg.relaxationFactor = 1)
    (hf : f.finite (width * height))
    (hb : ∀ j, j ≤ K → (sweepsFrom cfg src dst ins width height f j).bounded (width * height) T)
    (hT1 : 255 ≤ T) (hT : T ≤ (2 : ℚ) ^ (1000 : Nat))
    (hN : ∀ x < width, ∀ y < height, ins.getD (idx x y width) false = true →
      neighbors width height x y ≠ []) (k : Nat) (hk : k ≤ K) :
    (sweepsFrom cfg src dst ins width height f k).finite (width * height) := by
  induction k with
  | zero => exact hf
  | succ n ih =>
    exact sweep_finite cfg src dst ins width height _ T hw (ih (Nat.le_of_succ_le hk))
      (hb n (Nat.le_of_succ_le hk)) (hb (n + 1) hk) hT1 hT hN

/-- Either every pixel of Ω has an in-bounds neighbour, or the raster is the 1×1 raster and
its pixel is in Ω. -/
theorem neighbors_dichotomy (ins : List Bool) (width height : Nat) :
    (∀ x < width, ∀ y < height, ins.getD (idx x y width) false = true →
      neighbors width height x y ≠ []) ∨
    (width = 1 ∧ height = 1 ∧ ins.getD 0 false = true) := by
  by_cases h2 : 2 ≤ width * height
  · left
    intro x hx y hy _ hnil
    have := neighbors_length_pos width height x y hx hy h2
    rw [hnil] at this
    simp at this
  · by_cases h1 : width = 1 ∧ height = 1 ∧ ins.getD 0 false = true
    · right; exact h1
    · left
      intro x hx y hy hin
      exfalso
      have hw : 1 ≤ width := by omega
      have hh : 1 ≤ height := by omega
      have hwh : width * height ≤ 1 := by omega
      have hw1 : width = 1 := by
        rcases Nat.lt_or_ge width 2 with h | h
        · omega
        · have : 2 * 1 ≤ width * height := Nat.mul_le_mul h hh
          omega
      have hh1 : height = 1 := by
        rcases Nat.lt_or_ge height 2 with h | h
        · omega
        · have : 1 * 2 ≤ width * height := Nat.mul_le_mul hw h
          omega
      subst hw1; subst hh1
      have hx0 : x = 0 := by omega
      have hy0 : y = 0 := by omega
      subst hx0; subst hy0
      exact h1 ⟨rfl, rfl, by simpa [idx] using hin⟩

theorem Double.nan_sub (d : Double) : Double.nan - d = Double.nan := by
  cases d <;> rfl

theorem Double.add_nan (d : Double) : d + Double.nan = Double.nan := by
  cases d <;> rfl

theorem Double.mul_nan (d : Double) : d * Double.nan = Double.nan := by
  cases d <;> rfl

theorem Double.max_nan (d : Double) : Double.max d Double.nan = d := by
  cases d <;> rfl

theorem neighborSums_one_by_one (cfg : ofApp) (src dst : ofPixels ofColor) (ins : List Bool)
    (f : Estimate) :
    neighborSums cfg src dst ins 1 1 f 0 0
      = ⟨Double.fin 0, Double.fin 0, Double.fin 0, Double.fin 0, 0⟩ := by
  rw [neighborSums_eq_foldl _ _ _ _ _ _ _ _ _ (by decide) (by decide)]
  rfl

theorem sweep_one_by_one (cfg : ofApp) (src dst : ofPixels ofColor) (ins : List Bool)
    (f : Estimate) :
    sweep cfg src dst ins 1 1 f = pixelStep cfg src dst ins 1 1 ⟨Double.fin 0, f⟩ 0 0 := by
  unfold sweep forYX
  rfl

/-- On the 1×1 raster whose pixel is in Ω the sweep divides `0.0` by `nCount = 0`: it
reports a max delta of 0 and leaves `NaN` in every channel. -/
theorem sweep_one_by_one_inside (cfg : ofApp) (src dst : ofPixels ofColor) (ins : List Bool)
    (f : Estimate) (hin : ins.getD 0 false = true) :
    (sweep cfg src dst ins 1 1 f).maxDiff = Double.fin 0 ∧
    ∀ c, ((sweep cfg src dst ins 1 1 f).f.chan c).getD 0 Double.nan = Double.nan := by
  have hin' : ins.getD (idx 0 0 1) false = true := by simpa [idx] using hin
  have hdiv : ∀ c, (neighborSums cfg src dst ins 1 1 f 0 0).chan c
      / Double.ofNat (neighborSums cfg src dst ins 1 1 f 0 0).nCount = Double.nan := by
    intro c
    rw [neighborSums_one_by_one]
    cases c <;> decide
  rw [sweep_one_by_one]
  constructor
  · rw [pixelStep_maxDiff _ _ _ _ _ _ _ _ _ hin']
    simp only [hdiv, Double.nan_sub, Double.abs, Double.max_nan]
  · intro c
    rw [pixelStep_f_chan _ _ _ _ _ _ _ _ _ hin', hdiv, getD_set]
    split
    · unfold relax
      rw [Double.mul_nan, Double.add_nan]
    · rename_i hlen
      have hl : (f.chan c).length ≤ idx 0 0 1 := by
        by_contra hcon
        exact hlen ⟨rfl, Nat.lt_of_not_le hcon⟩
      exact List.getD_eq_default _ _ hl

theorem slack_nonneg (n : Nat) (T : ℚ) (hT1 : 255 ≤ T) :
    0 ≤ (98 * (n : ℚ) + 6) * (T * (2 : ℚ) ^ (-53 : Int)) :=
  mul_nonneg (by have : (0 : ℚ) ≤ (n : ℚ) := Nat.cast_nonneg n; linarith)
    (bound_mul_ulp_nonneg T hT1)

/-- The max delta of a sweep is a finite number `m ≥ 0`. -/
theorem maxDelta_fin (cfg : ofApp) (src dst : ofPixels ofColor) (ins : List Bool)
    (width height : Nat) (f : Estimate) (T : ℚ) (K : Nat) (hw : cfg.relaxationFactor = 1)
    (hf : f.finite (width * height))
    (hb : ∀ j, j ≤ K → (sweepsFrom cfg src dst ins width height f j).bounded (width * height) T)
    (hT1 : 255 ≤ T) (hT : T ≤ (2 : ℚ) ^ (1000 : Nat)) (k : Nat) (hk : k + 1 ≤ K) :
    ∃ m, maxDelta cfg src dst ins width height f k = Double.fin m ∧ 0 ≤ m := by
  rcases neighbors_dichotomy ins width height with hN | ⟨hw1, hh1, hin⟩
  · obtain ⟨m, hm, hm0, _⟩ := sweep_change_le cfg src dst ins width height
      (sweepsFrom cfg src dst ins width height f k) T hw
      (sweepsFrom_finite cfg src dst ins width height f T K hw hf hb hT1 hT hN k (by omega))
      (hb k (by omega)) (hb (k + 1) hk) hT1 hT hN
    exact ⟨m, hm, hm0⟩
  · subst hw1; subst hh1
    exact ⟨0, (sweep_one_by_one_inside cfg src dst ins _ hin).1, le_refl 0⟩

theorem maxDelta_succ_le (cfg : ofApp) (src dst : ofPixels ofColor) (ins : List Bool)
    (width height : Nat) (f : Estimate) (T : ℚ) (K : Nat) (hw : cfg.relaxationFactor = 1)
    (hf : f.finite (width * height))
    (hb : ∀ j, j ≤ K → (sweepsFrom cfg src dst ins width height f j).bounded (width * height) T)
    (hT1 : 255 ≤ T) (hT : T ≤ (2 : ℚ) ^ (1000 : Nat)) (k : Nat) (hk : k + 2 ≤ K) :
    ∃ m m', maxDelta cfg src dst ins width height f k = Double.fin m ∧
      maxDelta cfg src dst ins width height f (k + 1) = Double.fin m' ∧
      m' ≤ m + (98 * ((width * height : Nat) : ℚ) + 6) * (T * (2 : ℚ) ^ (-53 : Int)) := by
  rcases neighbors_dichotomy ins width height with hN | ⟨hw1, hh1, hin⟩
  · obtain ⟨m, m', hm, hm', _, _, hle⟩ := sweep_maxDiff_succ_le cfg src dst ins width height
      (sweepsFrom cfg src dst ins width height f k) T hw
      (sweepsFrom_finite cfg src dst ins width height f T K hw hf hb hT1 hT hN k (by omega))
      (hb k (by omega)) (hb (k + 1) (by omega)) (hb (k + 2) hk) hT1 hT hN
    exact ⟨m, m', hm, hm', hle⟩
  · subst hw1; subst hh1
    refine ⟨0, 0, (sweep_one_by_one_inside cfg src dst ins _ hin).1,
      (sweep_one_by_one_inside cfg src dst ins _ hin).1, ?_⟩
    have := slack_nonneg (1 * 1) T hT1
    linarith

/-- Over several sweeps the max delta grows by at most `(98 N + 6) T 2 ^ (-53)` per
sweep. -/
theorem maxDelta_le_add (cfg : ofApp) (src dst : ofPixels ofColor) (ins : List Bool)
    (width height : Nat) (f : Estimate) (T : ℚ) (K : Nat) (hw : cfg.relaxationFactor = 1)
    (hf : f.finite (width * height))
    (hb : ∀ j, j ≤ K → (sweepsFrom cfg src dst ins width height f j).bounded (width * height) T)
    (hT1 : 255 ≤ T) (hT : T ≤ (2 : ℚ) ^ (1000 : Nat)) (a b : Nat) (hab : a ≤ b)
    (hbK : b + 1 ≤ K) :
    ∃ m m', maxDelta cfg src dst ins width height f a = Double.fin m ∧
      maxDelta cfg src dst ins width height f b = Double.fin m' ∧
      m' ≤ m + ((b : ℚ) - (a : ℚ))
        * ((98 * ((width * height : Nat) : ℚ) + 6) * (T * (2 : ℚ) ^ (-53 : Int))) := by
  have hS := slack_nonneg (width * height) T hT1
  induction b with
  | zero =>
    have ha : a = 0 := by omega
    subst ha
    obtain ⟨m, hm, _⟩ := maxDelta_fin cfg src dst ins width height f T K hw hf hb hT1 hT 0 hbK
    exact ⟨m, m, hm, hm, by simp⟩
  | succ n ih =>
    by_cases han : a = n + 1
    · subst han
      obtain ⟨m, hm, _⟩ := maxDelta_fin cfg src dst ins width height f T K hw hf hb hT1 hT
        (n + 1) hbK
      exact ⟨m, m, hm, hm, by simp⟩
    · obtain ⟨m, m₁, hm, hm₁, hle⟩ := ih (by omega) (by omega)
      obtain ⟨m₂, m', hm₂, hm', hle'⟩ :=
        maxDelta_succ_le cfg src dst ins width height f T K hw hf hb hT1 hT n (by omega)
      have h12 : m₁ = m₂ := by
        have := hm₁.symm.trans hm₂
        injection this
      subst h12
      refine ⟨m, m', hm, hm', ?_⟩
      push_cast at hle hle' ⊢
      clear hT
      generalize (98 * ((width : ℚ) * (height : ℚ)) + 6) * (T * (2 : ℚ) ^ (-53 : Int)) = S
        at hle hle' ⊢
      linarith

theorem Estimate.bounded_mono {f : Estimate} {n : Nat} {S T : ℚ} (h : f.bounded n S)
    (hST : S ≤ T) : f.bounded n T :=
  fun c i hi => le_trans (h c i hi) hST

theorem neighborTerm_abs_le (cfg : ofApp) (src dst : ofPixels ofColor) (ins : List Bool)
    (width height : Nat) (f : Estimate) (S : ℚ) (hb : f.bounded (width * height) S)
    (hS : 255 ≤ S) (c : Channel) (x y : Nat) (hx : x < width) (hy : y < height)
    (q : Nat × Nat) (hq : q ∈ neighbors width height x y) :
    |neighborTerm cfg src dst ins width f c (x, y) q| ≤ S + 255 := by
  obtain ⟨hq1, hq2⟩ := neighbors_mem_bounds hx hy hq
  unfold neighborTerm
  have hg := guidanceValue_abs_le cfg src dst c (x, y) q
  have h1 : |if ins.getD (idx q.1 q.2 width) false = true then f.value width c q.1 q.2
      else ((dst.getColor q.1 q.2).chan c : ℚ)| ≤ S := by
    split
    · exact hb c _ (idx_lt hq1 hq2)
    · have h0 : (0 : ℚ) ≤ ((dst.getColor q.1 q.2).chan c : ℚ) := Nat.cast_nonneg _
      have h255 : (((dst.getColor q.1 q.2).chan c : Nat) : ℚ) ≤ 255 := by
        have := ofColor.chan_lt (dst.getColor q.1 q.2) c
        exact_mod_cast (by omega : (dst.getColor q.1 q.2).chan c ≤ 255)
      rw [abs_of_nonneg h0]
      linarith
  have := abs_add
    (if ins.getD (idx q.1 q.2 width) false = true then f.value width c q.1 q.2
      else ((dst.getColor q.1 q.2).chan c : ℚ)) (guidanceValue cfg src dst c (x, y) q)
  linarith

/-- The exact average at a pixel exceeds a bound `S ≥ 255` of the field by at most 255. -/
theorem newEstimate_abs_le (cfg : ofApp) (src dst : ofPixels ofColor) (ins : List Bool)
    (width height : Nat) (f : Estimate) (S : ℚ) (hb : f.bounded (width * height) S)
    (hS : 255 ≤ S) (c : Channel) (x y : Nat) (hx : x < width) (hy : y < height) :
    |newEstimate cfg src dst ins width height f c x y| ≤ S + 255 := by
  unfold newEstimate
  have hsum := abs_sum_map_le (neighbors width height x y)
    (neighborTerm cfg src dst ins width f c (x, y)) (S + 255)
    (fun q hq => neighborTerm_abs_le cfg src dst ins width height f S hb hS c x y hx hy q hq)
  by_cases hl : (neighbors width height x y).length = 0
  · rw [hl]
    simp only [Nat.cast_zero, div_zero, abs_zero]
    linarith
  · have hpos : (0 : ℚ) < ((neighbors width height x y).length : ℚ) := by
      exact_mod_cast Nat.pos_of_ne_zero hl
    rw [abs_div, abs_of_pos hpos, div_le_iff₀ hpos, mul_comm]
    exact hsum

/-- One execution of the sweep body raises a bound `S` of the field by at most 256. -/
theorem pixelStep_bounded_add (cfg : ofApp) (src dst : ofPixels ofColor) (ins : List Bool)
    (width height : Nat) (st : SweepState) (S : ℚ) (hw : cfg.relaxationFactor = 1)
    (hf : st.f.finite (width * height)) (hb : st.f.bounded (width * height) S)
    (hS1 : 255 ≤ S) (hS : S ≤ (2 : ℚ) ^ (45 : Nat))
    (x y : Nat) (hx : x < width) (hy : y < height)
    (hN : ins.getD (idx x y width) false = true → neighbors width height x y ≠ []) :
    (pixelStep cfg src dst ins width height st x y).f.bounded (width * height) (S + 256) := by
  have hT : S ≤ (2 : ℚ) ^ (1000 : Nat) :=
    le_trans hS (pow_le_pow_right₀ (by norm_num) (by norm_num))
  by_cases hin : ins.getD (idx x y width) false = true
  · intro c j hj
    obtain ⟨b, _, _, hb3, hset⟩ := pixelStep_inside cfg src dst ins width height st S hw hf hb
      hS1 hT x y hx hy (hN hin) hin c
    unfold Estimate.entry
    rw [hset, getD_set]
    split
    · show |b| ≤ S + 256
      have hne := newEstimate_abs_le cfg src dst ins width height st.f S hb hS1 c x y hx hy
      have herr : 49 * S * (2 : ℚ) ^ (-53 : Int) ≤ 1 := by
        have e : (2 : ℚ) ^ (-53 : Int) = 1 / 9007199254740992 := by norm_num
        rw [e]
        have h45 : (2 : ℚ) ^ (45 : Nat) = 35184372088832 := by norm_num
        rw [h45] at hS
        linarith
      clear hT hS
      have h1 := abs_sub_abs_le_abs_sub b
        (newEstimate cfg src dst ins width height st.f c x y)
      linarith
    · have := hb c j hj
      unfold Estimate.entry at this
      linarith
  · have hin2 : ins.getD (idx x y width) false = false := by
      cases hb : ins.getD (idx x y width) false
      · rfl
      · exact absurd hb hin
    rw [pixelStep_outside _ _ _ _ _ _ _ _ _ hin2]
    exact Estimate.bounded_mono hb (by linarith)

/-- After `i` pixels of a sweep, a bound `S` of the field has grown by at most `256 i`. -/
theorem sweepPrefix_bounded_add (cfg : ofApp) (src dst : ofPixels ofColor) (ins : List Bool)
    (width height : Nat) (f : Estimate) (S : ℚ) (hw : cfg.relaxationFactor = 1)
    (hf : f.finite (width * height)) (hb : f.bounded (width * height) S)
    (hS1 : 255 ≤ S) (hS : S + 256 * ((width * height : Nat) : ℚ) ≤ (2 : ℚ) ^ (45 : Nat))
    (hN : ∀ x < width, ∀ y < height, ins.getD (idx x y width) false = true →
      neighbors width height x y ≠ []) (i : Nat) (hi : i ≤ width * height) :
    (sweepPrefix cfg src dst ins width height f i).f.finite (width * height) ∧
    (sweepPrefix cfg src dst ins width height f i).f.bounded (width * height)
      (S + 256 * (i : ℚ)) := by
  induction i with
  | zero =>
    refine ⟨hf, ?_⟩
    simpa using hb
  | succ n ih =>
    obtain ⟨ihf, ihb⟩ := ih (Nat.le_of_succ_le hi)
    obtain ⟨hx, hy⟩ := mod_div_lt (Nat.lt_of_succ_le hi)
    have hn0 : (0 : ℚ) ≤ (n : ℚ) := Nat.cast_nonneg n
    have hnN : ((n + 1 : Nat) : ℚ) ≤ ((width * height : Nat) : ℚ) := by exact_mod_cast hi
    push_cast at hnN hS
    have hSn1 : 255 ≤ S + 256 * (n : ℚ) := by linarith
    have hSn : S + 256 * (n : ℚ) ≤ (2 : ℚ) ^ (45 : Nat) := by linarith
    have hT : S + 256 * (n : ℚ) ≤ (2 : ℚ) ^ (1000 : Nat) :=
      le_trans hSn (pow_le_pow_right₀ (by norm_num) (by norm_num))
    rw [sweepPrefix_succ]
    refine ⟨pixelStep_finite cfg src dst ins width height _ _ hw ihf ihb hSn1 hT _ _ hx hy
      (hN _ hx _ hy), ?_⟩
    have := pixelStep_bounded_add cfg src dst ins width height _ _ hw ihf ihb hSn1 hSn _ _ hx hy
      (hN _ hx _ hy)
    refine Estimate.bounded_mono this ?_
    push_cast
    linarith

theorem sweep_bounded_add (cfg : ofApp) (src dst : ofPixels ofColor) (ins : List Bool)
    (width height : Nat) (f : Estimate) (S : ℚ) (hw : cfg.relaxationFactor = 1)
    (hf : f.finite (width * height)) (hb : f.bounded (width * height) S)
    (hS1 : 255 ≤ S) (hS : S + 256 * ((width * height : Nat) : ℚ) ≤ (2 : ℚ) ^ (45 : Nat))
    (hN : ∀ x < width, ∀ y < height, ins.getD (idx x y width) false = true →
      neighbors width height x y ≠ []) :
    (sweep cfg src dst ins width height f).f.finite (width * height) ∧
    (sweep cfg src dst ins width height f).f.bounded (width * height)
      (S + 256 * ((width * height : Nat) : ℚ)) := by
  rw [sweep_eq_sweepPrefix]
  exact sweepPrefix_bounded_add cfg src dst ins width height f S hw hf hb hS1 hS hN _ (le_refl _)

theorem sweepsFrom_bounded_add (cfg : ofApp) (src dst : ofPixels ofColor) (ins : List Bool)
    (width height : Nat) (f : Estimate) (S : ℚ) (K : Nat) (hw : cfg.relaxationFactor = 1)
    (hf : f.finite (width * height)) (hb : f.bounded (width * height) S)
    (hS1 : 255 ≤ S)
    (hS : S + 256 * ((K : ℚ) * ((width * height : Nat) : ℚ)) ≤ (2 : ℚ) ^ (45 : Nat))
    (hN : ∀ x < width, ∀ y < height, ins.getD (idx x y width) false = true →
      neighbors width height x y ≠ []) (j : Nat) (hj : j ≤ K) :
    (sweepsFrom cfg src dst ins width height f j).finite (width * height) ∧
    (sweepsFrom cfg src dst ins width height f j).bounded (width * height)
      (S + 256 * ((j : ℚ) * ((width * height : Nat) : ℚ))) := by
  have hN0 : (0 : ℚ) ≤ ((width * height : Nat) : ℚ) := Nat.cast_nonneg _
  induction j with
  | zero =>
    refine ⟨hf, ?_⟩
    simpa using hb
  | succ n ih =>
    obtain ⟨ihf, ihb⟩ := ih (Nat.le_of_succ_le hj)
    have hn0 : (0 : ℚ) ≤ (n : ℚ) := Nat.cast_nonneg n
    have hnK : ((n + 1 : Nat) : ℚ) ≤ (K : ℚ) := by exact_mod_cast hj
    push_cast at hnK
    have hmul : ((n : ℚ) + 1) * ((width * height : Nat) : ℚ)
        ≤ (K : ℚ) * ((width * height : Nat) : ℚ) := mul_le_mul_of_nonneg_right hnK hN0
    have hnn : (0 : ℚ) ≤ (n : ℚ) * ((width * height : Nat) : ℚ) := mul_nonneg hn0 hN0
    have h := sweep_bounded_add cfg src dst ins width height _
      (S + 256 * ((n : ℚ) * ((width * height : Nat) : ℚ))) hw ihf ihb (by linarith)
      (by linarith) hN
    refine ⟨h.1, Estimate.bounded_mono h.2 ?_⟩
    push_cast
    linarith

theorem initEstimate_bounded (cfg : ofApp) (src dst : ofPixels ofColor) (ins : List Bool)
    (width height : Nat) :
    (initEstimate cfg src dst ins width height).bounded (width * height) 255 := by
  intro c i hi
  unfold Estimate.entry
  rw [(initEstimate_spec cfg src dst ins width height c).2 i hi]
  split
  · rw [Double.ofNat_eq]
    show |((_ : Nat) : ℚ)| ≤ 255
    rw [abs_of_nonneg (Nat.cast_nonneg _)]
    have := ofColor.chan_lt (if cfg.guessDestination = true then
      dst.getColor (i % width) (i / width) else src.getColor (i % width) (i / width)) c
    exact_mod_cast (by omega : (if cfg.guessDestination = true then
      dst.getColor (i % width) (i / width) else src.getColor (i % width) (i / width)).chan c
        ≤ 255)
  · show |(0 : ℚ)| ≤ 255
    norm_num

/-- With `relaxationFactor = 1`, the estimate field of every input stays, during the first
`K` sweeps, within `[-T, T]` for `T = 255 + 256 K N`, where `N` is the number of pixels
(as long as this `T` is at most `2 ^ 45`). -/
theorem sweepsFrom_bounded_a_priori (cfg : ofApp) (src dst : ofPixels ofColor)
    (ins : List Bool) (width height : Nat) (K : Nat) (hw : cfg.relaxationFactor = 1)
    (hK : 255 + 256 * ((K : ℚ) * ((width * height : Nat) : ℚ)) ≤ (2 : ℚ) ^ (45 : Nat))
    (j : Nat) (hj : j ≤ K) :
    (sweepsFrom cfg src dst ins width height (initEstimate cfg src dst ins width height)
      j).bounded (width * height) (255 + 256 * ((K : ℚ) * ((width * height : Nat) : ℚ))) := by
  have hN0 : (0 : ℚ) ≤ ((width * height : Nat) : ℚ) := Nat.cast_nonneg _
  have hK0 : (0 : ℚ) ≤ (K : ℚ) := Nat.cast_nonneg _
  have hKN : (0 : ℚ) ≤ (K : ℚ) * ((width * height : Nat) : ℚ) := mul_nonneg hK0 hN0
  rcases neighbors_dichotomy ins width height with hN | ⟨hw1, hh1, hin⟩
  · have h := (sweepsFrom_bounded_add cfg src dst ins width height _ 255 K hw
      (initEstimate_finite cfg src dst ins width height)
      (initEstimate_bounded cfg src dst ins width height) (le_refl _) hK hN j hj).2
    refine Estimate.bounded_mono h ?_
    have hjK : (j : ℚ) ≤ (K : ℚ) := by exact_mod_cast hj
    have := mul_le_mul_of_nonneg_right hjK hN0
    linarith
  · subst hw1; subst hh1
    cases j with
    | zero =>
      exact Estimate.bounded_mono (initEstimate_bounded cfg src dst ins 1 1) (by linarith)
    | succ n =>
      intro c i hi
      have hi0 : i = 0 := by omega
      subst hi0
      have h := (sweep_one_by_one_inside cfg src dst ins
        (sweepsFrom cfg src dst ins 1 1 (initEstimate cfg src dst ins 1 1) n) hin).2 c
      have he : (sweepsFrom cfg src dst ins 1 1 (initEstimate cfg src dst ins 1 1)
          (n + 1)).entry c 0 = 0 := by
        unfold Estimate.entry
        show (((sweep cfg src dst ins 1 1 (sweepsFrom cfg src dst ins 1 1
          (initEstimate cfg src dst ins 1 1) n)).f.chan c).getD 0 Double.nan).toRat = 0
        rw [h]
        rfl
      rw [he, abs_zero]
      linarith

/-! ## The max delta from sweep to sweep (plain Gauss-Seidel) -/

/-- Claim C11, as stated, fails.  With the parameters of `ofApp.h` (`relaxationFactor = 1`),
a uniform source, a 3×3 destination and the 2×2 region at its top left, the max deltas of
sweeps 2 and 3 are `0x1.5555555555555p-2` and `0x1.5555555555556p-2`: the delta of sweep 3
is larger, by one unit in the last place, than the delta of sweep 2, and raising
`maxIterations` from 2 to 3 raises the max delta of the last sweep. -/
theorem maxDelta_increases :
    (ofApp.default.relaxationFactor = 1) ∧
    maxDelta ofApp.default ⟨3, 3, List.replicate 9 ⟨0, 0, 0, 255⟩⟩
        ⟨3, 3, [⟨0, 0, 0, 255⟩, ⟨0, 0, 0, 255⟩, ⟨1, 0, 0, 255⟩,
                ⟨0, 0, 0, 255⟩, ⟨0, 0, 0, 255⟩, ⟨1, 0, 0, 255⟩,
                ⟨0, 0, 0, 255⟩, ⟨2, 0, 0, 255⟩, ⟨0, 0, 0, 255⟩]⟩
        (inside ⟨3, 3, [255, 255, 0, 255, 255, 0, 0, 0, 0]⟩ 3 3) 3 3
        (initEstimate ofApp.default ⟨3, 3, List.replicate 9 ⟨0, 0, 0, 255⟩⟩
          ⟨3, 3, [⟨0, 0, 0, 255⟩, ⟨0, 0, 0, 255⟩, ⟨1, 0, 0, 255⟩,
                  ⟨0, 0, 0, 255⟩, ⟨0, 0, 0, 255⟩, ⟨1, 0, 0, 255⟩,
                  ⟨0, 0, 0, 255⟩, ⟨2, 0, 0, 255⟩, ⟨0, 0, 0, 255⟩]⟩
          (inside ⟨3, 3, [255, 255, 0, 255, 255, 0, 0, 0, 0]⟩ 3 3) 3 3) 1
      = Double.fin (6004799503160661 / 18014398509481984) ∧
    maxDelta ofApp.default ⟨3, 3, List.replicate 9 ⟨0, 0, 0, 255⟩⟩
        ⟨3, 3, [⟨0, 0, 0, 255⟩, ⟨0, 0, 0, 255⟩, ⟨1, 0, 0, 255⟩,
                ⟨0, 0, 0, 255⟩, ⟨0, 0, 0, 255⟩, ⟨1, 0, 0, 255⟩,
                ⟨0, 0, 0, 255⟩, ⟨2, 0, 0, 255⟩, ⟨0, 0, 0, 255⟩]⟩
        (inside ⟨3, 3, [255, 255, 0, 255, 255, 0, 0, 0, 0]⟩ 3 3) 3 3
        (initEstimate ofApp.default ⟨3, 3, List.replicate 9 ⟨0, 0, 0, 255⟩⟩
          ⟨3, 3, [⟨0, 0, 0, 255⟩, ⟨0, 0, 0, 255⟩, ⟨1, 0, 0, 255⟩,
                  ⟨0, 0, 0, 255⟩, ⟨0, 0, 0, 255⟩, ⟨1, 0, 0, 255⟩,
                  ⟨0, 0, 0, 255⟩, ⟨2, 0, 0, 255⟩, ⟨0, 0, 0, 255⟩]⟩
          (inside ⟨3, 3, [255, 255, 0, 255, 255, 0, 0, 0, 0]⟩ 3 3) 3 3) 2
      = Double.fin (6004799503160662 / 18014398509481984) ∧
    (6004799503160661 / 18014398509481984 : ℚ) < 6004799503160662 / 18014398509481984 ∧
    lastDelta ⟨2, 1 / 1000, 1, true, false⟩ ⟨3, 3, List.replicate 9 ⟨0, 0, 0, 255⟩⟩
        ⟨3, 3, [255, 255, 0, 255, 255, 0, 0, 0, 0]⟩
        ⟨3, 3, [⟨0, 0, 0, 255⟩, ⟨0, 0, 0, 255⟩, ⟨1, 0, 0, 255⟩,
                ⟨0, 0, 0, 255⟩, ⟨0, 0, 0, 255⟩, ⟨1, 0, 0, 255⟩,
                ⟨0, 0, 0, 255⟩, ⟨2, 0, 0, 255⟩, ⟨0, 0, 0, 255⟩]⟩
      = Double.fin (6004799503160661 / 18014398509481984) ∧
    lastDelta ⟨3, 1 / 1000, 1, true, false⟩ ⟨3, 3, List.replicate 9 ⟨0, 0, 0, 255⟩⟩
        ⟨3, 3, [255, 255, 0, 255, 255, 0, 0, 0, 0]⟩
        ⟨3, 3, [⟨0, 0, 0, 255⟩, ⟨0, 0, 0, 255⟩, ⟨1, 0, 0, 255⟩,
                ⟨0, 0, 0, 255⟩, ⟨0, 0, 0, 255⟩, ⟨1, 0, 0, 255⟩,
                ⟨0, 0, 0, 255⟩, ⟨2, 0, 0, 255⟩, ⟨0, 0, 0, 255⟩]⟩
      = Double.fin (6004799503160662 / 18014398509481984) := by
  refine ⟨rfl, by decide!, by decide!, by norm_num, by decide!, by decide!⟩

/-- With `relaxationFactor = 1`, on doubles that stay within `[-T, T]`: if a sweep reports
the max delta `m`, the sweep after the next leaves every entry of the estimate field
unchanged or changes it by at most `m + (98 N + 9) T 2 ^ (-53)`. -/
theorem sweep_after_le (cfg : ofApp) (src dst : ofPixels ofColor) (ins : List Bool)
    (width height : Nat) (f : Estimate) (T : ℚ) (K : Nat) (hw : cfg.relaxationFactor = 1)
    (hf : f.finite (width * height))
    (hb : ∀ j, j ≤ K → (sweepsFrom cfg src dst ins width height f j).bounded (width * height) T)
    (hT1 : 255 ≤ T) (hT : T ≤ (2 : ℚ) ^ (1000 : Nat)) (k : Nat) (hk : k + 2 ≤ K)
    (j : Nat) (hj : j < width * height) (c : Channel) (m : ℚ)
    (hm : maxDelta cfg src dst ins width height f k = Double.fin m) :
    ((sweepsFrom cfg src dst ins width height f (k + 2)).chan c).getD j Double.nan
      = ((sweepsFrom cfg src dst ins width height f (k + 1)).chan c).getD j Double.nan ∨
    ∃ a b,
      ((sweepsFrom cfg src dst ins width height f (k + 1)).chan c).getD j Double.nan
        = Double.fin a ∧
      ((sweepsFrom cfg src dst ins width height f (k + 2)).chan c).getD j Double.nan
        = Double.fin b ∧
      |b - a| ≤ m + (98 * ((width * height : Nat) : ℚ) + 9) * (T * (2 : ℚ) ^ (-53 : Int)) := by
  rcases neighbors_dichotomy ins width height with hN | ⟨hw1, hh1, hin⟩
  · right
    obtain ⟨m₀, m', hm₀, hm', hle⟩ := maxDelta_succ_le cfg src dst ins width height f T K hw hf
      hb hT1 hT k hk
    have h0 : m₀ = m := by
      have : Double.fin m₀ = Double.fin m := hm₀.symm.trans hm
      injection this
    subst h0
    have hg := sweepsFrom_finite cfg src dst ins width height f T K hw hf hb hT1 hT hN (k + 1)
      (by omega)
    have hg2 := sweepsFrom_finite cfg src dst ins width height f T K hw hf hb hT1 hT hN (k + 2)
      hk
    obtain ⟨m₁, hm₁, _, hchange⟩ := sweep_change_le cfg src dst ins width height
      (sweepsFrom cfg src dst ins width height f (k + 1)) T hw hg (hb (k + 1) (by omega))
      (hb (k + 2) hk) hT1 hT hN
    have h1 : m₁ = m' := by
      have : Double.fin m₁ = Double.fin m' := hm₁.symm.trans hm'
      injection this
    subst h1
    obtain ⟨a, ha, _⟩ := Estimate.finite_getD hg c hj
    obtain ⟨b, hb2, _⟩ := Estimate.finite_getD hg2 c hj
    refine ⟨a, b, ha, hb2, ?_⟩
    have hc : |(sweepsFrom cfg src dst ins width height f (k + 2)).entry c j
        - (sweepsFrom cfg src dst ins width height f (k + 1)).entry c j|
        ≤ m₁ + 3 * (T * (2 : ℚ) ^ (-53 : Int)) := hchange j c
    rw [Estimate.entry_of_getD hb2, Estimate.entry_of_getD ha] at hc
    clear hT
    generalize T * (2 : ℚ) ^ (-53 : Int) = U at hle hc ⊢
    linarith
  · left
    subst hw1; subst hh1
    have hj0 : j = 0 := by omega
    subst hj0
    have h2 := (sweep_one_by_one_inside cfg src dst ins
      (sweepsFrom cfg src dst ins 1 1 f (k + 1)) hin).2 c
    have h1 := (sweep_one_by_one_inside cfg src dst ins
      (sweepsFrom cfg src dst ins 1 1 f k) hin).2 c
    exact h2.trans h1.symm

theorem iterate_count_mono (cfg : ofApp) (src dst : ofPixels ofColor) (ins : List Bool)
    (width height : Nat) (b b' : Nat) (hbb : b ≤ b') (f : Estimate) :
    (iterate cfg src dst ins width height b f).1
      ≤ (iterate cfg src dst ins width height b' f).1 := by
  induction b generalizing b' f with
  | zero => simp [iterate]
  | succ n ih =>
    cases b' with
    | zero => omega
    | succ n' =>
      unfold iterate
      simp only
      split
      · exact le_refl _
      · simp only
        have := ih n' (by omega) (sweep cfg src dst ins width height f).f
        omega

theorem iterate_count_pos (cfg : ofApp) (src dst : ofPixels ofColor) (ins : List Bool)
    (width height : Nat) (b : Nat) (hb : 1 ≤ b) (f : Estimate) :
    1 ≤ (iterate cfg src dst ins width height b f).1 := by
  cases b with
  | zero => omega
  | succ n =>
    unfold iterate
    simp only
    split
    · exact le_refl _
    · simp

theorem sweep_with_maxIterations (cfg : ofApp) (src dst : ofPixels ofColor)
    (ins : List Bool) (width height : Nat) (f : Estimate) (M : Int) :
    sweep { cfg with maxIterations := M } src dst ins width height f
      = sweep cfg src dst ins width height f :=
  rfl

theorem initEstimate_with_maxIterations (cfg : ofApp) (src dst : ofPixels ofColor)
    (ins : List Bool) (width height : Nat) (M : Int) :
    initEstimate { cfg with maxIterations := M } src dst ins width height
      = initEstimate cfg src dst ins width height :=
  rfl

theorem sweepsFrom_with_maxIterations (cfg : ofApp) (src dst : ofPixels ofColor)
    (ins : List Bool) (width height : Nat) (f : Estimate) (k : Nat) (M : Int) :
    sweepsFrom { cfg with maxIterations := M } src dst ins width height f k
      = sweepsFrom cfg src dst ins width height f k := by
  induction k with
  | zero => rfl
  | succ n ih =>
    show (sweep { cfg with maxIterations := M } src dst ins width height
      (sweepsFrom { cfg with maxIterations := M } src dst ins width height f n)).f = _
    rw [ih, sweep_with_maxIterations]
    rfl

theorem maxDelta_with_maxIterations (cfg : ofApp) (src dst : ofPixels ofColor)
    (ins : List Bool) (width height : Nat) (f : Estimate) (k : Nat) (M : Int) :
    maxDelta { cfg with maxIterations := M } src dst ins width height f k
      = maxDelta cfg src dst ins width height f k := by
  unfold maxDelta
  rw [sweepsFrom_with_maxIterations, sweep_with_maxIterations]

theorem iterate_with_maxIterations (cfg : ofApp) (src dst : ofPixels ofColor)
    (ins : List Bool) (width height : Nat) (budget : Nat) (f : Estimate) (M : Int) :
    iterate { cfg with maxIterations := M } src dst ins width height budget f
      = iterate cfg src dst ins width height budget f := by
  induction budget generalizing f with
  | zero => rfl
  | succ n ih =>
    unfold iterate
    simp only [sweep_with_maxIterations, ih]

theorem solve_with_maxIterations (cfg : ofApp) (src : ofPixels ofColor) (mask : ofPixels Nat)
    (dst : ofPixels ofColor) (M : Int) :
    solve { cfg with maxIterations := M } src mask dst
      = iterate cfg src dst (inside mask dst.width dst.height) dst.width dst.height M.toNat
          (initEstimate cfg src dst (inside mask dst.width dst.height) dst.width dst.height) := by
  unfold solve
  simp only
  rw [iterate_with_maxIterations, initEstimate_with_maxIterations]

/-- Claim C11, amended.  With `relaxationFactor = 1`, for every input whose estimate field
stays within `[-T, T]` during the first `K` sweeps (`255 ≤ T ≤ 2 ^ 1000`), and with `N` the
number of pixels: the max delta reported by a sweep exceeds the max delta reported by the
sweep before it by at most `(98 N + 6) T 2 ^ (-53)`; once a sweep has reported the max delta
`m` (in particular one below the tolerance), one more sweep leaves every entry of the
estimate field unchanged or changes it by at most `m + (98 N + 9) T 2 ^ (-53)`; and raising
`maxIterations` raises the max delta of the last sweep performed by at most
`(98 N + 6) T 2 ^ (-53)` for each additional sweep.  Such a bound exists for every input:
the estimate field stays within `[-T', T']` for `T' = 255 + 256 K' N` during the first `K'`
sweeps (as long as this `T'` is at most `2 ^ 45`). -/
theorem maxDelta_nonincreasing_up_to_rounding (cfg : ofApp) (src : ofPixels ofColor)
    (mask : ofPixels Nat) (dst : ofPixels ofColor) (T : ℚ) (K : Nat)
    (hw : cfg.relaxationFactor = 1) (hT1 : 255 ≤ T) (hT : T ≤ (2 : ℚ) ^ (1000 : Nat))
    (hb : ∀ j, j ≤ K →
      (sweepsFrom cfg src dst (inside mask dst.width dst.height) dst.width dst.height
        (initEstimate cfg src dst (inside mask dst.width dst.height) dst.width dst.height)
        j).bounded (dst.width * dst.height) T) :
    (∀ k, k + 2 ≤ K → ∃ m m',
      maxDelta cfg src dst (inside mask dst.width dst.height) dst.width dst.height
        (initEstimate cfg src dst (inside mask dst.width dst.height) dst.width dst.height) k
        = Double.fin m ∧
      maxDelta cfg src dst (inside mask dst.width dst.height) dst.width dst.height
        (initEstimate cfg src dst (inside mask dst.width dst.height) dst.width dst.height)
        (k + 1) = Double.fin m' ∧
      m' ≤ m + (98 * ((dst.width * dst.height : Nat) : ℚ) + 6) * (T * (2 : ℚ) ^ (-53 : Int))) ∧
    (∀ k j c m, k + 2 ≤ K → j < dst.width * dst.height →
      maxDelta cfg src dst (inside mask dst.width dst.height) dst.width dst.height
        (initEstimate cfg src dst (inside mask dst.width dst.height) dst.width dst.height) k
        = Double.fin m →
      ((sweepsFrom cfg src dst (inside mask dst.width dst.height) dst.width dst.height
          (initEstimate cfg src dst (inside mask dst.width dst.height) dst.width dst.height)
          (k + 2)).chan c).getD j Double.nan
        = ((sweepsFrom cfg src dst (inside mask dst.width dst.height) dst.width dst.height
          (initEstimate cfg src dst (inside mask dst.width dst.height) dst.width dst.height)
          (k + 1)).chan c).getD j Double.nan ∨
      ∃ a b,
        ((sweepsFrom cfg src dst (inside mask dst.width dst.height) dst.width dst.height
          (initEstimate cfg src dst (inside mask dst.width dst.height) dst.width dst.height)
          (k + 1)).chan c).getD j Double.nan = Double.fin a ∧
        ((sweepsFrom cfg src dst (inside mask dst.width dst.height) dst.width dst.height
          (initEstimate cfg src dst (inside mask dst.width dst.height) dst.width dst.height)
          (k + 2)).chan c).getD j Double.nan = Double.fin b ∧
        |b - a| ≤ m
          + (98 * ((dst.width * dst.height : Nat) : ℚ) + 9) * (T * (2 : ℚ) ^ (-53 : Int))) ∧
    (∀ M : Int, 1 ≤ cfg.maxIterations → cfg.maxIterations ≤ M → M ≤ (K : Int) →
      ∃ m m', lastDelta cfg src mask dst = Double.fin m ∧
        lastDelta { cfg with maxIterations := M } src mask dst = Double.fin m' ∧
        m' ≤ m + ((((solve { cfg with maxIterations := M } src mask dst).1 : Nat) : ℚ)
            - (((solve cfg src mask dst).1 : Nat) : ℚ))
          * ((98 * ((dst.width * dst.height : Nat) : ℚ) + 6)
            * (T * (2 : ℚ) ^ (-53 : Int)))) ∧
    (∀ K' : Nat,
      255 + 256 * ((K' : ℚ) * ((dst.width * dst.height : Nat) : ℚ)) ≤ (2 : ℚ) ^ (45 : Nat) →
      ∀ j, j ≤ K' →
        (sweepsFrom cfg src dst (inside mask dst.width dst.height) dst.width dst.height
          (initEstimate cfg src dst (inside mask dst.width dst.height) dst.width dst.height)
          j).bounded (dst.width * dst.height)
          (255 + 256 * ((K' : ℚ) * ((dst.width * dst.height : Nat) : ℚ)))) := by
  have hf := initEstimate_finite cfg src dst (inside mask dst.width dst.height) dst.width
    dst.height
  refine ⟨fun k hk => ?_, fun k j c m hk hj hm => ?_, fun M h1 hM hMK => ?_,
    fun K' hK' j hj => ?_⟩
  rotate_left 3
  · exact sweepsFrom_bounded_a_priori cfg src dst _ dst.width dst.height K' hw hK' j hj
  · exact maxDelta_succ_le cfg src dst _ dst.width dst.height _ T K hw hf hb hT1 hT k hk
  · exact sweep_after_le cfg src dst _ dst.width dst.height _ T K hw hf hb hT1 hT k hk j hj c m
      hm
  · have hmono := iterate_count_mono cfg src dst (inside mask dst.width dst.height) dst.width
      dst.height cfg.maxIterations.toNat M.toNat (by omega)
      (initEstimate cfg src dst (inside mask dst.width dst.height) dst.width dst.height)
    have hpos := iterate_count_pos cfg src dst (inside mask dst.width dst.height) dst.width
      dst.height cfg.maxIterations.toNat (by omega)
      (initEstimate cfg src dst (inside mask dst.width dst.height) dst.width dst.height)
    have hle := iterate_count_le cfg src dst (inside mask dst.width dst.height) dst.width
      dst.height M.toNat
      (initEstimate cfg src dst (inside mask dst.width dst.height) dst.width dst.height)
    unfold lastDelta
    rw [solve_with_maxIterations cfg src mask dst M,
      maxDelta_with_maxIterations cfg src dst _ _ _ _ _ M,
      initEstimate_with_maxIterations cfg src dst _ _ _ M]
    unfold solve
    simp only
    obtain ⟨m, m', hm, hm', hmm⟩ := maxDelta_le_add cfg src dst _ dst.width dst.height _ T K hw
      hf hb hT1 hT
      ((iterate cfg src dst (inside mask dst.width dst.height) dst.width dst.height
        cfg.maxIterations.toNat
        (initEstimate cfg src dst (inside mask dst.width dst.height) dst.width dst.height)).1
        - 1)
      ((iterate cfg src dst (inside mask dst.width dst.height) dst.width dst.height M.toNat
        (initEstimate cfg src dst (inside mask dst.width dst.height) dst.width dst.height)).1
        - 1) (by omega) (by omega)
    refine ⟨m, m', hm, hm', ?_⟩
    have e : ∀ p q : Nat, 1 ≤ p → p ≤ q → (((q - 1 : Nat) : ℚ) - ((p - 1 : Nat) : ℚ))
        = (q : ℚ) - (p : ℚ) := by
      intro p q hp hpq
      rw [Nat.cast_sub (by omega : 1 ≤ q), Nat.cast_sub hp]
      ring
    rw [e _ _ hpos hmono] at hmm
    exact hmm

/-- The input on which the max delta rises by one unit in the last place, with the bound
`T = 255` during the first `K = 3` sweeps: the rise from sweep 2 to sweep 3 and the rise of
the last max delta when `maxIterations` goes from 2 to 3 are within the stated slack. -/
theorem maxDelta_nonincreasing_up_to_rounding_witness :
    (⟨2, 1 / 1000, 1, true, false⟩ : ofApp).relaxationFactor = 1 ∧
    (255 : ℚ) ≤ 255 ∧ (255 : ℚ) ≤ (2 : ℚ) ^ (1000 : Nat) ∧
    (∀ j, j ≤ 3 →
      (sweepsFrom ⟨2, 1 / 1000, 1, true, false⟩ ⟨3, 3, List.replicate 9 ⟨0, 0, 0, 255⟩⟩
        ⟨3, 3, [⟨0, 0, 0, 255⟩, ⟨0, 0, 0, 255⟩, ⟨1, 0, 0, 255⟩,
                ⟨0, 0, 0, 255⟩, ⟨0, 0, 0, 255⟩, ⟨1, 0, 0, 255⟩,
                ⟨0, 0, 0, 255⟩, ⟨2, 0, 0, 255⟩, ⟨0, 0, 0, 255⟩]⟩
        (inside ⟨3, 3, [255, 255, 0, 255, 255, 0, 0, 0, 0]⟩ 3 3) 3 3
        (initEstimate ⟨2, 1 / 1000, 1, true, false⟩ ⟨3, 3, List.replicate 9 ⟨0, 0, 0, 255⟩⟩
          ⟨3, 3, [⟨0, 0, 0, 255⟩, ⟨0, 0, 0, 255⟩, ⟨1, 0, 0, 255⟩,
                  ⟨0, 0, 0, 255⟩, ⟨0, 0, 0, 255⟩, ⟨1, 0, 0, 255⟩,
                  ⟨0, 0, 0, 255⟩, ⟨2, 0, 0, 255⟩, ⟨0, 0, 0, 255⟩]⟩
          (inside ⟨3, 3, [255, 255, 0, 255, 255, 0, 0, 0, 0]⟩ 3 3) 3 3) j).bounded (3 * 3) 255) ∧
    (∃ m m',
      maxDelta ⟨2, 1 / 1000, 1, true, false⟩ ⟨3, 3, List.replicate 9 ⟨0, 0, 0, 255⟩⟩
        ⟨3, 3, [⟨0, 0, 0, 255⟩, ⟨0, 0, 0, 255⟩, ⟨1, 0, 0, 255⟩,
                ⟨0, 0, 0, 255⟩, ⟨0, 0, 0, 255⟩, ⟨1, 0, 0, 255⟩,
                ⟨0, 0, 0, 255⟩, ⟨2, 0, 0, 255⟩, ⟨0, 0, 0, 255⟩]⟩
        (inside ⟨3, 3, [255, 255, 0, 255, 255, 0, 0, 0, 0]⟩ 3 3) 3 3
        (initEstimate ⟨2, 1 / 1000, 1, true, false⟩ ⟨3, 3, List.replicate 9 ⟨0, 0, 0, 255⟩⟩
          ⟨3, 3, [⟨0, 0, 0, 255⟩, ⟨0, 0, 0, 255⟩, ⟨1, 0, 0, 255⟩,
                  ⟨0, 0, 0, 255⟩, ⟨0, 0, 0, 255⟩, ⟨1, 0, 0, 255⟩,
                  ⟨0, 0, 0, 255⟩, ⟨2, 0, 0, 255⟩, ⟨0, 0, 0, 255⟩]⟩
          (inside ⟨3, 3, [255, 255, 0, 255, 255, 0, 0, 0, 0]⟩ 3 3) 3 3) 1 = Double.fin m ∧
      maxDelta ⟨2, 1 / 1000, 1, true, false⟩ ⟨3, 3, List.replicate 9 ⟨0, 0, 0, 255⟩⟩
        ⟨3, 3, [⟨0, 0, 0, 255⟩, ⟨0, 0, 0, 255⟩, ⟨1, 0, 0, 255⟩,
                ⟨0, 0, 0, 255⟩, ⟨0, 0, 0, 255⟩, ⟨1, 0, 0, 255⟩,
                ⟨0, 0, 0, 255⟩, ⟨2, 0, 0, 255⟩, ⟨0, 0, 0, 255⟩]⟩
        (inside ⟨3, 3, [255, 255, 0, 255, 255, 0, 0, 0, 0]⟩ 3 3) 3 3
        (initEstimate ⟨2, 1 / 1000, 1, true, false⟩ ⟨3, 3, List.replicate 9 ⟨0, 0, 0, 255⟩⟩
          ⟨3, 3, [⟨0, 0, 0, 255⟩, ⟨0, 0, 0, 255⟩, ⟨1, 0, 0, 255⟩,
                  ⟨0, 0, 0, 255⟩, ⟨0, 0, 0, 255⟩, ⟨1, 0, 0, 255⟩,
                  ⟨0, 0, 0, 255⟩, ⟨2, 0, 0, 255⟩, ⟨0, 0, 0, 255⟩]⟩
          (inside ⟨3, 3, [255, 255, 0, 255, 255, 0, 0, 0, 0]⟩ 3 3) 3 3) (1 + 1)
        = Double.fin m' ∧
      m' ≤ m + (98 * ((3 * 3 : Nat) : ℚ) + 6) * (255 * (2 : ℚ) ^ (-53 : Int))) ∧
    (∃ m m',
      lastDelta ⟨2, 1 / 1000, 1, true, false⟩ ⟨3, 3, List.replicate 9 ⟨0, 0, 0, 255⟩⟩
        ⟨3, 3, [255, 255, 0, 255, 255, 0, 0, 0, 0]⟩
        ⟨3, 3, [⟨0, 0, 0, 255⟩, ⟨0, 0, 0, 255⟩, ⟨1, 0, 0, 255⟩,
                ⟨0, 0, 0, 255⟩, ⟨0, 0, 0, 255⟩, ⟨1, 0, 0, 255⟩,
                ⟨0, 0, 0, 255⟩, ⟨2, 0, 0, 255⟩, ⟨0, 0, 0, 255⟩]⟩ = Double.fin m ∧
      lastDelta { (⟨2, 1 / 1000, 1, true, false⟩ : ofApp) with maxIterations := 3 }
        ⟨3, 3, List.replicate 9 ⟨0, 0, 0, 255⟩⟩
        ⟨3, 3, [255, 255, 0, 255, 255, 0, 0, 0, 0]⟩
        ⟨3, 3, [⟨0, 0, 0, 255⟩, ⟨0, 0, 0, 255⟩, ⟨1, 0, 0, 255⟩,
                ⟨0, 0, 0, 255⟩, ⟨0, 0, 0, 255⟩, ⟨1, 0, 0, 255⟩,
                ⟨0, 0, 0, 255⟩, ⟨2, 0, 0, 255⟩, ⟨0, 0, 0, 255⟩]⟩ = Double.fin m' ∧
      m' ≤ m + ((((solve { (⟨2, 1 / 1000, 1, true, false⟩ : ofApp) with maxIterations := 3 }
            ⟨3, 3, List.replicate 9 ⟨0, 0, 0, 255⟩⟩
            ⟨3, 3, [255, 255, 0, 255, 255, 0, 0, 0, 0]⟩
            ⟨3, 3, [⟨0, 0, 0, 255⟩, ⟨0, 0, 0, 255⟩, ⟨1, 0, 0, 255⟩,
                    ⟨0, 0, 0, 255⟩, ⟨0, 0, 0, 255⟩, ⟨1, 0, 0, 255⟩,
                    ⟨0, 0, 0, 255⟩, ⟨2, 0, 0, 255⟩, ⟨0, 0, 0, 255⟩]⟩).1 : Nat) : ℚ)
          - (((solve ⟨2, 1 / 1000, 1, true, false⟩
            ⟨3, 3, List.replicate 9 ⟨0, 0, 0, 255⟩⟩
            ⟨3, 3, [255, 255, 0, 255, 255, 0, 0, 0, 0]⟩
            ⟨3, 3, [⟨0, 0, 0, 255⟩, ⟨0, 0, 0, 255⟩, ⟨1, 0, 0, 255⟩,
                    ⟨0, 0, 0, 255⟩, ⟨0, 0, 0, 255⟩, ⟨1, 0, 0, 255⟩,
                    ⟨0, 0, 0, 255⟩, ⟨2, 0, 0, 255⟩, ⟨0, 0, 0, 255⟩]⟩).1 : Nat) : ℚ))
        * ((98 * ((3 * 3 : Nat) : ℚ) + 6) * (255 * (2 : ℚ) ^ (-53 : Int)))) :=
  have hb : ∀ j, j ≤ 3 →
      (sweepsFrom ⟨2, 1 / 1000, 1, true, false⟩ ⟨3, 3, List.replicate 9 ⟨0, 0, 0, 255⟩⟩
        ⟨3, 3, [⟨0, 0, 0, 255⟩, ⟨0, 0, 0, 255⟩, ⟨1, 0, 0, 255⟩,
                ⟨0, 0, 0, 255⟩, ⟨0, 0, 0, 255⟩, ⟨1, 0, 0, 255⟩,
                ⟨0, 0, 0, 255⟩, ⟨2, 0, 0, 255⟩, ⟨0, 0, 0, 255⟩]⟩
        (inside ⟨3, 3, [255, 255, 0, 255, 255, 0, 0, 0, 0]⟩ 3 3) 3 3
        (initEstimate ⟨2, 1 / 1000, 1, true, false⟩ ⟨3, 3, List.replicate 9 ⟨0, 0, 0, 255⟩⟩
          ⟨3, 3, [⟨0, 0, 0, 255⟩, ⟨0, 0, 0, 255⟩, ⟨1, 0, 0, 255⟩,
                  ⟨0, 0, 0, 255⟩, ⟨0, 0, 0, 255⟩, ⟨1, 0, 0, 255⟩,
                  ⟨0, 0, 0, 255⟩, ⟨2, 0, 0, 255⟩, ⟨0, 0, 0, 255⟩]⟩
          (inside ⟨3, 3, [255, 255, 0, 255, 255, 0, 0, 0, 0]⟩ 3 3) 3 3) j).bounded (3 * 3)
        255 := by
    decide!
  have h := maxDelta_nonincreasing_up_to_rounding ⟨2, 1 / 1000, 1, true, false⟩
    ⟨3, 3, List.replicate 9 ⟨0, 0, 0, 255⟩⟩ ⟨3, 3, [255, 255, 0, 255, 255, 0, 0, 0, 0]⟩
    ⟨3, 3, [⟨0, 0, 0, 255⟩, ⟨0, 0, 0, 255⟩, ⟨1, 0, 0, 255⟩,
            ⟨0, 0, 0, 255⟩, ⟨0, 0, 0, 255⟩, ⟨1, 0, 0, 255⟩,
            ⟨0, 0, 0, 255⟩, ⟨2, 0, 0, 255⟩, ⟨0, 0, 0, 255⟩]⟩ 255 3 rfl (le_refl _)
    (by norm_num) hb
  ⟨rfl, le_refl _, by norm_num, hb, h.1 1 (by decide), h.2.2.1 3 (by decide) (by decide)
    (by decide)⟩

/-! ## Fixed points of the sweep and the discrete Poisson equation -/

theorem sum_map_ite_add {α : Type} (l : List α) (p : α → Bool) (a b g : α → ℚ) :
    (l.map (fun q => (if p q = true then a q else b q) + g q)).sum
      = ((l.filter p).map a).sum + ((l.filter (fun q => !p q)).map b).sum + (l.map g).sum := by
  induction l with
  | nil => simp
  | cons q t ih =>
    simp only [List.map_cons, List.sum_cons, ih, List.filter_cons]
    cases hp : p q
    · simp only [Bool.false_eq_true, if_false, Bool.not_false, if_true, List.map_cons,
        List.sum_cons]
      ring
    · simp only [if_true, Bool.not_true, Bool.false_eq_true, if_false, List.map_cons,
        List.sum_cons]
      ring

/-- The residual of the discrete Poisson equation at a pixel is `|N_p|` times the distance
between the estimate at the pixel and the exact average `newEstimate` computed there. -/
theorem poisson_residual_eq (cfg : ofApp) (src dst : ofPixels ofColor) (ins : List Bool)
    (width height : Nat) (f : Estimate) (c : Channel) (x y : Nat)
    (hN : neighbors width height x y ≠ []) :
    (((neighbors width height x y).length : ℚ) * f.value width c x y
      - (((neighbors width height x y).filter
            (fun q => ins.getD (idx q.1 q.2 width) false)).map
            (fun q => f.value width c q.1 q.2)).sum)
    - ((((neighbors width height x y).filter
            (fun q => !ins.getD (idx q.1 q.2 width) false)).map
            (fun q => ((dst.getColor q.1 q.2).chan c : ℚ))).sum
      + ((neighbors width height x y).map (guidanceValue cfg src dst c (x, y))).sum)
    = ((neighbors width height x y).length : ℚ)
        * (f.value width c x y - newEstimate cfg src dst ins width height f c x y) := by
  have hne : ((neighbors width height x y).length : ℚ) ≠ 0 := by
    have : (neighbors width height x y).length ≠ 0 := by
      intro h0
      exact hN (List.length_eq_zero.mp h0)
    exact_mod_cast this
  unfold newEstimate
  have hsum := sum_map_ite_add (neighbors width height x y)
    (fun q => ins.getD (idx q.1 q.2 width) false) (fun q => f.value width c q.1 q.2)
    (fun q => ((dst.getColor q.1 q.2).chan c : ℚ)) (guidanceValue cfg src dst c (x, y))
  have hterm : (neighbors width height x y).map (neighborTerm cfg src dst ins width f c (x, y))
      = (neighbors width height x y).map (fun q =>
          (if ins.getD (idx q.1 q.2 width) false = true then f.value width c q.1 q.2
            else ((dst.getColor q.1 q.2).chan c : ℚ)) + guidanceValue cfg src dst c (x, y) q) := rfl
  rw [hterm, hsum, mul_sub, mul_div_cancel₀ _ hne]
  ring

/-- At a fixed point of the update as the program computes it, on finite doubles of
magnitude at most `T`, the discrete Poisson equation holds up to a residual of at most
`196 T 2 ^ (-53)`. -/
theorem poisson_residual_le (cfg : ofApp) (src dst : ofPixels ofColor) (ins : List Bool)
    (width height : Nat) (f : Estimate) (T : ℚ) (hf : f.finite (width * height))
    (hb : f.bounded (width * height) T) (hT1 : 255 ≤ T) (hT : T ≤ (2 : ℚ) ^ (1000 : Nat))
    (x y : Nat) (hx : x < width) (hy : y < height) (hN : neighbors width height x y ≠ [])
    (c : Channel)
    (hfix : newValue cfg src dst ins width height f c x y
      = (f.chan c).getD (idx x y width) Double.nan) :
    |(((neighbors width height x y).length : ℚ) * f.value width c x y
      - (((neighbors width height x y).filter
            (fun q => ins.getD (idx q.1 q.2 width) false)).map
            (fun q => f.value width c q.1 q.2)).sum)
    - ((((neighbors width height x y).filter
            (fun q => !ins.getD (idx q.1 q.2 width) false)).map
            (fun q => ((dst.getColor q.1 q.2).chan c : ℚ))).sum
      + ((neighbors width height x y).map (guidanceValue cfg src dst c (x, y))).sum)|
      ≤ 196 * T * (2 : ℚ) ^ (-53 : Int) := by
  rw [poisson_residual_eq cfg src dst ins width height f c x y hN]
  obtain ⟨b, hb1, _, hb3⟩ := newValue_error cfg src dst ins width height f T hf hb hT1 hT
    x y hx hy hN c
  have hval : f.value width c x y = b := by
    rw [Estimate.value_eq_entry]
    exact Estimate.entry_of_getD (hfix.symm.trans hb1)
  rw [hval, abs_mul]
  have hn4 : ((neighbors width height x y).length : ℚ) ≤ 4 := by
    exact_mod_cast neighbors_length_le width height x y
  have hn0 : (0 : ℚ) ≤ ((neighbors width height x y).length : ℚ) := Nat.cast_nonneg _
  rw [abs_of_nonneg hn0]
  have h49 : (0 : ℚ) ≤ 49 * T * (2 : ℚ) ^ (-53 : Int) :=
    mul_nonneg (by linarith) (le_of_lt two_zpow_neg53_pos)
  calc ((neighbors width height x y).length : ℚ)
        * |b - newEstimate cfg src dst ins width height f c x y|
      ≤ 4 * (49 * T * (2 : ℚ) ^ (-53 : Int)) :=
        mul_le_mul hn4 hb3 (abs_nonneg _) (by norm_num)
    _ = 196 * T * (2 : ℚ) ^ (-53 : Int) := by ring

end SeamlessClone
